import Mathlib


/-!
Verification of the pebble write-path core against its specification.

The development shallowly embeds the Go sources:
  * `sstable/block.go` — the prefix-compressed block writer and its
    bidirectional iterator (`BlockWriter`, `BlockIter`);
  * `version_set.go`  — the version set (`versionSet.load`, `logAndApply`,
    `markFileNumUsed`, `nextFileNum`, `append`);
  * `db.go`           — `DB.writeLevel0Table` and `DB.Close`.

Bytes are modelled as `List Nat` (each element is one byte), machine
integers as `Nat` with explicit `% 2 ^ w` where overflow is relevant.
Helpers that live in the repository outside the sources at hand (the `db`
package key helpers, the varint decoder) are modelled from the
specification and are marked as such in their doc comments.
-/

set_option maxHeartbeats 1000000

/-! ## Byte-level primitives -/

/-- Modelled from the spec: one byte of a varint-fueled encoder.
Mirrors Go `binary.PutUvarint` (7-bit groups, little-endian, high bit set
on continuation bytes); the fuel of 10 covers every 64-bit value. -/
def putUvarintFuel : Nat → Nat → List Nat
  | 0, _ => []
  | fuel + 1, v => if v < 128 then [v] else (v % 128 + 128) :: putUvarintFuel fuel (v / 128)

/-- Go `binary.PutUvarint` specialised to values below `2 ^ 70`. -/
def putUvarint (v : Nat) : List Nat := putUvarintFuel 10 v

/-- Modelled from the spec: the varint decoder `decodeVarint` of
`sstable/reader.go` (only its callers are in the sources at hand).
Returns the decoded value together with the number of bytes consumed;
reading past the end of the buffer behaves as reading zero bytes. -/
def decodeUvarint : List Nat → Nat × Nat
  | [] => (0, 1)
  | b :: rest =>
    if b < 128 then (b, 1)
    else
      let r := decodeUvarint rest
      (b % 128 + 128 * r.1, r.2 + 1)

/-- Reading one byte at an absolute position; out-of-range reads give 0
(the Go code indexes raw memory and is never called out of range on
well-formed blocks). -/
def byteAt (data : List Nat) (p : Nat) : Nat := data.getD p 0

/-- Go `binary.LittleEndian.Uint32`. -/
def u32At (data : List Nat) (p : Nat) : Nat :=
  byteAt data p + 256 * byteAt data (p + 1) + 65536 * byteAt data (p + 2) +
    16777216 * byteAt data (p + 3)

/-- Go `binary.LittleEndian.PutUint32`. -/
def le32 (x : Nat) : List Nat :=
  [x % 256, x / 256 % 256, x / 65536 % 256, x / 16777216 % 256]

/-- Go `binary.LittleEndian.PutUint64`. -/
def le64 (x : Nat) : List Nat :=
  [x % 256, x / 256 % 256, x / 256 ^ 2 % 256, x / 256 ^ 3 % 256,
   x / 256 ^ 4 % 256, x / 256 ^ 5 % 256, x / 256 ^ 6 % 256, x / 256 ^ 7 % 256]

/-- Go `binary.LittleEndian.Uint64`. -/
def u64At (data : List Nat) (p : Nat) : Nat :=
  byteAt data p + 256 * byteAt data (p + 1) + 256 ^ 2 * byteAt data (p + 2) +
    256 ^ 3 * byteAt data (p + 3) + 256 ^ 4 * byteAt data (p + 4) +
    256 ^ 5 * byteAt data (p + 5) + 256 ^ 6 * byteAt data (p + 6) +
    256 ^ 7 * byteAt data (p + 7)

/-- Modelled from the spec: `db.SharedPrefixLen` (the `db` package is not
among the sources at hand) — the length of the longest common prefix of
two byte strings, as used by the prefix-compressing block writer. -/
def sharedPrefixLen : List Nat → List Nat → Nat
  | a :: as, b :: bs => if a = b then sharedPrefixLen as bs + 1 else 0
  | _, _ => 0

/-- Modelled from the spec: the default bytewise comparator
(`bytes.Compare` semantics) configured for the block iterator. -/
def byteCompare : List Nat → List Nat → Ordering
  | [], [] => .eq
  | [], _ :: _ => .lt
  | _ :: _, [] => .gt
  | a :: as, b :: bs => if a < b then .lt else if b < a then .gt else byteCompare as bs

/-! ## Internal keys

Modelled from the spec §3: `InternalKey = (user_key, sequence, kind)`,
encoded as `user_key || little-endian-64(seq << 8 | kind)`; ordering is
ascending `user_key` and, for equal user keys, descending trailer. -/

/-- Modelled from the spec: `db.InternalKey`; the `trailer` packs
`(sequence << 8) | kind` as a 64-bit value. -/
structure InternalKey where
  userKey : List Nat
  trailer : Nat
deriving DecidableEq, Repr, Inhabited

/-- Modelled from the spec: `InternalKey.Size`. -/
def InternalKey.size (k : InternalKey) : Nat := k.userKey.length + 8

/-- Modelled from the spec: `InternalKey.Encode` — user key bytes followed
by the 8-byte little-endian trailer. -/
def encodeIK (k : InternalKey) : List Nat := k.userKey ++ le64 k.trailer

/-- Modelled from the spec: `db.DecodeInternalKey` — split off the last
8 bytes as the little-endian trailer. -/
def decodeIK (b : List Nat) : InternalKey :=
  { userKey := b.take (b.length - 8), trailer := u64At b (b.length - 8) }

/-- Modelled from the spec: `db.InternalCompare` under the default
bytewise user-key comparator: ascending user key, then descending
trailer (newest first). -/
def internalCompare (a b : InternalKey) : Ordering :=
  match byteCompare a.userKey b.userKey with
  | .eq => if b.trailer < a.trailer then .lt else if a.trailer < b.trailer then .gt else .eq
  | o => o

/-- Modelled from the spec: the maximal sequence number (56 bits). -/
def internalKeySeqNumMax : Nat := 2 ^ 56 - 1

/-- Modelled from the spec: the sentinel kind `Max`; the spec fixes only
that it is the sentinel ordered after every real kind byte. -/
def internalKeyKindMax : Nat := 255

/-- Modelled from the spec: `db.MakeSearchKey` — the lower-bound probe
`(user_key, MaxSeq, Max)` used by `SeekGE`. -/
def makeSearchKey (userKey : List Nat) : InternalKey :=
  { userKey := userKey, trailer := internalKeySeqNumMax * 256 + internalKeyKindMax }

/-- Modelled from the spec: `InternalKey.SetSeqNum` (used for the global
sequence-number override of ingested tables). -/
def InternalKey.setSeqNum (k : InternalKey) (seqNum : Nat) : InternalKey :=
  { k with trailer := seqNum * 256 + k.trailer % 256 }

/-! ## Block writer (`sstable/block.go`) -/

/-- `blockWriter` of `sstable/block.go`; the scratch buffer `tmp` and the
capacity management of `curKey` are allocation details with no observable
effect and are elided. -/
structure BlockWriter where
  restartInterval : Nat
  nEntries : Nat := 0
  buf : List Nat := []
  restarts : List Nat := []
  curKey : List Nat := []
  prevKey : List Nat := []
deriving Repr

/-- `blockWriter.store`. -/
def BlockWriter.store (w : BlockWriter) (keySize : Nat) (value : List Nat) : BlockWriter :=
  let sr : Nat × List Nat :=
    if w.nEntries % w.restartInterval = 0 then (0, w.restarts ++ [w.buf.length])
    else (sharedPrefixLen w.curKey w.prevKey, w.restarts)
  { w with
    restarts := sr.2
    buf := w.buf ++ putUvarint sr.1 ++ putUvarint (keySize - sr.1) ++
      putUvarint value.length ++ w.curKey.drop sr.1 ++ value
    nEntries := w.nEntries + 1 }

/-- `blockWriter.add`: the previous key becomes `prevKey`, the encoded new
key becomes `curKey`, then the entry is stored. -/
def BlockWriter.add (w : BlockWriter) (key : InternalKey) (value : List Nat) : BlockWriter :=
  let w := { w with curKey := encodeIK key, prevKey := w.curKey }
  w.store key.size value

/-- `blockWriter.finish`: append the restart table (4 bytes per restart,
little-endian) and the trailing restart count; an empty block still gets
the single restart at offset 0. -/
def BlockWriter.finish (w : BlockWriter) : List Nat :=
  let restarts := if w.nEntries = 0 then [0] else w.restarts
  w.buf ++ (restarts.map le32).flatten ++ le32 restarts.length

/-- Adding a sequence of entries in order (the way the sstable writer
drives `blockWriter.add`). -/
def BlockWriter.addAll (w : BlockWriter) (es : List (InternalKey × List Nat)) : BlockWriter :=
  es.foldl (fun w e => w.add e.1 e.2) w

/-- A fresh block writer with the given restart interval. -/
def mkBlockWriter (restartInterval : Nat) : BlockWriter :=
  { restartInterval := restartInterval }

/-! ## Block iterator (`sstable/block.go`) -/

/-- `blockEntry`: a cached entry (offset, key, value). -/
structure BlockEntry where
  offset : Int
  key : List Nat
  val : List Nat
deriving DecidableEq, Repr, Inhabited

/-- `blockIter`; the raw pointer `ptr` and the backing store `cachedBuf`
for cached keys are memory-layout details — cached entries own their key
bytes here. The user-key comparator is fixed to the default bytewise one. -/
structure BlockIter where
  offset : Int := 0
  nextOffset : Int := 0
  restarts : Int := 0
  numRestarts : Nat := 0
  globalSeqNum : Nat := 0
  data : List Nat := []
  key : List Nat := []
  val : List Nat := []
  ikey : InternalKey := ⟨[], 0⟩
  cached : List BlockEntry := []
deriving Repr, Inhabited

/-- `blockIter.init`: read the trailing restart count; a zero count is the
corruption error; otherwise compute where the restart table starts. -/
def BlockIter.init (data : List Nat) (globalSeqNum : Nat) : Except String BlockIter :=
  let numRestarts := u32At data (data.length - 4)
  if numRestarts = 0 then
    .error "pebble/table: invalid table (block has no restart points)"
  else
    .ok { offset := 0, nextOffset := 0,
          restarts := (data.length : Int) - 4 * (1 + (numRestarts : Int)),
          numRestarts := numRestarts, globalSeqNum := globalSeqNum,
          data := data, key := [], val := [], ikey := ⟨[], 0⟩, cached := [] }

/-- `newBlockIter`: an iterator with no global sequence-number override. -/
def newBlockIter (data : List Nat) : Except String BlockIter := BlockIter.init data 0

/-- `blockIter.readEntry`: decode the three varints at `offset`, splice the
shared key prefix with the unshared suffix, and record where the next
entry starts. -/
def BlockIter.readEntry (i : BlockIter) : BlockIter :=
  let p0 := i.offset.toNat
  let d0 := decodeUvarint (i.data.drop p0)
  let p1 := p0 + d0.2
  let d1 := decodeUvarint (i.data.drop p1)
  let p2 := p1 + d1.2
  let d2 := decodeUvarint (i.data.drop p2)
  let p3 := p2 + d2.2
  let key := i.key.take d0.1 ++ (i.data.drop p3).take d1.1
  let p4 := p3 + d1.1
  let val := (i.data.drop p4).take d2.1
  { i with key := key, val := val, nextOffset := ((p4 + d2.1 : Nat) : Int) }

/-- `blockIter.decodeInternalKey`, including the global sequence-number
override for ingested tables. -/
def BlockIter.decodeInternalKey (i : BlockIter) : BlockIter :=
  let ik := decodeIK i.key
  { i with ikey := if i.globalSeqNum ≠ 0 then ik.setSeqNum i.globalSeqNum else ik }

/-- `blockIter.loadEntry`. -/
def BlockIter.loadEntry (i : BlockIter) : BlockIter :=
  i.readEntry.decodeInternalKey

/-- `blockIter.clearCache`. -/
def BlockIter.clearCache (i : BlockIter) : BlockIter := { i with cached := [] }

/-- `blockIter.cacheEntry`. -/
def BlockIter.cacheEntry (i : BlockIter) : BlockIter :=
  { i with cached := i.cached ++ [{ offset := i.offset, key := i.key, val := i.val }] }

/-- `blockIter.Valid`: positioned strictly before the restart table. -/
def BlockIter.valid (i : BlockIter) : Prop := 0 ≤ i.offset ∧ i.offset < i.restarts

instance (i : BlockIter) : Decidable i.valid := by
  unfold BlockIter.valid; infer_instance

/-- The restart-point file offset number `j` (Go
`int(binary.LittleEndian.Uint32(i.data[i.restarts+4*j:]))`). -/
def BlockIter.restartOffset (i : BlockIter) (j : Nat) : Nat :=
  u32At i.data (i.restarts + 4 * (j : Int)).toNat

/-- `blockIter.First`. -/
def BlockIter.first (i : BlockIter) : BlockIter :=
  ({ i with offset := 0 } : BlockIter).loadEntry

/-- `blockIter.Next`. -/
def BlockIter.next (i : BlockIter) : BlockIter × Bool :=
  let i := { i with offset := i.nextOffset }
  if i.valid then (i.loadEntry, true) else (i, false)

/-- The forward caching sweep shared by `Last` and `Prev`: advance and
cache entries while the next entry still starts before `target`. The Go
loops terminate because every entry occupies at least three bytes; the
fuel passed by the callers always suffices for that reason. -/
def BlockIter.scanTo : BlockIter → Int → Nat → BlockIter
  | i, _, 0 => i
  | i, target, fuel + 1 =>
    if i.nextOffset < target then
      BlockIter.scanTo (({ i with offset := i.nextOffset } : BlockIter).readEntry.cacheEntry)
        target fuel
    else i

/-- `blockIter.Last`: seek forward from the last restart point, caching
the entries of that restart interval for subsequent `Prev` calls. -/
def BlockIter.last (i : BlockIter) : BlockIter :=
  let i := { i with offset := ((i.restartOffset (i.numRestarts - 1) : Nat) : Int) }
  let i := i.readEntry.clearCache.cacheEntry
  let i := i.scanTo i.restarts (i.data.length + 1)
  i.decodeInternalKey

/-- The loop of Go `sort.Search` (binary search for the least index in
`[i, j)` satisfying `f`, assuming `f` monotone); the fuel passed by
`sortSearch` dominates the interval length, which at least halves per
iteration. -/
def searchLoop (f : Nat → Bool) : Nat → Nat → Nat → Nat
  | 0, i, _ => i
  | fuel + 1, i, j =>
    if i < j then
      let h := (i + j) / 2
      if !f h then searchLoop f fuel (h + 1) j else searchLoop f fuel i h
    else i

/-- Go `sort.Search`. -/
def sortSearch (n : Nat) (f : Nat → Bool) : Nat := searchLoop f n 0 n

/-- `blockIter.Prev`: pop the previous cached entry if the cache covers
the current position; otherwise rewind to the preceding restart point and
re-scan forward, caching the interval. -/
def BlockIter.prev (i : BlockIter) : BlockIter × Bool :=
  let n := i.cached.length - 1
  if 0 < n ∧ (i.cached.getD n default).offset = i.offset then
    let e := i.cached.getD (n - 1) default
    let i := { i with
      nextOffset := i.offset
      offset := e.offset
      key := e.key
      val := e.val
      cached := i.cached.take n }
    (i.decodeInternalKey, true)
  else if i.offset = 0 then
    ({ i with offset := -1, nextOffset := 0 }, false)
  else
    let targetOffset := i.offset
    let index := sortSearch i.numRestarts fun j => targetOffset ≤ (i.restartOffset j : Int)
    let i := { i with offset :=
      if 0 < index then ((i.restartOffset (index - 1) : Nat) : Int) else 0 }
    let i := i.readEntry.clearCache.cacheEntry
    let i := i.scanTo targetOffset (i.data.length + 1)
    (i.decodeInternalKey, true)

/-- The linear scan of `blockIter.SeekGE`: step forward until the current
entry compares at least the probe. -/
def BlockIter.seekGEScan : BlockIter → InternalKey → Nat → BlockIter
  | i, _, 0 => i
  | i, probe, fuel + 1 =>
    if i.valid then
      if internalCompare i.ikey probe ≠ .lt then i
      else BlockIter.seekGEScan i.next.1 probe fuel
    else i

/-- `blockIter.SeekGE`: binary-search the restart points whose (full) key
is strictly greater than the probe, start at the restart before that, and
scan linearly forward. At a restart point the varint encoding of the zero
shared length occupies exactly one byte, which the search skips. -/
def BlockIter.seekGE (i : BlockIter) (key : List Nat) : BlockIter :=
  let probe := makeSearchKey key
  let i := { i with offset := 0 }
  let index := sortSearch i.numRestarts fun j =>
    let offset := i.restartOffset j
    let d1 := decodeUvarint (i.data.drop (offset + 1))
    let p1 := offset + 1 + d1.2
    let d2 := decodeUvarint (i.data.drop p1)
    let p2 := p1 + d2.2
    let s := (i.data.drop p2).take d1.1
    internalCompare probe (decodeIK s) = .lt
  let i := if 0 < index then
    { i with offset := ((i.restartOffset (index - 1) : Nat) : Int) } else i
  let i := i.loadEntry
  i.seekGEScan probe (i.data.length + 1)

/-- Forward traversal harness: `First(); for Valid() { emit; Next() }`. -/
def collectForward : BlockIter → Nat → List (InternalKey × List Nat)
  | _, 0 => []
  | i, fuel + 1 => if i.valid then (i.ikey, i.val) :: collectForward i.next.1 fuel else []

/-- Backward traversal harness: `Last(); for Valid() { emit; Prev() }`. -/
def collectBackward : BlockIter → Nat → List (InternalKey × List Nat)
  | _, 0 => []
  | i, fuel + 1 => if i.valid then (i.ikey, i.val) :: collectBackward i.prev.1 fuel else []

/-! ## Spec-side description of the encoded block

These definitions re-express, entry by entry, the bytes that
`blockWriter.add`/`finish` produce; `addAll_spec` proves the
correspondence. -/

/-- The byte encoding of one block entry:
`varint(shared) varint(unshared) varint(value_len) key_suffix value`. -/
def encEntry (s : Nat) (k v : List Nat) : List Nat :=
  putUvarint s ++ putUvarint (k.length - s) ++ putUvarint v.length ++ k.drop s ++ v

/-- The shared-prefix length used for entry index `j` whose key is `k` and
whose predecessor key is `prev`. -/
def sharedLen (R j : Nat) (k prev : List Nat) : Nat :=
  if j % R = 0 then 0 else sharedPrefixLen k prev

/-- The per-entry encodings of (encoded key, value) pairs starting at
entry index `j`, the preceding key being `prev`. -/
def encEntries (R : Nat) : Nat → List Nat → List (List Nat × List Nat) → List (List Nat)
  | _, _, [] => []
  | j, prev, (k, v) :: rest =>
    encEntry (sharedLen R j k prev) k v :: encEntries R (j + 1) k rest

/-- The restart offsets recorded while encoding, `off` being the offset of
entry index `j`. -/
def restartOffs (R : Nat) : Nat → Nat → List Nat → List (List Nat × List Nat) → List Nat
  | _, _, _, [] => []
  | j, off, prev, (k, v) :: rest =>
    (if j % R = 0 then [off] else []) ++
      restartOffs R (j + 1) (off + (encEntry (sharedLen R j k prev) k v).length) k rest

/-- The (encoded key, value) pairs the writer stores for a sequence of
(internal key, value) entries. -/
def encKVs (es : List (InternalKey × List Nat)) : List (List Nat × List Nat) :=
  es.map fun e => (encodeIK e.1, e.2)

/-! ## Indexed view of the encoded block -/

/-- The encoded key of entry `m` (empty when out of range). -/
def keyAt (kvs : List (List Nat × List Nat)) (m : Nat) : List Nat := (kvs.getD m ([], [])).1

/-- The value of entry `m`. -/
def valAt (kvs : List (List Nat × List Nat)) (m : Nat) : List Nat := (kvs.getD m ([], [])).2

/-- The key preceding entry `m` (the writer's `prevKey` when entry `m` is
stored). -/
def prevKeyAt (kvs : List (List Nat × List Nat)) (m : Nat) : List Nat :=
  if m = 0 then [] else keyAt kvs (m - 1)

/-- The data part of the block (all encoded entries, no restart table). -/
def blockData (R : Nat) (kvs : List (List Nat × List Nat)) : List Nat :=
  (encEntries R 0 [] kvs).flatten

/-- The byte offset at which entry `j` starts. -/
def offAt (R : Nat) (kvs : List (List Nat × List Nat)) (j : Nat) : Nat :=
  (((encEntries R 0 [] kvs).take j).map List.length).sum

/-! ## The restart table -/

/-- The Boolean restart test at absolute index `j + m`. -/
def modHit (R j : Nat) : Nat → Bool := fun m => (j + m) % R == 0

/-- The cached entry for position `m`. -/
def mkCE (R : Nat) (kvs : List (List Nat × List Nat)) (m : Nat) : BlockEntry :=
  { offset := (offAt R kvs m : Int), key := keyAt kvs m, val := valAt kvs m }

/-- Invariant of backward iteration: the iterator sits on entry `j`, whose
restart interval starts at entry `b`; the cache holds entries `b..j`. -/
structure BwdOK (R : Nat) (kvs : List (List Nat × List Nat)) (blk : List Nat)
    (b j : Nat) (i : BlockIter) : Prop where
  hq : ∃ q, b = R * q
  hbj : b ≤ j
  hjn : j < kvs.length
  hjb : j < b + R
  hdata : i.data = blk
  hoff : i.offset = (offAt R kvs j : Int)
  hnext : i.nextOffset = (offAt R kvs (j + 1) : Int)
  hkey : i.key = keyAt kvs j
  hval : i.val = valAt kvs j
  hikey : i.ikey = decodeIK (keyAt kvs j)
  hcached : i.cached = (List.range' b (j + 1 - b)).map (mkCE R kvs)
  hrestarts : i.restarts = ((blockData R kvs).length : Int)
  hnum : i.numRestarts = (restartOffs R 0 0 [] kvs).length
  hseq : i.globalSeqNum = 0

/-- The canonical full block for a nonempty run of entries. -/
def fullBlock (R : Nat) (kvs : List (List Nat × List Nat)) : List Nat :=
  blockData R kvs ++ ((restartOffs R 0 0 [] kvs).map le32).flatten ++
    le32 (restartOffs R 0 0 [] kvs).length

/-- The iterator state produced by `init` on a well-formed finished block. -/
def initIter (R : Nat) (kvs : List (List Nat × List Nat)) : BlockIter :=
  { offset := 0
    nextOffset := 0
    restarts := ((blockData R kvs).length : Int)
    numRestarts := (restartOffs R 0 0 [] kvs).length
    globalSeqNum := 0
    data := fullBlock R kvs
    key := []
    val := []
    ikey := ⟨[], 0⟩
    cached := [] }

/-! ## Forward positioning for SeekGE -/

/-- Invariant of a loaded forward position: the iterator sits on entry `j`. -/
structure FwdOK (R : Nat) (kvs : List (List Nat × List Nat)) (blk : List Nat)
    (j : Nat) (i : BlockIter) : Prop where
  hjn : j < kvs.length
  hdata : i.data = blk
  hoff : i.offset = (offAt R kvs j : Int)
  hnext : i.nextOffset = (offAt R kvs (j + 1) : Int)
  hkey : i.key = keyAt kvs j
  hval : i.val = valAt kvs j
  hikey : i.ikey = decodeIK (keyAt kvs j)
  hrestarts : i.restarts = ((blockData R kvs).length : Int)
  hseq : i.globalSeqNum = 0

/-- The binary-search predicate of `SeekGE`: the probe is strictly less
than the full key stored at restart point `j`. -/
def seekGEPred (i : BlockIter) (probe : InternalKey) (j : Nat) : Bool :=
  let offset := i.restartOffset j
  let d1 := decodeUvarint (i.data.drop (offset + 1))
  let p1 := offset + 1 + d1.2
  let d2 := decodeUvarint (i.data.drop p1)
  let p2 := p1 + d2.2
  let s := (i.data.drop p2).take d1.1
  internalCompare probe (decodeIK s) = .lt

/-! ## versionSet (version_set.go) -/

/-- Modelled from the spec: a published version. `version.go` is not in
src/; per §4.4 only the reference count and an identity are relevant to
the version-list claims, so the file lists are abstracted away. -/
structure version where
  id : Nat
  refs : Nat
deriving DecidableEq

/-- `versionEdit` (the fields `versionSet.load`/`logAndApply` consult;
`version_edit.go` is not in src/, the fields are those read by the src/
call sites). -/
structure versionEdit where
  comparatorName : String
  logNumber : Nat
  prevLogNumber : Nat
  nextFileNumber : Nat
  lastSequence : Nat
deriving DecidableEq

/-- The mutable fields of `versionSet` used by the claims. The version
list is the list of live versions, last element = `back()`; `hasManifest`
models `vs.manifest != nil`. -/
structure versionSet where
  versions : List version
  logNumber : Nat
  prevLogNumber : Nat
  nextFileNumber : Nat
  logSeqNum : Nat
  manifestFileNumber : Nat
  hasManifest : Bool
  cmpName : String
deriving DecidableEq

/-- `versionSet.markFileNumUsed`; `uint64` increment wraps at `2^64`. -/
def versionSet.markFileNumUsed (vs : versionSet) (fileNum : Nat) : versionSet :=
  if vs.nextFileNumber ≤ fileNum then
    { vs with nextFileNumber := (fileNum + 1) % 2 ^ 64 }
  else vs

/-- `versionSet.nextFileNum`: returns the current number and increments. -/
def versionSet.nextFileNum (vs : versionSet) : Nat × versionSet :=
  (vs.nextFileNumber, { vs with nextFileNumber := (vs.nextFileNumber + 1) % 2 ^ 64 })

/-- Modelled from the spec: `unrefLocked` on the back of the version list
(§4.4: a refcount that reaches zero unlinks the node). -/
def unrefBackList (l : List version) : List version :=
  match l.getLast? with
  | none => l
  | some v =>
    if v.refs ≤ 1 then l.dropLast
    else l.dropLast ++ [{ v with refs := v.refs - 1 }]

/-- `versionSet.append`: panics (modelled as `.error`) unless the new
version is unreferenced; unrefs the previous back and pushes the new
version with one reference (the list's). -/
def versionSet.append (vs : versionSet) (v : version) : Except String versionSet :=
  if v.refs ≠ 0 then .error "pebble: version should be unreferenced"
  else
    let vers := if vs.versions.isEmpty then vs.versions else unrefBackList vs.versions
    .ok { vs with versions := vers ++ [{ v with refs := v.refs + 1 }] }

/-- `versionSet.currentVersion`: the back of the version list. -/
def versionSet.currentVersion (vs : versionSet) : Option version :=
  vs.versions.getLast?

/-- Go `error` results: `none` is nil. -/
def firstError (e0 e1 : Option String) : Option String :=
  match e0 with
  | some e => some e
  | none => e1

/-- Modelled from the spec: the failure oracle for the manifest I/O steps
of `logAndApply` (§4.5 step list). `record.Writer` and `storage` are not
in src/; each step either succeeds or yields the error the environment
returns for it. -/
structure manifestOps where
  applyErr : Option String
  createErr : Option String
  nextErr : Option String
  encodeErr : Option String
  flushErr : Option String
  syncErr : Option String
  setCurrentErr : Option String
deriving DecidableEq

/-- Observable manifest/installation events of `logAndApply`, in the
order the code performs them. -/
inductive mEv where
  | appendRecord
  | flushManifest
  | syncManifest
  | writeCurrent
  | installVersion
deriving DecidableEq

/-- The event order of a fully successful `logAndApply`. -/
def logAndApplyTrace : List mEv :=
  [.appendRecord, .flushManifest, .syncManifest, .writeCurrent, .installVersion]

/-- `versionSet.logAndApply`: validate the edit's `logNumber` (panic
modelled as `.error`), stamp the edit, apply the bulk edit, create the
manifest if absent, append + flush + sync the record, rewrite CURRENT,
then install the new version and the log numbers. A failing step returns
its error with the events performed so far and the unchanged version
list. `newV` stands for the version produced by `bve.apply` (not in
src/). -/
def versionSet.logAndApply (vs : versionSet) (ve : versionEdit) (newV : version)
    (ops : manifestOps) : Except String (Option String × List mEv × versionSet) :=
  if ve.logNumber ≠ 0 ∧ (ve.logNumber < vs.logNumber ∨ vs.nextFileNumber ≤ ve.logNumber) then
    .error "pebble: inconsistent versionEdit logNumber"
  else
    match ops.applyErr with
    | some e => .ok (some e, [], vs)
    | none =>
      match (if vs.hasManifest then none else ops.createErr) with
      | some e => .ok (some e, [], vs)
      | none =>
        let vs := { vs with hasManifest := true }
        match ops.nextErr with
        | some e => .ok (some e, [], vs)
        | none =>
          match ops.encodeErr with
          | some e => .ok (some e, [], vs)
          | none =>
            match ops.flushErr with
            | some e => .ok (some e, [.appendRecord], vs)
            | none =>
              match ops.syncErr with
              | some e => .ok (some e, [.appendRecord, .flushManifest], vs)
              | none =>
                match ops.setCurrentErr with
                | some e => .ok (some e, [.appendRecord, .flushManifest, .syncManifest], vs)
                | none =>
                  match vs.append newV with
                  | .error p => .error p
                  | .ok vs2 =>
                    .ok (none, logAndApplyTrace,
                      { vs2 with
                        logNumber := if ve.logNumber ≠ 0 then ve.logNumber else vs2.logNumber
                        prevLogNumber := if ve.prevLogNumber ≠ 0 then ve.prevLogNumber
                          else vs2.prevLogNumber })

/-- The `versionSet` state right after the field initialization at the top
of `load` (`nextFileNumber` starts at 2 for historical reasons). -/
def initialVS (cmpName : String) : versionSet :=
  { versions := []
    logNumber := 0
    prevLogNumber := 0
    nextFileNumber := 2
    logSeqNum := 0
    manifestFileNumber := 0
    hasManifest := false
    cmpName := cmpName }

/-- The manifest replay loop of `load`: accumulate each decoded edit,
checking the comparator name. -/
def loadLoop (cmpName : String) : versionSet → List versionEdit → Except String versionSet
  | vs, [] => .ok vs
  | vs, ve :: rest =>
    if ve.comparatorName ≠ "" ∧ ve.comparatorName ≠ cmpName then
      .error "pebble: manifest file comparer name mismatch"
    else
      loadLoop cmpName
        { vs with
          logNumber := if ve.logNumber ≠ 0 then ve.logNumber else vs.logNumber
          prevLogNumber := if ve.prevLogNumber ≠ 0 then ve.prevLogNumber else vs.prevLogNumber
          nextFileNumber := if ve.nextFileNumber ≠ 0 then ve.nextFileNumber else vs.nextFileNumber
          logSeqNum := if ve.lastSequence ≠ 0 then ve.lastSequence else vs.logSeqNum }
        rest

/-- The tail of `load` after the incomplete-manifest check: mark the log
numbers used, allocate the manifest file number, install the replayed
version. -/
def loadFinish (vs : versionSet) (newV : version) :
    Except String (Option String × versionSet) :=
  let vs := vs.markFileNumUsed vs.logNumber
  let vs := vs.markFileNumUsed vs.prevLogNumber
  let p := vs.nextFileNum
  let vs := { p.2 with manifestFileNumber := p.1 }
  match vs.append newV with
  | .error p => .error p
  | .ok vs2 => .ok (none, vs2)

/-- `versionSet.load` from the point where the manifest records have been
read: replay the decoded edits, apply the incomplete-manifest check
(lines 121–127), finish initialization. `newV` stands for the version
`bve.apply` builds from the accumulated edits (not in src/). Ordinary
errors are the `Option String`; `.error` is a panic. -/
def versionSet.load (cmpName : String) (edits : List versionEdit) (newV : version) :
    Except String (Option String × versionSet) :=
  match loadLoop cmpName (initialVS cmpName) edits with
  | .error e => .ok (some e, initialVS cmpName)
  | .ok vs =>
    if vs.logNumber = 0 ∨ vs.nextFileNumber = 0 then
      if vs.nextFileNumber = 2 then loadFinish vs newV
      else .ok (some "pebble: incomplete manifest file", vs)
    else loadFinish vs newV

/-! ## DB.Close and DB.writeLevel0Table (db.go) -/

/-- The `DB` state bits consulted by `Close` (`d.mu.closed`). -/
structure dbState where
  closed : Bool
deriving DecidableEq

/-- Modelled from the spec: the errors the three underlying `Close` calls
of `DB.Close` may return (`tableCache`, WAL writer, file lock are not in
src/). -/
structure closeOps where
  tableCacheErr : Option String
  logErr : Option String
  fileLockErr : Option String
deriving DecidableEq

/-- `DB.Close` (db.go lines 386–401): an already-closed DB returns nil
immediately; otherwise the three underlying closes run, their first error
is returned, and the DB is marked closed. -/
def dbClose (d : dbState) (ops : closeOps) : dbState × Option String :=
  if d.closed then (d, none)
  else ({ d with closed := true },
    firstError (firstError ops.tableCacheErr ops.logErr) ops.fileLockErr)

/-- `fileMetadata` (the fields `writeLevel0Table` fills). -/
structure fileMetadata where
  fileNum : Nat
  smallest : List Nat
  largest : List Nat
  size : Nat
deriving DecidableEq

/-- The zero `fileMetadata` value (`fileMetadata{}`). -/
def fileMetadata.zero : fileMetadata :=
  { fileNum := 0, smallest := [], largest := [], size := 0 }

/-- The `DB` state consulted by `writeLevel0Table`: the file-number
counter, the `pendingOutputs` set, and the filesystem contents (table
files named by their file number — `dbFilename` is injective per type and
is not in src/). -/
structure l0State where
  nextFileNumber : Nat
  pendingOutputs : List Nat
  files : List Nat
deriving DecidableEq

/-- Modelled from the spec: the failure oracle for the I/O performed by
`writeLevel0Table` (`storage`, `sstable.Writer` and the memtable iterator
are not in src/): `fs.Create`, the i-th `tw.Add`, `iter.Close`,
`tw.Close`, the re-`Close` the deferred cleanup performs on an already
closed writer, `tw.Stat` and the reported size. -/
structure l0Ops where
  createErr : Option String
  addErr : Nat → Option String
  iterCloseErr : Option String
  twCloseErr : Option String
  twReCloseErr : Option String
  statErr : Option String
  statSize : Int

/-- The add loop of `writeLevel0Table`: the error of the first failing
`tw.Add`, if any. -/
def addLoop (ops : l0Ops) : Nat → List (List Nat × List Nat) → Option String
  | _, [] => none
  | i, _ :: rest =>
    match ops.addErr i with
    | some e => some e
    | none => addLoop ops (i + 1) rest

/-- The deferred epilogue of `writeLevel0Table` (LIFO defers): close the
iterator and the table writer if still open, folding their errors in via
`firstError`; on error remove the table file and zero the metadata; then
the outermost defer drops the file number from `pendingOutputs` on
error. -/
def l0Finish (st : l0State) (fileNum : Nat) (meta : fileMetadata) (err : Option String)
    (iterOpen twOpen : Bool) (iterCloseErr twCloseErr : Option String) :
    l0State × fileMetadata × Option String :=
  let err := if iterOpen then firstError err iterCloseErr else err
  let err := if twOpen then firstError err twCloseErr else err
  let stm := if err ≠ none then
      ({ st with files := st.files.erase fileNum }, fileMetadata.zero)
    else (st, meta)
  let st2 := if err ≠ none then
      { stm.1 with pendingOutputs := stm.1.pendingOutputs.erase fileNum }
    else stm.1
  (st2, stm.2, err)

/-- `DB.writeLevel0Table` (db.go lines 442–535) over the oracle: allocate
the file number, insert it into `pendingOutputs`, bail out on an empty
memtable, create the file, add every entry, close the iterator and the
writer, stat the file; every early return runs the deferred epilogue with
the openness the code leaves (`iter`/`tw` set to nil before the
respective returns). -/
def writeLevel0Table (d : l0State) (entries : List (List Nat × List Nat)) (ops : l0Ops) :
    l0State × fileMetadata × Option String :=
  let fileNum := d.nextFileNumber
  let d := { d with nextFileNumber := (d.nextFileNumber + 1) % 2 ^ 64 }
  let d := { d with pendingOutputs := fileNum :: d.pendingOutputs }
  if entries.isEmpty then
    l0Finish d fileNum fileMetadata.zero (some "pebble: memtable empty") true false
      ops.iterCloseErr ops.twCloseErr
  else
    match ops.createErr with
    | some e =>
      l0Finish d fileNum fileMetadata.zero (some e) true false
        ops.iterCloseErr ops.twCloseErr
    | none =>
      let d := { d with files := fileNum :: d.files }
      match addLoop ops 0 entries with
      | some e =>
        l0Finish d fileNum fileMetadata.zero (some e) true true
          ops.iterCloseErr ops.twCloseErr
      | none =>
        match ops.iterCloseErr with
        | some e =>
          l0Finish d fileNum fileMetadata.zero (some e) false true
            ops.iterCloseErr ops.twCloseErr
        | none =>
          match ops.twCloseErr with
          | some e =>
            l0Finish d fileNum fileMetadata.zero (some e) false false
              ops.iterCloseErr ops.twCloseErr
          | none =>
            match ops.statErr with
            | some e =>
              l0Finish d fileNum fileMetadata.zero (some e) false true
                ops.iterCloseErr ops.twReCloseErr
            | none =>
              if ops.statSize < 0 then
                l0Finish d fileNum fileMetadata.zero
                  (some "pebble: table file has negative size") false true
                  ops.iterCloseErr ops.twReCloseErr
              else
                l0Finish d fileNum
                  { fileNum := fileNum
                    smallest := ((entries.headD ([], [])).1)
                    largest := ((entries.getLastD ([], [])).1)
                    size := ops.statSize.toNat }
                  none false false ops.iterCloseErr ops.twCloseErr

/-! ## Theorems -/

/-! ## Basic facts about the byte-level primitives -/

theorem putUvarintFuel_length_pos (fuel v : Nat) (h : 0 < fuel) :
    0 < (putUvarintFuel fuel v).length := by
  cases fuel with
  | zero => omega
  | succ f =>
    unfold putUvarintFuel
    split <;> simp

theorem decodeUvarint_putUvarintFuel (fuel : Nat) :
    ∀ v rest, v < 128 ^ fuel → 0 < fuel →
      decodeUvarint (putUvarintFuel fuel v ++ rest) =
        (v, (putUvarintFuel fuel v).length) := by
  induction fuel with
  | zero => omega
  | succ f ih =>
    intro v rest hv _
    unfold putUvarintFuel
    by_cases hsmall : v < 128
    · simp [hsmall, decodeUvarint]
    · have hdiv : v / 128 < 128 ^ f := by
        rw [Nat.div_lt_iff_lt_mul (by omega)]
        calc v < 128 ^ (f + 1) := hv
        _ = 128 ^ f * 128 := by ring
      have hb : ¬ (v % 128 + 128 < 128) := by omega
      by_cases hf : 0 < f
      · simp only [if_neg hsmall, List.cons_append, decodeUvarint, if_neg hb,
          ih (v / 128) rest hdiv hf, List.length_cons]
        simp only [Prod.mk.injEq]
        refine ⟨by omega, by simp⟩
      · have hf0 : f = 0 := by omega
        subst hf0
        simp only [pow_zero, Nat.lt_one_iff] at hdiv
        omega

theorem decodeUvarint_putUvarint_append (v : Nat) (rest : List Nat) (hv : v < 128 ^ 10) :
    decodeUvarint (putUvarint v ++ rest) = (v, (putUvarint v).length) :=
  decodeUvarint_putUvarintFuel 10 v rest hv (by omega)

theorem putUvarint_length_pos (v : Nat) : 0 < (putUvarint v).length :=
  putUvarintFuel_length_pos 10 v (by omega)

theorem sharedPrefixLen_le_left : ∀ a b : List Nat, sharedPrefixLen a b ≤ a.length := by
  intro a
  induction a with
  | nil => intro b; cases b <;> simp [sharedPrefixLen]
  | cons x as ih =>
    intro b
    cases b with
    | nil => simp [sharedPrefixLen]
    | cons y bs =>
      simp only [sharedPrefixLen]
      split
      · simpa using ih bs
      · simp

theorem sharedPrefixLen_le_right : ∀ a b : List Nat, sharedPrefixLen a b ≤ b.length := by
  intro a
  induction a with
  | nil => intro b; cases b <;> simp [sharedPrefixLen]
  | cons x as ih =>
    intro b
    cases b with
    | nil => simp [sharedPrefixLen]
    | cons y bs =>
      simp only [sharedPrefixLen]
      split
      · simpa using ih bs
      · simp

theorem take_sharedPrefixLen_eq : ∀ a b : List Nat,
    a.take (sharedPrefixLen a b) = b.take (sharedPrefixLen a b) := by
  intro a
  induction a with
  | nil => intro b; cases b <;> simp [sharedPrefixLen]
  | cons x as ih =>
    intro b
    cases b with
    | nil => simp [sharedPrefixLen]
    | cons y bs =>
      simp only [sharedPrefixLen]
      split
      · next heq => simp [heq, List.take_succ_cons, ih bs]
      · simp

theorem byteAt_append (pre l : List Nat) (t : Nat) :
    byteAt (pre ++ l) (pre.length + t) = byteAt l t := by
  simp only [byteAt]
  rw [List.getD_append_right pre l 0 _ (by omega), Nat.add_sub_cancel_left]

theorem byteAt_cons_succ (b : Nat) (l : List Nat) (t : Nat) :
    byteAt (b :: l) (t + 1) = byteAt l t := rfl

theorem le32_length (x : Nat) : (le32 x).length = 4 := by simp [le32]

theorem le64_length (x : Nat) : (le64 x).length = 8 := by simp [le64]

theorem u32At_le32_append (x : Nat) (rest : List Nat) (hx : x < 2 ^ 32) :
    u32At (le32 x ++ rest) 0 = x := by
  simp only [u32At, le32, byteAt, List.cons_append]
  simp only [List.getD_cons_zero, List.getD_cons_succ]
  omega

theorem u32At_append (pre l : List Nat) (t : Nat) :
    u32At (pre ++ l) (pre.length + t) = u32At l t := by
  have h : ∀ s : Nat, byteAt (pre ++ l) (pre.length + (t + s)) = byteAt l (t + s) :=
    fun s => byteAt_append pre l (t + s)
  have h0 := h 0
  have h1 := h 1
  have h2 := h 2
  have h3 := h 3
  rw [Nat.add_zero] at h0
  rw [← Nat.add_assoc] at h1 h2 h3
  simp only [u32At, h0, h1, h2, h3]

theorem u32At_middle (pre : List Nat) (x : Nat) (rest : List Nat) (hx : x < 2 ^ 32) :
    u32At (pre ++ le32 x ++ rest) pre.length = x := by
  rw [List.append_assoc]
  have h := u32At_append pre (le32 x ++ rest) 0
  rw [Nat.add_zero] at h
  rw [h]
  exact u32At_le32_append x rest hx

theorem u64At_le64_append (x : Nat) (rest : List Nat) (hx : x < 2 ^ 64) :
    u64At (le64 x ++ rest) 0 = x := by
  simp only [u64At, le64, byteAt, List.cons_append]
  simp only [List.getD_cons_zero, List.getD_cons_succ]
  omega

theorem u64At_append (pre l : List Nat) (t : Nat) :
    u64At (pre ++ l) (pre.length + t) = u64At l t := by
  have h : ∀ s : Nat, byteAt (pre ++ l) (pre.length + (t + s)) = byteAt l (t + s) :=
    fun s => byteAt_append pre l (t + s)
  have h0 := h 0
  have h1 := h 1
  have h2 := h 2
  have h3 := h 3
  have h4 := h 4
  have h5 := h 5
  have h6 := h 6
  have h7 := h 7
  rw [Nat.add_zero] at h0
  rw [← Nat.add_assoc] at h1 h2 h3 h4 h5 h6 h7
  simp only [u64At, h0, h1, h2, h3, h4, h5, h6, h7]

theorem u64At_middle (pre : List Nat) (x : Nat) (rest : List Nat) (hx : x < 2 ^ 64) :
    u64At (pre ++ le64 x ++ rest) pre.length = x := by
  rw [List.append_assoc]
  have h := u64At_append pre (le64 x ++ rest) 0
  rw [Nat.add_zero] at h
  rw [h]
  exact u64At_le64_append x rest hx

theorem encodeIK_length (k : InternalKey) : (encodeIK k).length = k.userKey.length + 8 := by
  simp [encodeIK, le64_length]

theorem decodeIK_encodeIK (k : InternalKey) (hk : k.trailer < 2 ^ 64) :
    decodeIK (encodeIK k) = k := by
  have hlen : (encodeIK k).length = k.userKey.length + 8 := encodeIK_length k
  simp only [decodeIK, hlen, Nat.add_sub_cancel]
  have htake : (encodeIK k).take k.userKey.length = k.userKey := by
    simp [encodeIK, List.take_append_of_le_length, List.take_length]
  have htr : u64At (encodeIK k) k.userKey.length = k.trailer := by
    have := u64At_middle k.userKey k.trailer [] hk
    simpa [encodeIK] using this
  rw [htake, htr]

theorem InternalKey.size_eq_encode_length (k : InternalKey) : k.size = (encodeIK k).length := by
  simp [InternalKey.size, encodeIK_length]

theorem BlockWriter.add_spec (w : BlockWriter) (key : InternalKey) (v : List Nat) :
    w.add key v =
      { restartInterval := w.restartInterval
        nEntries := w.nEntries + 1
        buf := w.buf ++ encEntry (sharedLen w.restartInterval w.nEntries (encodeIK key) w.curKey)
          (encodeIK key) v
        restarts := if w.nEntries % w.restartInterval = 0 then w.restarts ++ [w.buf.length]
          else w.restarts
        curKey := encodeIK key
        prevKey := w.curKey } := by
  unfold BlockWriter.add BlockWriter.store
  by_cases h : w.nEntries % w.restartInterval = 0 <;>
    simp [h, sharedLen, encEntry, InternalKey.size_eq_encode_length, List.append_assoc]

theorem BlockWriter.addAll_spec (R : Nat) (es : List (InternalKey × List Nat)) :
    ∀ (j : Nat) (buf rs prev pk : List Nat),
      BlockWriter.addAll ⟨R, j, buf, rs, prev, pk⟩ es =
        { restartInterval := R
          nEntries := j + es.length
          buf := buf ++ (encEntries R j prev (encKVs es)).flatten
          restarts := rs ++ restartOffs R j buf.length prev (encKVs es)
          curKey := (BlockWriter.addAll ⟨R, j, buf, rs, prev, pk⟩ es).curKey
          prevKey := (BlockWriter.addAll ⟨R, j, buf, rs, prev, pk⟩ es).prevKey } := by
  induction es with
  | nil =>
    intro j buf rs prev pk
    simp [BlockWriter.addAll, encKVs, encEntries, restartOffs]
  | cons e rest ih =>
    intro j buf rs prev pk
    have hstep : BlockWriter.addAll ⟨R, j, buf, rs, prev, pk⟩ (e :: rest) =
        BlockWriter.addAll ((⟨R, j, buf, rs, prev, pk⟩ : BlockWriter).add e.1 e.2) rest := by
      simp [BlockWriter.addAll]
    rw [hstep, BlockWriter.add_spec]
    simp only []
    rw [ih]
    have hkv : encKVs (e :: rest) = (encodeIK e.1, e.2) :: encKVs rest := by
      simp [encKVs]
    rw [hkv]
    simp only [encEntries, restartOffs, List.flatten_cons, List.length_cons]
    simp only [BlockWriter.mk.injEq, true_and, and_true, eq_self_iff_true]
    refine ⟨by omega, by simp [List.append_assoc], ?_⟩
    by_cases h : j % R = 0 <;> simp [h, List.append_assoc, List.length_append]

/-! ## Structural facts about the encoded entries -/

theorem encEntry_length (s : Nat) (k v : List Nat) :
    (encEntry s k v).length = (putUvarint s).length + (putUvarint (k.length - s)).length +
      (putUvarint v.length).length + (k.length - s) + v.length := by
  simp [encEntry, List.length_append, List.length_drop]
  omega

theorem encEntry_length_ge (s : Nat) (k v : List Nat) : 3 ≤ (encEntry s k v).length := by
  have h0 := putUvarint_length_pos s
  have h1 := putUvarint_length_pos (k.length - s)
  have h2 := putUvarint_length_pos v.length
  rw [encEntry_length]
  omega

theorem encEntries_length (R : Nat) :
    ∀ (kvs : List (List Nat × List Nat)) (j : Nat) (prev : List Nat),
      (encEntries R j prev kvs).length = kvs.length := by
  intro kvs
  induction kvs with
  | nil => intro j prev; simp [encEntries]
  | cons kv rest ih =>
    intro j prev
    obtain ⟨k, v⟩ := kv
    simp [encEntries, ih]

theorem encEntries_restart_irrel (R : Nat) (kvs : List (List Nat × List Nat)) (j : Nat)
    (p p' : List Nat) (hj : j % R = 0) :
    encEntries R j p kvs = encEntries R j p' kvs := by
  cases kvs with
  | nil => rfl
  | cons kv rest =>
    obtain ⟨k, v⟩ := kv
    simp [encEntries, sharedLen, hj]

theorem encEntries_split (R : Nat) :
    ∀ (m : Nat) (kvs : List (List Nat × List Nat)) (j : Nat) (prev : List Nat),
      ∃ p : List Nat,
        encEntries R j prev kvs =
          encEntries R j prev (kvs.take m) ++ encEntries R (j + m) p (kvs.drop m) := by
  intro m
  induction m with
  | zero => intro kvs j prev; exact ⟨prev, by simp [encEntries]⟩
  | succ m ih =>
    intro kvs j prev
    cases kvs with
    | nil => exact ⟨prev, by simp [encEntries]⟩
    | cons kv rest =>
      obtain ⟨k, v⟩ := kv
      obtain ⟨p, hp⟩ := ih rest (j + 1) k
      refine ⟨p, ?_⟩
      simp only [List.take_succ_cons, List.drop_succ_cons, encEntries, List.cons_append]
      have harith : j + (m + 1) = j + 1 + m := by omega
      rw [harith, hp]

/-- Decoding one entry: `readEntry` positioned at the start of
`encEntry s k v`, with the current key agreeing with `k` on the shared
prefix, reconstructs `k` and `v` and advances to the next entry. -/
theorem readEntry_spec (i : BlockIter) (pre : List Nat) (s : Nat) (k v suf : List Nat)
    (hdata : i.data = pre ++ encEntry s k v ++ suf)
    (hoff : i.offset = (pre.length : Int))
    (hs : s ≤ k.length)
    (hkey : i.key.take s = k.take s)
    (hsb : s < 128 ^ 10) (hkb : k.length - s < 128 ^ 10) (hvb : v.length < 128 ^ 10) :
    i.readEntry = { i with
      key := k
      val := v
      nextOffset := ((pre.length + (encEntry s k v).length : Nat) : Int) } := by
  have hdata' : i.data = pre ++ (putUvarint s ++ (putUvarint (k.length - s) ++
      (putUvarint v.length ++ (k.drop s ++ (v ++ suf))))) := by
    rw [hdata]; simp [encEntry, List.append_assoc]
  have hton : i.offset.toNat = pre.length := by rw [hoff]; simp
  have hd0 : i.data.drop i.offset.toNat = putUvarint s ++ (putUvarint (k.length - s) ++
      (putUvarint v.length ++ (k.drop s ++ (v ++ suf)))) := by
    rw [hton, hdata']; exact List.drop_left _ _
  have hd1 : i.data.drop (pre.length + (putUvarint s).length) =
      putUvarint (k.length - s) ++ (putUvarint v.length ++ (k.drop s ++ (v ++ suf))) := by
    have hh : i.data = (pre ++ putUvarint s) ++ (putUvarint (k.length - s) ++
        (putUvarint v.length ++ (k.drop s ++ (v ++ suf)))) := by
      rw [hdata']; simp [List.append_assoc]
    rw [hh, ← List.length_append pre (putUvarint s)]
    exact List.drop_left _ _
  have hd2 : i.data.drop (pre.length + (putUvarint s).length + (putUvarint (k.length - s)).length) =
      putUvarint v.length ++ (k.drop s ++ (v ++ suf)) := by
    have hh : i.data = ((pre ++ putUvarint s) ++ putUvarint (k.length - s)) ++
        (putUvarint v.length ++ (k.drop s ++ (v ++ suf))) := by
      rw [hdata']; simp [List.append_assoc]
    rw [hh]
    have hl : pre.length + (putUvarint s).length + (putUvarint (k.length - s)).length =
        ((pre ++ putUvarint s) ++ putUvarint (k.length - s)).length := by
      simp [List.length_append]
      omega
    rw [hl]
    exact List.drop_left _ _
  have hd3 : i.data.drop (pre.length + (putUvarint s).length + (putUvarint (k.length - s)).length
      + (putUvarint v.length).length) = k.drop s ++ (v ++ suf) := by
    have hh : i.data = (((pre ++ putUvarint s) ++ putUvarint (k.length - s)) ++
        putUvarint v.length) ++ (k.drop s ++ (v ++ suf)) := by
      rw [hdata']; simp [List.append_assoc]
    rw [hh]
    have hl : pre.length + (putUvarint s).length + (putUvarint (k.length - s)).length +
        (putUvarint v.length).length =
        (((pre ++ putUvarint s) ++ putUvarint (k.length - s)) ++ putUvarint v.length).length := by
      simp [List.length_append]
      omega
    rw [hl]
    exact List.drop_left _ _
  have hd4 : i.data.drop (pre.length + (putUvarint s).length + (putUvarint (k.length - s)).length
      + (putUvarint v.length).length + (k.length - s)) = v ++ suf := by
    have hh : i.data = ((((pre ++ putUvarint s) ++ putUvarint (k.length - s)) ++
        putUvarint v.length) ++ k.drop s) ++ (v ++ suf) := by
      rw [hdata']; simp [List.append_assoc]
    rw [hh]
    have hl : pre.length + (putUvarint s).length + (putUvarint (k.length - s)).length +
        (putUvarint v.length).length + (k.length - s) =
        ((((pre ++ putUvarint s) ++ putUvarint (k.length - s)) ++ putUvarint v.length) ++
          k.drop s).length := by
      simp [List.length_append, List.length_drop]
      omega
    rw [hl]
    exact List.drop_left _ _
  have e0 := decodeUvarint_putUvarint_append s
    (putUvarint (k.length - s) ++ (putUvarint v.length ++ (k.drop s ++ (v ++ suf)))) hsb
  have e1 := decodeUvarint_putUvarint_append (k.length - s)
    (putUvarint v.length ++ (k.drop s ++ (v ++ suf))) hkb
  have e2 := decodeUvarint_putUvarint_append v.length (k.drop s ++ (v ++ suf)) hvb
  rw [hton] at hd0
  unfold BlockIter.readEntry
  simp only [hton, hd0, e0, hd1, e1, hd2, e2, hd3, hd4]
  have hkeyeq : k.take s ++ ((k.drop s ++ (v ++ suf)).take (k.length - s)) = k := by
    rw [List.take_left' (by simp [List.length_drop]), List.take_append_drop]
  have hvaleq : (v ++ suf).take v.length = v := List.take_left v suf
  rw [hkey, hkeyeq, hvaleq]
  have hlen : pre.length + (putUvarint s).length + (putUvarint (k.length - s)).length +
      (putUvarint v.length).length + (k.length - s) + v.length =
      pre.length + (encEntry s k v).length := by
    rw [encEntry_length]; omega
  congr 1
  omega

theorem sharedLen_le (R j : Nat) (k prev : List Nat) : sharedLen R j k prev ≤ k.length := by
  unfold sharedLen
  split
  · omega
  · exact sharedPrefixLen_le_left k prev

theorem sharedLen_key_take (R j : Nat) (k prev : List Nat) :
    prev.take (sharedLen R j k prev) = k.take (sharedLen R j k prev) := by
  unfold sharedLen
  split
  · simp
  · exact (take_sharedPrefixLen_eq k prev).symm

theorem loadEntry_spec (i : BlockIter) (pre : List Nat) (s : Nat) (k v suf : List Nat)
    (hdata : i.data = pre ++ encEntry s k v ++ suf)
    (hoff : i.offset = (pre.length : Int))
    (hs : s ≤ k.length)
    (hkey : i.key.take s = k.take s)
    (hg : i.globalSeqNum = 0)
    (hsb : s < 128 ^ 10) (hkb : k.length - s < 128 ^ 10) (hvb : v.length < 128 ^ 10) :
    i.loadEntry = { i with
      key := k
      val := v
      ikey := decodeIK k
      nextOffset := ((pre.length + (encEntry s k v).length : Nat) : Int) } := by
  unfold BlockIter.loadEntry
  rw [readEntry_spec i pre s k v suf hdata hoff hs hkey hsb hkb hvb]
  unfold BlockIter.decodeInternalKey
  simp [hg]

theorem collectForward_invalid (i : BlockIter) (fuel : Nat) (h : ¬ i.valid) :
    collectForward i fuel = [] := by
  cases fuel with
  | zero => rfl
  | succ f => rw [collectForward, if_neg h]

theorem collectForward_spec (R : Nat) :
    ∀ (kvs : List (List Nat × List Nat)) (j : Nat) (prev pre suf : List Nat) (i : BlockIter)
      (fuel : Nat),
      kvs ≠ [] →
      kvs.length + 1 ≤ fuel →
      i.data = pre ++ (encEntries R j prev kvs).flatten ++ suf →
      i.offset = (pre.length : Int) →
      i.restarts = ((pre.length + (encEntries R j prev kvs).flatten.length : Nat) : Int) →
      i.globalSeqNum = 0 →
      (j % R = 0 ∨ i.key = prev) →
      (∀ kv ∈ kvs, kv.1.length < 128 ^ 10 ∧ kv.2.length < 128 ^ 10) →
      collectForward i.loadEntry fuel = kvs.map fun kv => (decodeIK kv.1, kv.2) := by
  intro kvs
  induction kvs with
  | nil => intro j prev pre suf i fuel hne; exact absurd rfl hne
  | cons kv rest ih =>
    intro j prev pre suf i fuel _ hfuel hdata hoff hrest hg hkey hbounds
    obtain ⟨k, v⟩ := kv
    set s := sharedLen R j k prev with hsdef
    have hsk : s ≤ k.length := sharedLen_le R j k prev
    have hkb : k.length < 128 ^ 10 := (hbounds (k, v) (by simp)).1
    have hvb : v.length < 128 ^ 10 := (hbounds (k, v) (by simp)).2
    have hflat : (encEntries R j prev ((k, v) :: rest)).flatten =
        encEntry s k v ++ (encEntries R (j + 1) k rest).flatten := by
      simp [encEntries, hsdef]
    have hdata' : i.data = pre ++ encEntry s k v ++ ((encEntries R (j + 1) k rest).flatten ++ suf) := by
      rw [hdata, hflat]; simp [List.append_assoc]
    have hkeytake : i.key.take s = k.take s := by
      rcases hkey with hj | hk
      · rw [hsdef]; unfold sharedLen; simp [hj]
      · rw [hk, hsdef]; exact sharedLen_key_take R j k prev
    have hload := loadEntry_spec i pre s k v _ hdata' hoff hsk hkeytake hg
      (by omega) (by omega) (by omega)
    obtain ⟨fuel', rfl⟩ : ∃ f, fuel = f + 1 := ⟨fuel - 1, by omega⟩
    rw [hload]
    have hvalid : ({ i with
        key := k
        val := v
        ikey := decodeIK k
        nextOffset := ((pre.length + (encEntry s k v).length : Nat) : Int) } : BlockIter).valid := by
      constructor
      · rw [hoff]; exact Int.natCast_nonneg _
      · rw [hoff, hrest, hflat]
        have h3 := encEntry_length_ge s k v
        have : (encEntry s k v ++ (encEntries R (j + 1) k rest).flatten).length =
            (encEntry s k v).length + (encEntries R (j + 1) k rest).flatten.length := by
          simp [List.length_append]
        omega
    rw [collectForward]
    rw [if_pos hvalid]
    simp only []
    congr 1
    -- the tail: step to the next entry
    rw [BlockIter.next]
    simp only []
    rcases List.eq_nil_or_concat rest with hrnil | _
    · -- last entry: the next position is the start of the restart table
      subst hrnil
      have hnv : ¬ ({ i with
          key := k
          val := v
          ikey := decodeIK k
          nextOffset := ((pre.length + (encEntry s k v).length : Nat) : Int)
          offset := ((pre.length + (encEntry s k v).length : Nat) : Int) } : BlockIter).valid := by
        intro hv
        have h2 := hv.2
        rw [hrest, hflat] at h2
        simp only [encEntries, List.flatten_nil, List.append_nil] at h2
        omega
      rw [if_neg hnv]
      simp only [List.map_cons, List.map_nil]
      exact collectForward_invalid _ _ hnv
    · -- more entries follow: recurse through the induction hypothesis
      have hrne : rest ≠ [] := by
        rcases rest with - | -
        · simp_all
        · simp
      have hflatpos : 3 ≤ (encEntries R (j + 1) k rest).flatten.length := by
        rcases rest with - | ⟨r, rs⟩
        · simp_all
        · obtain ⟨rk, rv⟩ := r
          have := encEntry_length_ge (sharedLen R (j + 1) rk k) rk rv
          simp only [encEntries, List.flatten_cons, List.length_append]
          omega
      have hvalid2 : ({ i with
          key := k
          val := v
          ikey := decodeIK k
          nextOffset := ((pre.length + (encEntry s k v).length : Nat) : Int)
          offset := ((pre.length + (encEntry s k v).length : Nat) : Int) } : BlockIter).valid := by
        constructor
        · exact Int.natCast_nonneg _
        · show ((pre.length + (encEntry s k v).length : Nat) : Int) < i.restarts
          rw [hrest, hflat]
          have hlen2 : (encEntry s k v ++ (encEntries R (j + 1) k rest).flatten).length =
              (encEntry s k v).length + (encEntries R (j + 1) k rest).flatten.length := by
            simp [List.length_append]
          omega
      rw [if_pos hvalid2]
      simp only [List.map_cons]
      have := ih (j + 1) k (pre ++ encEntry s k v) suf
        ({ i with
          key := k
          val := v
          ikey := decodeIK k
          nextOffset := ((pre.length + (encEntry s k v).length : Nat) : Int)
          offset := ((pre.length + (encEntry s k v).length : Nat) : Int) } : BlockIter)
        fuel' hrne (by simp at hfuel ⊢; omega)
        (by simp only []; rw [hdata']; simp [List.append_assoc])
        (by simp [List.length_append])
        (by simp only []; rw [hrest, hflat]; simp [List.length_append]; omega)
        (by simp only []; exact hg)
        (Or.inr rfl)
        (fun kv hkv => hbounds kv (by simp [hkv]))
      exact this

theorem encEntries_getD (R : Nat) :
    ∀ (kvs : List (List Nat × List Nat)) (j0 : Nat) (prev : List Nat) (m : Nat),
      m < kvs.length →
      (encEntries R j0 prev kvs).getD m [] =
        encEntry (sharedLen R (j0 + m) (keyAt kvs m)
            (if m = 0 then prev else keyAt kvs (m - 1)))
          (keyAt kvs m) (valAt kvs m) := by
  intro kvs
  induction kvs with
  | nil => intro j0 prev m hm; simp at hm
  | cons kv rest ih =>
    intro j0 prev m hm
    obtain ⟨k, v⟩ := kv
    cases m with
    | zero => simp [encEntries, keyAt, valAt]
    | succ m' =>
      simp only [encEntries, List.getD_cons_succ]
      have := ih (j0 + 1) k m' (by simpa using hm)
      rw [this]
      cases m' with
      | zero =>
        simp [keyAt, valAt, List.getD_cons_succ, List.getD_cons_zero]
      | succ m'' =>
        simp only [keyAt, valAt, List.getD_cons_succ]
        have h1 : m'' + 1 ≠ 0 := by omega
        have h2 : m'' + 1 + 1 ≠ 0 := by omega
        simp only [if_neg h1, if_neg h2, keyAt]
        have h3 : m'' + 1 - 1 = m'' := by omega
        have h4 : m'' + 1 + 1 - 1 = m'' + 1 := by omega
        rw [h3, h4]
        simp only [List.getD_cons_succ]
        congr 2
        omega

theorem keyAt_mem (kvs : List (List Nat × List Nat)) (m : Nat) (hm : m < kvs.length) :
    (keyAt kvs m, valAt kvs m) ∈ kvs := by
  unfold keyAt valAt
  have : kvs.getD m ([], []) ∈ kvs := by
    rw [List.getD_eq_getElem _ _ hm]
    exact List.getElem_mem hm
  simpa using this

theorem offAt_zero (R : Nat) (kvs : List (List Nat × List Nat)) : offAt R kvs 0 = 0 := by
  simp [offAt]

theorem offAt_succ (R : Nat) (kvs : List (List Nat × List Nat)) (j : Nat)
    (hj : j < kvs.length) :
    offAt R kvs (j + 1) = offAt R kvs j + ((encEntries R 0 [] kvs).getD j []).length := by
  unfold offAt
  have hlen : j < (encEntries R 0 [] kvs).length := by rw [encEntries_length]; exact hj
  rw [List.take_succ]
  rw [List.getElem?_eq_getElem hlen]
  simp [List.getD_eq_getElem _ _ hlen]
  rw [List.take_succ]
  simp [List.getElem?_map, List.getElem?_eq_getElem hlen]

theorem offAt_succ_ge (R : Nat) (kvs : List (List Nat × List Nat)) (j : Nat)
    (hj : j < kvs.length) :
    offAt R kvs j + 3 ≤ offAt R kvs (j + 1) := by
  rw [offAt_succ R kvs j hj]
  have := encEntries_getD R kvs 0 [] j hj
  rw [this]
  have := encEntry_length_ge (sharedLen R (0 + j) (keyAt kvs j)
    (if j = 0 then [] else keyAt kvs (j - 1))) (keyAt kvs j) (valAt kvs j)
  omega

theorem offAt_strict_mono (R : Nat) (kvs : List (List Nat × List Nat)) :
    ∀ (a b : Nat), a < b → b ≤ kvs.length → offAt R kvs a < offAt R kvs b := by
  intro a b
  induction b with
  | zero => omega
  | succ b' ih =>
    intro hab hb
    have hb' : b' < kvs.length := by omega
    have := offAt_succ_ge R kvs b' hb'
    rcases Nat.lt_or_ge a b' with h | h
    · have := ih h (by omega)
      omega
    · have haeq : a = b' := by omega
      subst haeq
      omega

theorem offAt_mono (R : Nat) (kvs : List (List Nat × List Nat)) :
    ∀ (a b : Nat), a ≤ b → b ≤ kvs.length → offAt R kvs a ≤ offAt R kvs b := by
  intro a b hab hb
  rcases Nat.lt_or_ge a b with h | h
  · exact Nat.le_of_lt (offAt_strict_mono R kvs a b h hb)
  · have : a = b := by omega
    subst this
    omega

theorem offAt_top (R : Nat) (kvs : List (List Nat × List Nat)) :
    offAt R kvs kvs.length = (blockData R kvs).length := by
  unfold offAt blockData
  rw [List.length_flatten]
  congr 1
  rw [List.take_of_length_le (by rw [encEntries_length])]

theorem blockData_length_ge (R : Nat) (kvs : List (List Nat × List Nat)) :
    3 * kvs.length ≤ (blockData R kvs).length := by
  have h : ∀ (j : Nat), j ≤ kvs.length → 3 * j ≤ offAt R kvs j := by
    intro j
    induction j with
    | zero => intro _; simp [offAt_zero]
    | succ j' ih =>
      intro hj
      have := offAt_succ_ge R kvs j' (by omega)
      have := ih (by omega)
      omega
  have := h kvs.length (le_refl _)
  rw [offAt_top] at this
  exact this

theorem offAt_le_length (R : Nat) (kvs : List (List Nat × List Nat)) (j : Nat)
    (hj : j ≤ kvs.length) :
    offAt R kvs j ≤ (blockData R kvs).length := by
  rw [← offAt_top R kvs]
  exact offAt_mono R kvs j kvs.length hj (le_refl _)

/-- Decomposition of the block around entry `m`. -/
theorem blockData_decomp (R : Nat) (kvs : List (List Nat × List Nat)) (m : Nat)
    (hm : m < kvs.length) :
    ∃ pre rest : List Nat,
      blockData R kvs =
        pre ++ encEntry (sharedLen R m (keyAt kvs m) (prevKeyAt kvs m))
          (keyAt kvs m) (valAt kvs m) ++ rest ∧
      pre.length = offAt R kvs m := by
  have hlen : m < (encEntries R 0 [] kvs).length := by rw [encEntries_length]; exact hm
  refine ⟨((encEntries R 0 [] kvs).take m).flatten,
    ((encEntries R 0 [] kvs).drop (m + 1)).flatten, ?_, ?_⟩
  · unfold blockData
    conv_lhs => rw [← List.take_append_drop m (encEntries R 0 [] kvs)]
    rw [List.flatten_append, List.append_assoc]
    congr 1
    rw [List.drop_eq_getElem_cons hlen]
    rw [List.flatten_cons]
    congr 1
    have := encEntries_getD R kvs 0 [] m hm
    rw [List.getD_eq_getElem _ _ hlen] at this
    rw [this]
    unfold prevKeyAt
    simp
  · rw [List.length_flatten, offAt]

theorem modHit_succ (R j : Nat) : (modHit R j) ∘ Nat.succ = modHit R (j + 1) := by
  funext m
  unfold modHit Function.comp
  simp only []
  rw [show j + Nat.succ m = j + 1 + m from by omega]

theorem restartOffs_spec (R : Nat) :
    ∀ (kvs : List (List Nat × List Nat)) (j off0 : Nat) (prev : List Nat),
      restartOffs R j off0 prev kvs =
        ((List.range kvs.length).filter (modHit R j)).map
          (fun m => off0 + (((encEntries R j prev kvs).take m).map List.length).sum) := by
  intro kvs
  induction kvs with
  | nil => intro j off0 prev; simp [restartOffs]
  | cons kv rest ih =>
    intro j off0 prev
    obtain ⟨k, v⟩ := kv
    simp only [restartOffs, List.length_cons, List.range_succ_eq_map]
    rw [ih (j + 1) (off0 + (encEntry (sharedLen R j k prev) k v).length) k]
    rw [List.filter_cons]
    have hcond : (modHit R j 0 = true) ↔ j % R = 0 := by simp [modHit]
    have hcomp :
        ((fun m => off0 + (((encEntries R j prev ((k, v) :: rest)).take m).map List.length).sum) ∘
          Nat.succ) =
        fun m => (off0 + (encEntry (sharedLen R j k prev) k v).length) +
          (((encEntries R (j + 1) k rest).take m).map List.length).sum := by
      funext m
      simp only [Function.comp, encEntries]
      rw [show Nat.succ m = m + 1 from rfl, List.take_succ_cons]
      simp [List.map_cons, List.sum_cons]
      omega
    by_cases hj : j % R = 0
    · rw [if_pos hj, if_pos (hcond.mpr hj)]
      rw [List.map_cons, List.filter_map, modHit_succ, List.map_map, hcomp]
      simp [encEntries]
    · rw [if_neg hj, if_neg (fun hc => hj (hcond.mp hc))]
      rw [List.filter_map, modHit_succ, List.map_map, hcomp]
      simp

theorem filter_mod_eq_map_mul (R : Nat) (hR : 1 ≤ R) :
    ∀ n : Nat, ∃ cnt : Nat,
      (List.range n).filter (modHit R 0) = (List.range cnt).map (fun t => R * t) ∧
      n ≤ R * cnt ∧ (0 < n → 0 < cnt ∧ R * (cnt - 1) < n) ∧ (n = 0 → cnt = 0) := by
  intro n
  induction n with
  | zero => exact ⟨0, by simp, by omega, by omega, fun _ => rfl⟩
  | succ n ih =>
    obtain ⟨cnt, hfil, hub, hpos, hzero⟩ := ih
    rw [List.range_succ, List.filter_append, hfil]
    by_cases hm : n % R = 0
    · have hn_eq : n = R * cnt := by
        rcases Nat.eq_zero_or_pos n with h0 | h0
        · subst h0
          rw [hzero rfl]
          omega
        · obtain ⟨hcnt, hlt⟩ := hpos h0
          obtain ⟨q, hq⟩ := Nat.dvd_of_mod_eq_zero hm
          have hqle : q ≤ cnt := by
            by_contra hcon
            push_neg at hcon
            have : R * (cnt + 1) ≤ R * q := Nat.mul_le_mul (le_refl R) (by omega)
            have hRc : R * (cnt + 1) = R * cnt + R := by ring
            omega
          have hqge : cnt ≤ q := by
            by_contra hcon
            push_neg at hcon
            have hq1 : q ≤ cnt - 1 := by omega
            have : R * q ≤ R * (cnt - 1) := Nat.mul_le_mul (le_refl R) hq1
            omega
          have : q = cnt := by omega
          subst this
          exact hq
      have hr1 : R * (cnt + 1) = R * cnt + R := by ring
      have hr2 : R * (cnt + 1 - 1) = R * cnt := by simp
      refine ⟨cnt + 1, ?_, by omega, by omega, by omega⟩
      have hone : List.filter (modHit R 0) [n] = [n] := by
        simp [modHit, List.filter_cons, hm]
      rw [hone, List.range_succ, List.map_append]
      simp [hn_eq]
    · have hone : List.filter (modHit R 0) [n] = [] := by
        simp [modHit, List.filter_cons, hm]
      rw [hone, List.append_nil]
      have hne : n ≠ R * cnt := by
        intro hcon
        rw [hcon] at hm
        simp [Nat.mul_mod_right] at hm
      have hcnt_pos : 0 < cnt := by
        by_contra hcon
        push_neg at hcon
        have : cnt = 0 := by omega
        subst this
        simp at hub
        subst hub
        simp at hm
      refine ⟨cnt, rfl, by omega, ?_, by omega⟩
      intro _
      refine ⟨hcnt_pos, ?_⟩
      rcases Nat.eq_zero_or_pos n with h0 | h0
      · subst h0
        simp at hm
      · exact Nat.lt_succ_of_lt (hpos h0).2

/-- The restart table of a nonempty run of entries, expressed through the
entry offsets at multiples of the restart interval. -/
theorem restartOffs_eq_map (R : Nat) (hR : 1 ≤ R) (kvs : List (List Nat × List Nat)) :
    ∃ cnt : Nat,
      restartOffs R 0 0 [] kvs =
        (List.range cnt).map (fun t => offAt R kvs (R * t)) ∧
      kvs.length ≤ R * cnt ∧
      (0 < kvs.length → 0 < cnt ∧ R * (cnt - 1) < kvs.length) ∧
      (kvs.length = 0 → cnt = 0) := by
  obtain ⟨cnt, hfil, hub, hpos, hzero⟩ := filter_mod_eq_map_mul R hR kvs.length
  refine ⟨cnt, ?_, hub, hpos, hzero⟩
  rw [restartOffs_spec R kvs 0 0 [], hfil, List.map_map]
  congr 1
  funext t
  simp only [Function.comp]
  rw [Nat.zero_add]
  rfl

theorem flatten_map_le32_length (L : List Nat) : ((L.map le32).flatten).length = 4 * L.length := by
  induction L with
  | nil => simp
  | cons x xs ih =>
    simp only [List.map_cons, List.flatten_cons, List.length_append, ih, le32_length,
      List.length_cons]
    omega

theorem u32At_flatten_le32 (L : List Nat) :
    ∀ (t : Nat) (pre suf : List Nat), t < L.length → (∀ x ∈ L, x < 2 ^ 32) →
      u32At (pre ++ (L.map le32).flatten ++ suf) (pre.length + 4 * t) = L.getD t 0 := by
  induction L with
  | nil => intro t pre suf ht; simp at ht
  | cons x xs ih =>
    intro t pre suf ht hb
    cases t with
    | zero =>
      have hx : x < 2 ^ 32 := hb x (by simp)
      have hshape : pre ++ ((x :: xs).map le32).flatten ++ suf =
          pre ++ le32 x ++ ((xs.map le32).flatten ++ suf) := by
        simp [List.append_assoc]
      rw [Nat.mul_zero, Nat.add_zero, hshape]
      rw [u32At_middle pre x _ hx]
      simp
    | succ t' =>
      have hshape : pre ++ ((x :: xs).map le32).flatten ++ suf =
          (pre ++ le32 x) ++ (xs.map le32).flatten ++ suf := by
        simp [List.append_assoc]
      have hpos : pre.length + 4 * (t' + 1) = (pre ++ le32 x).length + 4 * t' := by
        simp [List.length_append, le32_length]
        omega
      rw [hshape, hpos]
      rw [ih t' (pre ++ le32 x) suf (by simpa using ht) (fun y hy => hb y (by simp [hy]))]
      simp

/-- `init` on a well-formed finished block: the trailing count is read
back, and the restart-table start is the length of the data part. -/
theorem init_spec (D RSfin : List Nat) (g : Nat) (hne : RSfin ≠ [])
    (hcnt : RSfin.length < 2 ^ 32) :
    BlockIter.init (D ++ (RSfin.map le32).flatten ++ le32 RSfin.length) g =
      .ok { offset := 0, nextOffset := 0, restarts := (D.length : Int),
            numRestarts := RSfin.length, globalSeqNum := g,
            data := D ++ (RSfin.map le32).flatten ++ le32 RSfin.length,
            key := [], val := [], ikey := ⟨[], 0⟩, cached := [] } := by
  have hlen : (D ++ (RSfin.map le32).flatten ++ le32 RSfin.length).length =
      D.length + 4 * RSfin.length + 4 := by
    rw [List.length_append, List.length_append, flatten_map_le32_length, le32_length]
  have hread : u32At (D ++ (RSfin.map le32).flatten ++ le32 RSfin.length)
      ((D ++ (RSfin.map le32).flatten ++ le32 RSfin.length).length - 4) = RSfin.length := by
    have hshape : D ++ (RSfin.map le32).flatten ++ le32 RSfin.length =
        (D ++ (RSfin.map le32).flatten) ++ le32 RSfin.length ++ [] := by
      simp [List.append_assoc]
    have hpos : (D ++ (RSfin.map le32).flatten ++ le32 RSfin.length).length - 4 =
        (D ++ (RSfin.map le32).flatten).length := by
      rw [hlen, List.length_append, flatten_map_le32_length]
      omega
    rw [hpos]
    conv_lhs => rw [hshape]
    exact u32At_middle _ _ _ hcnt
  unfold BlockIter.init
  rw [hread]
  have hne' : RSfin.length ≠ 0 := by
    intro h
    exact hne (List.eq_nil_of_length_eq_zero h)
  rw [if_neg hne']
  congr 1
  have : ((D ++ (RSfin.map le32).flatten ++ le32 RSfin.length).length : Int) -
      4 * (1 + (RSfin.length : Int)) = (D.length : Int) := by
    rw [hlen]
    push_cast
    ring
  simp only [this]

/-- Reading restart point `t` from a well-formed block. -/
theorem restartOffset_spec (i : BlockIter) (D RSfin suf : List Nat) (t : Nat)
    (hdata : i.data = D ++ (RSfin.map le32).flatten ++ suf)
    (hrestarts : i.restarts = (D.length : Int))
    (ht : t < RSfin.length)
    (hb : ∀ x ∈ RSfin, x < 2 ^ 32) :
    i.restartOffset t = RSfin.getD t 0 := by
  unfold BlockIter.restartOffset
  rw [hdata, hrestarts]
  have hton : ((D.length : Int) + 4 * (t : Int)).toNat = D.length + 4 * t := by omega
  rw [hton]
  exact u32At_flatten_le32 RSfin t D suf ht hb

/-! ## Backward iteration -/

theorem prevKeyAt_succ (kvs : List (List Nat × List Nat)) (t : Nat) :
    prevKeyAt kvs (t + 1) = keyAt kvs t := by
  simp [prevKeyAt]

/-- One step of the caching sweep: reading entry `t + 1` from the state
positioned at entry `t`. -/
theorem step_read_spec (R : Nat) (kvs : List (List Nat × List Nat)) (blk T : List Nat)
    (hblk : blk = blockData R kvs ++ T)
    (HB : ∀ kv ∈ kvs, kv.1.length < 128 ^ 10 ∧ kv.2.length < 128 ^ 10)
    (t : Nat) (ht : t + 1 < kvs.length) (i : BlockIter)
    (hdata : i.data = blk)
    (hoff : i.offset = (offAt R kvs (t + 1) : Int))
    (hkey : i.key = keyAt kvs t) :
    i.readEntry = { i with
      key := keyAt kvs (t + 1)
      val := valAt kvs (t + 1)
      nextOffset := (offAt R kvs (t + 2) : Int) } := by
  obtain ⟨pre, rest, hsplit, hprelen⟩ := blockData_decomp R kvs (t + 1) ht
  rw [prevKeyAt_succ] at hsplit
  set s := sharedLen R (t + 1) (keyAt kvs (t + 1)) (keyAt kvs t) with hsdef
  have hkb : (keyAt kvs (t + 1)).length < 128 ^ 10 :=
    (HB _ (keyAt_mem kvs (t + 1) ht)).1
  have hvb : (valAt kvs (t + 1)).length < 128 ^ 10 :=
    (HB _ (keyAt_mem kvs (t + 1) ht)).2
  have hsle : s ≤ (keyAt kvs (t + 1)).length := sharedLen_le _ _ _ _
  have hdata' : i.data = pre ++ encEntry s (keyAt kvs (t + 1)) (valAt kvs (t + 1)) ++
      (rest ++ T) := by
    rw [hdata, hblk, hsplit]
    simp [List.append_assoc]
  have hoff' : i.offset = (pre.length : Int) := by rw [hoff, hprelen]
  have hkeycond : i.key.take s = (keyAt kvs (t + 1)).take s := by
    rw [hkey, hsdef]
    exact sharedLen_key_take R (t + 1) (keyAt kvs (t + 1)) (keyAt kvs t)
  have hre := readEntry_spec i pre s (keyAt kvs (t + 1)) (valAt kvs (t + 1)) (rest ++ T)
    hdata' hoff' hsle hkeycond (by omega) (by omega) (by omega)
  rw [hre]
  have hnext : pre.length + (encEntry s (keyAt kvs (t + 1)) (valAt kvs (t + 1))).length =
      offAt R kvs (t + 2) := by
    rw [hprelen]
    rw [offAt_succ R kvs (t + 1) ht]
    congr 1
    rw [encEntries_getD R kvs 0 [] (t + 1) ht]
    have : (if t + 1 = 0 then ([] : List Nat) else keyAt kvs (t + 1 - 1)) = keyAt kvs t := by
      simp
    rw [this]
    simp [hsdef]
  rw [hnext]

theorem scanTo_spec (R : Nat) (kvs : List (List Nat × List Nat)) (blk T : List Nat)
    (hblk : blk = blockData R kvs ++ T)
    (HB : ∀ kv ∈ kvs, kv.1.length < 128 ^ 10 ∧ kv.2.length < 128 ^ 10) :
    ∀ (fuel t e : Nat) (i : BlockIter),
      t < e → e ≤ kvs.length → e - 1 - t ≤ fuel →
      i.data = blk →
      i.offset = (offAt R kvs t : Int) →
      i.nextOffset = (offAt R kvs (t + 1) : Int) →
      i.key = keyAt kvs t →
      i.val = valAt kvs t →
      (i.scanTo (offAt R kvs e : Int) fuel).data = i.data ∧
      (i.scanTo (offAt R kvs e : Int) fuel).restarts = i.restarts ∧
      (i.scanTo (offAt R kvs e : Int) fuel).numRestarts = i.numRestarts ∧
      (i.scanTo (offAt R kvs e : Int) fuel).globalSeqNum = i.globalSeqNum ∧
      (i.scanTo (offAt R kvs e : Int) fuel).ikey = i.ikey ∧
      (i.scanTo (offAt R kvs e : Int) fuel).offset = (offAt R kvs (e - 1) : Int) ∧
      (i.scanTo (offAt R kvs e : Int) fuel).nextOffset = (offAt R kvs e : Int) ∧
      (i.scanTo (offAt R kvs e : Int) fuel).key = keyAt kvs (e - 1) ∧
      (i.scanTo (offAt R kvs e : Int) fuel).val = valAt kvs (e - 1) ∧
      (i.scanTo (offAt R kvs e : Int) fuel).cached = i.cached ++
        ((List.range' (t + 1) (e - 1 - t)).map (mkCE R kvs)) := by
  intro fuel
  induction fuel with
  | zero =>
    intro t e i hte he hfuel hdata hoff hnext hkey hval
    have ht' : t = e - 1 := by omega
    have ht'' : e - 1 + 1 = e := by omega
    subst ht'
    unfold BlockIter.scanTo
    refine ⟨rfl, rfl, rfl, rfl, rfl, hoff, ?_, hkey, hval, by simp⟩
    rw [hnext, ht'']
  | succ fuel ih =>
    intro t e i hte he hfuel hdata hoff hnext hkey hval
    rcases Nat.lt_or_ge (t + 1) e with hlt | hge
    · -- still before the target: advance one entry and recurse
      have hguard : i.nextOffset < (offAt R kvs e : Int) := by
        rw [hnext]
        have := offAt_strict_mono R kvs (t + 1) e hlt he
        omega
      unfold BlockIter.scanTo
      rw [if_pos hguard]
      have hread := step_read_spec R kvs blk T hblk HB t (by omega)
        ({ i with offset := i.nextOffset } : BlockIter)
        (by simpa using hdata) (by simpa using hnext) (by simpa using hkey)
      rw [hread]
      have hce : ({ ({ i with offset := i.nextOffset } : BlockIter) with
          key := keyAt kvs (t + 1)
          val := valAt kvs (t + 1)
          nextOffset := (offAt R kvs (t + 2) : Int) } : BlockIter).cacheEntry =
        { i with
          offset := (offAt R kvs (t + 1) : Int)
          key := keyAt kvs (t + 1)
          val := valAt kvs (t + 1)
          nextOffset := (offAt R kvs (t + 2) : Int)
          cached := i.cached ++ [mkCE R kvs (t + 1)] } := by
        unfold BlockIter.cacheEntry mkCE
        simp only [hnext]
      rw [hce]
      obtain ⟨c1, c2, c3, c4, c5, c6, c7, c8, c9, c10⟩ := ih (t + 1) e
        ({ i with
          offset := (offAt R kvs (t + 1) : Int)
          key := keyAt kvs (t + 1)
          val := valAt kvs (t + 1)
          nextOffset := (offAt R kvs (t + 2) : Int)
          cached := i.cached ++ [mkCE R kvs (t + 1)] } : BlockIter)
        hlt he (by omega) (by simpa using hdata) rfl rfl rfl rfl
      refine ⟨?_, ?_, ?_, ?_, ?_, ?_, ?_, ?_, ?_, ?_⟩
      · rw [c1]
      · rw [c2]
      · rw [c3]
      · rw [c4]
      · rw [c5]
      · rw [c6]
      · rw [c7]
      · rw [c8]
      · rw [c9]
      · rw [c10]
        simp only []
        have hrange : List.range' (t + 1) (e - 1 - t) =
            (t + 1) :: List.range' (t + 2) (e - 1 - (t + 1)) := by
          rw [show e - 1 - t = (e - 1 - (t + 1)) + 1 from by omega, List.range'_succ]
        rw [hrange]
        simp [List.map_cons, List.append_assoc]
    · -- the next entry is the target: stop
      have ht1 : t + 1 = e := by omega
      have ht' : t = e - 1 := by omega
      have hguard : ¬ i.nextOffset < (offAt R kvs e : Int) := by
        rw [hnext, ht1]
        omega
      unfold BlockIter.scanTo
      rw [if_neg hguard]
      refine ⟨rfl, rfl, rfl, rfl, rfl, ?_, ?_, ?_, ?_, ?_⟩
      · rw [hoff, ht']
      · rw [hnext, ht1]
      · rw [hkey, ht']
      · rw [hval, ht']
      · simp [show e - 1 - t = 0 from by omega]

theorem getD_map_range {α : Type} (f : Nat → α) (cnt t : Nat) (d : α) (ht : t < cnt) :
    ((List.range cnt).map f).getD t d = f t := by
  have hlen : t < ((List.range cnt).map f).length := by simpa using ht
  rw [List.getD_eq_getElem _ _ hlen, List.getElem_map]
  congr 1
  simp

theorem restart_values_bounded (R : Nat) (hR : 1 ≤ R) (kvs : List (List Nat × List Nat))
    (hsz : (blockData R kvs).length < 2 ^ 32) :
    ∀ x ∈ restartOffs R 0 0 [] kvs, x < 2 ^ 32 := by
  obtain ⟨cnt, hRS, hub, hpos, hzero⟩ := restartOffs_eq_map R hR kvs
  intro x hx
  rw [hRS] at hx
  obtain ⟨t, htmem, hxeq⟩ := List.mem_map.mp hx
  have ht : t < cnt := List.mem_range.mp htmem
  subst hxeq
  have hRt : R * t ≤ kvs.length := by
    rcases Nat.eq_zero_or_pos kvs.length with h0 | h0
    · have := hzero h0
      omega
    · obtain ⟨-, hlt⟩ := hpos h0
      have : R * t ≤ R * (cnt - 1) := Nat.mul_le_mul (le_refl R) (by omega)
      omega
  have := offAt_le_length R kvs (R * t) hRt
  omega

theorem sharedLen_restart (R b : Nat) (k p : List Nat) (hb : b % R = 0) :
    sharedLen R b k p = 0 := by
  unfold sharedLen
  rw [if_pos hb]

theorem last_spec (R : Nat) (hR : 1 ≤ R) (kvs : List (List Nat × List Nat))
    (hne : 0 < kvs.length)
    (HB : ∀ kv ∈ kvs, kv.1.length < 128 ^ 10 ∧ kv.2.length < 128 ^ 10)
    (hsz : (blockData R kvs).length < 2 ^ 32)
    (i : BlockIter)
    (hdata : i.data = fullBlock R kvs)
    (hrestarts : i.restarts = ((blockData R kvs).length : Int))
    (hnum : i.numRestarts = (restartOffs R 0 0 [] kvs).length)
    (hseq : i.globalSeqNum = 0) :
    ∃ b, BwdOK R kvs (fullBlock R kvs) b (kvs.length - 1) i.last := by
  obtain ⟨cnt, hRS, hub, hpos, hzero⟩ := restartOffs_eq_map R hR kvs
  obtain ⟨hcnt_pos, hlt⟩ := hpos hne
  have hRSlen : (restartOffs R 0 0 [] kvs).length = cnt := by rw [hRS]; simp
  have hbvals := restart_values_bounded R hR kvs hsz
  have hbmod : (R * (cnt - 1)) % R = 0 := Nat.mul_mod_right R (cnt - 1)
  have hbn : R * (cnt - 1) < kvs.length := hlt
  have hkb : (keyAt kvs (R * (cnt - 1))).length < 128 ^ 10 :=
    (HB _ (keyAt_mem kvs _ hbn)).1
  have hvb : (valAt kvs (R * (cnt - 1))).length < 128 ^ 10 :=
    (HB _ (keyAt_mem kvs _ hbn)).2
  -- the restart offset Last seeks to
  have hro : i.restartOffset (i.numRestarts - 1) = offAt R kvs (R * (cnt - 1)) := by
    rw [hnum, hRSlen]
    have hspec := restartOffset_spec i (blockData R kvs) (restartOffs R 0 0 [] kvs)
      (le32 (restartOffs R 0 0 [] kvs).length) (cnt - 1)
      (by rw [hdata]; rfl) hrestarts (by rw [hRSlen]; omega) hbvals
    rw [hspec, hRS, getD_map_range _ _ _ _ (by omega)]
  -- decompose the block at the restart entry
  obtain ⟨pre, rest, hsplit, hprelen⟩ := blockData_decomp R kvs (R * (cnt - 1)) hbn
  rw [sharedLen_restart R _ _ _ hbmod] at hsplit
  have hread := readEntry_spec
    ({ i with offset := ((offAt R kvs (R * (cnt - 1)) : Nat) : Int) } : BlockIter)
    pre 0 (keyAt kvs (R * (cnt - 1))) (valAt kvs (R * (cnt - 1)))
    (rest ++ ((restartOffs R 0 0 [] kvs).map le32).flatten ++
      le32 (restartOffs R 0 0 [] kvs).length)
    (by
      simp only []
      rw [hdata]
      show fullBlock R kvs = _
      rw [fullBlock, hsplit]
      simp [List.append_assoc])
    (by simp only []; rw [hprelen])
    (by omega) (by simp) (by omega) (by omega) (by omega)
  have hnext1 : pre.length + (encEntry 0 (keyAt kvs (R * (cnt - 1)))
      (valAt kvs (R * (cnt - 1)))).length = offAt R kvs (R * (cnt - 1) + 1) := by
    rw [hprelen, offAt_succ R kvs _ hbn]
    congr 1
    rw [encEntries_getD R kvs 0 [] _ hbn]
    rw [show (0 : Nat) + R * (cnt - 1) = R * (cnt - 1) from by omega]
    rw [show sharedLen R (R * (cnt - 1)) (keyAt kvs (R * (cnt - 1)))
      (if R * (cnt - 1) = 0 then [] else keyAt kvs (R * (cnt - 1) - 1)) = 0 from
      sharedLen_restart R _ _ _ hbmod]
  rw [hnext1] at hread
  -- the state after readEntry, clearCache, cacheEntry
  have hclear : (({ i with offset := ((offAt R kvs (R * (cnt - 1)) : Nat) : Int) } :
      BlockIter).readEntry).clearCache.cacheEntry =
    { i with
      offset := ((offAt R kvs (R * (cnt - 1)) : Nat) : Int)
      key := keyAt kvs (R * (cnt - 1))
      val := valAt kvs (R * (cnt - 1))
      nextOffset := ((offAt R kvs (R * (cnt - 1) + 1) : Nat) : Int)
      cached := [mkCE R kvs (R * (cnt - 1))] } := by
    rw [hread]
    unfold BlockIter.clearCache BlockIter.cacheEntry mkCE
    simp only [List.nil_append]
  -- run the forward sweep to the end of the data area
  have hsc := scanTo_spec R kvs (fullBlock R kvs)
    (((restartOffs R 0 0 [] kvs).map le32).flatten ++ le32 (restartOffs R 0 0 [] kvs).length)
    (by rw [fullBlock]; simp [List.append_assoc]) HB
    ((fullBlock R kvs).length + 1) (R * (cnt - 1)) kvs.length
    ({ i with
      offset := ((offAt R kvs (R * (cnt - 1)) : Nat) : Int)
      key := keyAt kvs (R * (cnt - 1))
      val := valAt kvs (R * (cnt - 1))
      nextOffset := ((offAt R kvs (R * (cnt - 1) + 1) : Nat) : Int)
      cached := [mkCE R kvs (R * (cnt - 1))] } : BlockIter)
    hbn (le_refl _)
    (by
      have h3 := blockData_length_ge R kvs
      have hDlen : (blockData R kvs).length ≤ (fullBlock R kvs).length := by
        rw [fullBlock]
        simp [List.length_append]
      omega)
    (by simp only []; exact hdata) rfl rfl rfl rfl
  obtain ⟨c1, c2, c3, c4, c5, c6, c7, c8, c9, c10⟩ := hsc
  refine ⟨R * (cnt - 1), ?_⟩
  -- unfold Last into the composition analysed above
  have hlast1 : i.last =
    (({ i with
      offset := ((offAt R kvs (R * (cnt - 1)) : Nat) : Int)
      key := keyAt kvs (R * (cnt - 1))
      val := valAt kvs (R * (cnt - 1))
      nextOffset := ((offAt R kvs (R * (cnt - 1) + 1) : Nat) : Int)
      cached := [mkCE R kvs (R * (cnt - 1))] } : BlockIter).scanTo
        ((offAt R kvs kvs.length : Nat) : Int)
        ((fullBlock R kvs).length + 1)).decodeInternalKey := by
    simp only [BlockIter.last]
    rw [hro, hclear]
    have harg1 : i.restarts = ((offAt R kvs kvs.length : Nat) : Int) := by
      rw [hrestarts, offAt_top]
    have harg2 : i.data.length + 1 = (fullBlock R kvs).length + 1 := by rw [hdata]
    rw [show ({ i with
          offset := ((offAt R kvs (R * (cnt - 1)) : Nat) : Int)
          key := keyAt kvs (R * (cnt - 1))
          val := valAt kvs (R * (cnt - 1))
          nextOffset := ((offAt R kvs (R * (cnt - 1) + 1) : Nat) : Int)
          cached := [mkCE R kvs (R * (cnt - 1))] } : BlockIter).restarts =
        ((offAt R kvs kvs.length : Nat) : Int) from harg1]
    rw [show ({ i with
          offset := ((offAt R kvs (R * (cnt - 1)) : Nat) : Int)
          key := keyAt kvs (R * (cnt - 1))
          val := valAt kvs (R * (cnt - 1))
          nextOffset := ((offAt R kvs (R * (cnt - 1) + 1) : Nat) : Int)
          cached := [mkCE R kvs (R * (cnt - 1))] } : BlockIter).data.length + 1 =
        (fullBlock R kvs).length + 1 from harg2]
  rw [hlast1]
  have hdec : ∀ x : BlockIter, x.globalSeqNum = 0 →
      x.decodeInternalKey = { x with ikey := decodeIK x.key } := by
    intro x hx
    unfold BlockIter.decodeInternalKey
    simp [hx]
  rw [hdec _ (by rw [c4]; simp only []; exact hseq)]
  have hn1 : kvs.length - 1 + 1 = kvs.length := by omega
  have hjb' : kvs.length - 1 < R * (cnt - 1) + R := by
    have hRc : R * cnt = R * (cnt - 1) + R := by
      cases cnt with
      | zero => omega
      | succ c => simp [Nat.mul_succ]
    omega
  have hcachedfin : [mkCE R kvs (R * (cnt - 1))] ++
      (List.range' (R * (cnt - 1) + 1) (kvs.length - 1 - R * (cnt - 1))).map (mkCE R kvs) =
      (List.range' (R * (cnt - 1)) (kvs.length - 1 + 1 - R * (cnt - 1))).map (mkCE R kvs) := by
    rw [show kvs.length - 1 + 1 - R * (cnt - 1) = (kvs.length - 1 - R * (cnt - 1)) + 1 from
      by omega]
    rw [List.range'_succ]
    simp
  exact {
    hq := ⟨cnt - 1, rfl⟩
    hbj := by omega
    hjn := by omega
    hjb := hjb'
    hdata := by simp only []; rw [c1]; simp only []; exact hdata
    hoff := by simp only []; rw [c6]
    hnext := by simp only []; rw [c7, hn1]
    hkey := by simp only []; rw [c8]
    hval := by simp only []; rw [c9]
    hikey := by simp only []; rw [c8]
    hcached := by simp only []; rw [c10]; simp only []; exact hcachedfin
    hrestarts := by simp only []; rw [c2]; simp only []; exact hrestarts
    hnum := by simp only []; rw [c3]; simp only []; exact hnum
    hseq := by simp only []; rw [c4]; simp only []; exact hseq }

/-! ## Binary search (`sort.Search`) -/

theorem searchLoop_spec (f : Nat → Bool) (n : Nat)
    (hmono : ∀ a b : Nat, a ≤ b → b < n → f a = true → f b = true) :
    ∀ (fuel lo hi : Nat), lo ≤ hi → hi ≤ n → hi - lo ≤ fuel →
      (∀ t, t < lo → f t = false) → (∀ t, hi ≤ t → t < n → f t = true) →
      (∀ t, t < searchLoop f fuel lo hi → f t = false) ∧
      (∀ t, searchLoop f fuel lo hi ≤ t → t < n → f t = true) ∧
      lo ≤ searchLoop f fuel lo hi ∧ searchLoop f fuel lo hi ≤ hi := by
  intro fuel
  induction fuel with
  | zero =>
    intro lo hi hlohi hhin hfuel hlow hhigh
    have : lo = hi := by omega
    subst this
    unfold searchLoop
    exact ⟨hlow, hhigh, le_refl _, le_refl _⟩
  | succ fuel ih =>
    intro lo hi hlohi hhin hfuel hlow hhigh
    unfold searchLoop
    by_cases hlt : lo < hi
    · rw [if_pos hlt]
      have hmid1 : lo ≤ (lo + hi) / 2 := by omega
      have hmid2 : (lo + hi) / 2 < hi := by omega
      by_cases hf : f ((lo + hi) / 2) = true
      · simp only [hf, Bool.not_true, Bool.false_eq_true, if_false]
        have := ih lo ((lo + hi) / 2) hmid1 (by omega) (by omega) hlow
          (fun t ht htn => hmono _ _ ht htn hf)
        exact ⟨this.1, this.2.1, this.2.2.1, by omega⟩
      · have hf' : f ((lo + hi) / 2) = false := by
          cases hff : f ((lo + hi) / 2)
          · rfl
          · exact absurd hff hf
        simp only [hf', Bool.not_false, if_true]
        have hlow' : ∀ t, t < (lo + hi) / 2 + 1 → f t = false := by
          intro t ht
          cases hft : f t
          · rfl
          · exact absurd (hmono t ((lo + hi) / 2) (by omega) (by omega) hft) (by simp [hf'])
        have := ih ((lo + hi) / 2 + 1) hi (by omega) hhin (by omega) hlow' hhigh
        exact ⟨this.1, this.2.1, by omega, this.2.2.2⟩
    · rw [if_neg hlt]
      have : lo = hi := by omega
      subst this
      exact ⟨hlow, hhigh, le_refl _, le_refl _⟩

theorem sortSearch_spec (f : Nat → Bool) (n : Nat)
    (hmono : ∀ a b : Nat, a ≤ b → b < n → f a = true → f b = true) :
    (∀ t, t < sortSearch n f → f t = false) ∧
    (∀ t, sortSearch n f ≤ t → t < n → f t = true) ∧
    sortSearch n f ≤ n := by
  have := searchLoop_spec f n hmono n 0 n (by omega) (le_refl _) (by omega)
    (by omega) (by omega)
  exact ⟨this.1, this.2.1, this.2.2.2⟩

theorem getD_map_range' {α : Type} (f : Nat → α) (s len t : Nat) (d : α) (ht : t < len) :
    ((List.range' s len).map f).getD t d = f (s + t) := by
  have hlen : t < ((List.range' s len).map f).length := by simpa using ht
  rw [List.getD_eq_getElem _ _ hlen, List.getElem_map, List.getElem_range']
  congr 1
  omega

theorem range'_take (m : Nat) : ∀ (s len : Nat), m ≤ len →
    (List.range' s len).take m = List.range' s m := by
  induction m with
  | zero => intro s len _; simp
  | succ m ih =>
    intro s len hm
    obtain ⟨l, rfl⟩ : ∃ l, len = l + 1 := ⟨len - 1, by omega⟩
    rw [List.range'_succ, List.take_succ_cons, ih (s + 1) l (by omega), List.range'_succ]

/-- Reading the full entry at a restart point and caching it (the common
prelude of `Last` and the rescan of `Prev`). -/
theorem restartReadCC_spec (R : Nat) (kvs : List (List Nat × List Nat))
    (HB : ∀ kv ∈ kvs, kv.1.length < 128 ^ 10 ∧ kv.2.length < 128 ^ 10)
    (b : Nat) (hmod : b % R = 0) (hbn : b < kvs.length) (i : BlockIter)
    (hdata : i.data = fullBlock R kvs) :
    (({ i with offset := ((offAt R kvs b : Nat) : Int) } :
        BlockIter).readEntry).clearCache.cacheEntry =
      { i with
        offset := ((offAt R kvs b : Nat) : Int)
        key := keyAt kvs b
        val := valAt kvs b
        nextOffset := ((offAt R kvs (b + 1) : Nat) : Int)
        cached := [mkCE R kvs b] } := by
  have hkb : (keyAt kvs b).length < 128 ^ 10 := (HB _ (keyAt_mem kvs _ hbn)).1
  have hvb : (valAt kvs b).length < 128 ^ 10 := (HB _ (keyAt_mem kvs _ hbn)).2
  obtain ⟨pre, rest, hsplit, hprelen⟩ := blockData_decomp R kvs b hbn
  rw [sharedLen_restart R _ _ _ hmod] at hsplit
  have hread := readEntry_spec
    ({ i with offset := ((offAt R kvs b : Nat) : Int) } : BlockIter)
    pre 0 (keyAt kvs b) (valAt kvs b)
    (rest ++ ((restartOffs R 0 0 [] kvs).map le32).flatten ++
      le32 (restartOffs R 0 0 [] kvs).length)
    (by
      simp only []
      rw [hdata]
      show fullBlock R kvs = _
      rw [fullBlock, hsplit]
      simp [List.append_assoc])
    (by simp only []; rw [hprelen])
    (by omega) (by simp) (by omega) (by omega) (by omega)
  have hnext1 : pre.length + (encEntry 0 (keyAt kvs b) (valAt kvs b)).length =
      offAt R kvs (b + 1) := by
    rw [hprelen, offAt_succ R kvs _ hbn]
    congr 1
    rw [encEntries_getD R kvs 0 [] _ hbn]
    rw [show (0 : Nat) + b = b from by omega]
    rw [show sharedLen R b (keyAt kvs b)
      (if b = 0 then [] else keyAt kvs (b - 1)) = 0 from sharedLen_restart R _ _ _ hmod]
  rw [hnext1] at hread
  rw [hread]
  unfold BlockIter.clearCache BlockIter.cacheEntry mkCE
  simp only [List.nil_append]

theorem prev_spec_pos (R : Nat) (hR : 1 ≤ R) (kvs : List (List Nat × List Nat))
    (HB : ∀ kv ∈ kvs, kv.1.length < 128 ^ 10 ∧ kv.2.length < 128 ^ 10)
    (hsz : (blockData R kvs).length < 2 ^ 32)
    (b j : Nat) (i : BlockIter)
    (hok : BwdOK R kvs (fullBlock R kvs) b j i) (hj : 0 < j) :
    i.prev.2 = true ∧ ∃ b', BwdOK R kvs (fullBlock R kvs) b' (j - 1) i.prev.1 := by
  obtain ⟨⟨q, hqeq⟩, hbj, hjn, hjb, hdata, hoff, hnext, hkey, hval, hikey, hcached,
    hrestarts, hnum, hseq⟩ := hok
  have hclen : i.cached.length = j + 1 - b := by rw [hcached]; simp
  have hdec : ∀ x : BlockIter, x.globalSeqNum = 0 →
      x.decodeInternalKey = { x with ikey := decodeIK x.key } := by
    intro x hx
    unfold BlockIter.decodeInternalKey
    simp [hx]
  rcases Nat.lt_or_ge b j with hblt | hbge
  · -- pop from the cache
    have hn_ : i.cached.length - 1 = j - b := by omega
    have hcond : 0 < i.cached.length - 1 ∧
        (i.cached.getD (i.cached.length - 1) default).offset = i.offset := by
      constructor
      · omega
      · rw [hn_, hcached, getD_map_range' _ _ _ _ _ (by omega)]
        rw [show b + (j - b) = j from by omega]
        rw [hoff]
        rfl
    have hgete : i.cached.getD (i.cached.length - 1 - 1) default = mkCE R kvs (j - 1) := by
      rw [hn_, hcached, getD_map_range' _ _ _ _ _ (by omega)]
      congr 1
      omega
    have hprev1 : i.prev = (({ i with
        nextOffset := i.offset
        offset := ((offAt R kvs (j - 1) : Nat) : Int)
        key := keyAt kvs (j - 1)
        val := valAt kvs (j - 1)
        cached := i.cached.take (i.cached.length - 1) } : BlockIter).decodeInternalKey,
        true) := by
      unfold BlockIter.prev
      rw [if_pos hcond, hgete]
      rfl
    rw [hprev1]
    constructor
    · rfl
    · refine ⟨b, ?_⟩
      rw [hdec _ (by simp only []; exact hseq)]
      have htake : i.cached.take (i.cached.length - 1) =
          (List.range' b (j - 1 + 1 - b)).map (mkCE R kvs) := by
        rw [hn_, hcached, ← List.map_take, range'_take _ _ _ (by omega)]
        congr 2
        omega
      have hjsucc : j - 1 + 1 = j := by omega
      exact {
        hq := ⟨q, hqeq⟩
        hbj := by omega
        hjn := by omega
        hjb := by omega
        hdata := by simp only []; exact hdata
        hoff := by simp only []
        hnext := by simp only []; rw [hoff, hjsucc]
        hkey := by simp only []
        hval := by simp only []
        hikey := by simp only []
        hcached := by simp only []; exact htake
        hrestarts := by simp only []; exact hrestarts
        hnum := by simp only []; exact hnum
        hseq := by simp only []; exact hseq }
  · -- at the restart point: rewind to the previous restart and rescan
    have hbeq : b = j := by omega
    subst hbeq
    have hq_pos : 0 < q := by
      rcases Nat.eq_zero_or_pos q with h0 | h0
      · subst h0; omega
      · exact h0
    have hcond : ¬ (0 < i.cached.length - 1 ∧
        (i.cached.getD (i.cached.length - 1) default).offset = i.offset) := by
      intro hc
      omega
    unfold BlockIter.prev
    rw [if_neg hcond]
    have hoffpos : 0 < offAt R kvs b := by
      have := offAt_strict_mono R kvs 0 b hj (by omega)
      rw [offAt_zero] at this
      omega
    have hoff0 : ¬ i.offset = 0 := by
      rw [hoff]
      omega
    rw [if_neg hoff0]
    obtain ⟨cnt, hRS, hub, hpos, hzero⟩ := restartOffs_eq_map R hR kvs
    obtain ⟨hcnt_pos, hlt⟩ := hpos (by omega)
    have hRSlen : (restartOffs R 0 0 [] kvs).length = cnt := by rw [hRS]; simp
    have hbvals := restart_values_bounded R hR kvs hsz
    have hcnt1 : ∀ m : Nat, 0 < m → R * (m - 1) + R = R * m := by
      intro m hm
      cases m with
      | zero => omega
      | succ c => simp [Nat.mul_succ]
    have hqcnt : q < cnt := by
      by_contra hcon
      push_neg at hcon
      have hmul : R * (cnt - 1) ≤ R * (q - 1) := Nat.mul_le_mul (le_refl R) (by omega)
      have h1 := hcnt1 q hq_pos
      have h2 := hcnt1 cnt hcnt_pos
      omega
    -- each restart offset read during the binary search
    have hread_t : ∀ t, t < cnt → i.restartOffset t = offAt R kvs (R * t) := by
      intro t ht
      have hspec := restartOffset_spec i (blockData R kvs) (restartOffs R 0 0 [] kvs)
        (le32 (restartOffs R 0 0 [] kvs).length) t
        (by rw [hdata]; rfl) hrestarts (by omega) hbvals
      rw [hspec, hRS, getD_map_range _ _ _ _ (by omega)]
    have hRt_le : ∀ t, t < cnt → R * t ≤ kvs.length := by
      intro t ht
      have : R * t ≤ R * (cnt - 1) := Nat.mul_le_mul (le_refl R) (by omega)
      omega
    -- the binary search lands exactly on the restart index q
    have hsearch : sortSearch i.numRestarts
        (fun t => decide (i.offset ≤ (i.restartOffset t : Int))) = q := by
      rw [hnum, hRSlen]
      have hmono : ∀ a c : Nat, a ≤ c → c < cnt →
          (fun t => decide (i.offset ≤ (i.restartOffset t : Int))) a = true →
          (fun t => decide (i.offset ≤ (i.restartOffset t : Int))) c = true := by
        intro a c hac hccnt hfa
        simp only [decide_eq_true_eq] at hfa ⊢
        rw [hread_t c hccnt]
        rw [hread_t a (by omega)] at hfa
        have : offAt R kvs (R * a) ≤ offAt R kvs (R * c) :=
          offAt_mono R kvs _ _ (Nat.mul_le_mul (le_refl R) hac) (hRt_le c hccnt)
        omega
      obtain ⟨hbelow, habove, hle⟩ := sortSearch_spec _ cnt hmono
      have hfq : (fun t => decide (i.offset ≤ (i.restartOffset t : Int))) q = true := by
        simp only [decide_eq_true_eq]
        rw [hread_t q hqcnt, hoff, ← hqeq]
      have hnotlt : ¬ sortSearch cnt (fun t => decide (i.offset ≤ (i.restartOffset t : Int))) > q := by
        intro hcon
        have hfalse := hbelow q hcon
        simp only [decide_eq_true_eq] at hfq
        simp only [decide_eq_false_iff_not] at hfalse
        exact hfalse hfq
      have hq1 : R * (q - 1) + R = R * q := by
        cases q with
        | zero => omega
        | succ c => simp [Nat.mul_succ]
      have hnotgt : ¬ sortSearch cnt (fun t => decide (i.offset ≤ (i.restartOffset t : Int))) < q := by
        intro hcon
        have hft := habove (q - 1) (by omega) (by omega)
        simp only [decide_eq_true_eq] at hft
        rw [hread_t (q - 1) (by omega), hoff] at hft
        have hstrict : offAt R kvs (R * (q - 1)) < offAt R kvs (R * q) :=
          offAt_strict_mono R kvs _ _ (by omega) (by rw [← hqeq]; omega)
        rw [← hqeq] at hstrict
        omega
      omega
    simp only []
    rw [hsearch, if_pos hq_pos]
    have hbR : R * (q - 1) = b - R := by
      have := hcnt1 q hq_pos
      omega
    have hRleb : R ≤ b := by
      rw [hqeq]
      calc R = R * 1 := by ring
      _ ≤ R * q := Nat.mul_le_mul (le_refl R) hq_pos
    rw [hread_t (q - 1) (by omega), hbR]
    have hmod' : (b - R) % R = 0 := by
      rw [← hbR]
      exact Nat.mul_mod_right R (q - 1)
    have hbn' : b - R < kvs.length := by omega
    rw [restartReadCC_spec R kvs HB (b - R) hmod' hbn' i hdata]
    -- the rescan sweeps from the previous restart up to the current one
    have h3n := blockData_length_ge R kvs
    have hDfull : (blockData R kvs).length ≤ (fullBlock R kvs).length := by
      rw [fullBlock]
      simp [List.length_append]
    have hsc := scanTo_spec R kvs (fullBlock R kvs)
      (((restartOffs R 0 0 [] kvs).map le32).flatten ++ le32 (restartOffs R 0 0 [] kvs).length)
      (by rw [fullBlock]; simp [List.append_assoc]) HB
      ((fullBlock R kvs).length + 1) (b - R) b
      ({ i with
        offset := ((offAt R kvs (b - R) : Nat) : Int)
        key := keyAt kvs (b - R)
        val := valAt kvs (b - R)
        nextOffset := ((offAt R kvs (b - R + 1) : Nat) : Int)
        cached := [mkCE R kvs (b - R)] } : BlockIter)
      (by omega) (by omega) (by omega)
      (by simp only []; exact hdata) rfl rfl rfl rfl
    obtain ⟨c1, c2, c3, c4, c5, c6, c7, c8, c9, c10⟩ := hsc
    rw [show ({ i with
        offset := ((offAt R kvs (b - R) : Nat) : Int)
        key := keyAt kvs (b - R)
        val := valAt kvs (b - R)
        nextOffset := ((offAt R kvs (b - R + 1) : Nat) : Int)
        cached := [mkCE R kvs (b - R)] } : BlockIter).data.length + 1 =
      (fullBlock R kvs).length + 1 from by simp only []; rw [hdata]]
    rw [hoff]
    constructor
    · trivial
    · refine ⟨b - R, ?_⟩
      rw [hdec _ (by rw [c4]; simp only []; exact hseq)]
      have hcfin : [mkCE R kvs (b - R)] ++
          (List.range' (b - R + 1) (b - 1 - (b - R))).map (mkCE R kvs) =
          (List.range' (b - R) (b - 1 + 1 - (b - R))).map (mkCE R kvs) := by
        rw [show b - 1 + 1 - (b - R) = (b - 1 - (b - R)) + 1 from by omega]
        rw [List.range'_succ]
        simp
      exact {
        hq := ⟨q - 1, hbR.symm⟩
        hbj := by omega
        hjn := by omega
        hjb := by omega
        hdata := by simp only []; rw [c1]; simp only []; exact hdata
        hoff := by simp only []; rw [c6]
        hnext := by simp only []; rw [c7]; congr 2; omega
        hkey := by simp only []; rw [c8]
        hval := by simp only []; rw [c9]
        hikey := by simp only []; rw [c8]
        hcached := by simp only []; rw [c10]; simp only []; exact hcfin
        hrestarts := by simp only []; rw [c2]; simp only []; exact hrestarts
        hnum := by simp only []; rw [c3]; simp only []; exact hnum
        hseq := by simp only []; rw [c4]; simp only []; exact hseq }

theorem prev_spec_zero (R : Nat) (kvs : List (List Nat × List Nat))
    (b : Nat) (i : BlockIter)
    (hok : BwdOK R kvs (fullBlock R kvs) b 0 i) :
    i.prev.2 = false ∧ ¬ i.prev.1.valid := by
  obtain ⟨⟨q, hqeq⟩, hbj, hjn, hjb, hdata, hoff, hnext, hkey, hval, hikey, hcached,
    hrestarts, hnum, hseq⟩ := hok
  have hb0 : b = 0 := by omega
  subst hb0
  have hclen : i.cached.length = 1 := by rw [hcached]; simp
  have hcond : ¬ (0 < i.cached.length - 1 ∧
      (i.cached.getD (i.cached.length - 1) default).offset = i.offset) := by
    intro hc
    omega
  unfold BlockIter.prev
  rw [if_neg hcond]
  have hoffzero : i.offset = 0 := by
    rw [hoff, offAt_zero]
    rfl
  rw [if_pos hoffzero]
  constructor
  · rfl
  · intro hv
    have h1 : (0 : Int) ≤ -1 := hv.1
    omega

theorem collectBackward_invalid (i : BlockIter) (fuel : Nat) (h : ¬ i.valid) :
    collectBackward i fuel = [] := by
  cases fuel with
  | zero => rfl
  | succ f => rw [collectBackward, if_neg h]

theorem collectBackward_spec (R : Nat) (hR : 1 ≤ R) (kvs : List (List Nat × List Nat))
    (HB : ∀ kv ∈ kvs, kv.1.length < 128 ^ 10 ∧ kv.2.length < 128 ^ 10)
    (hsz : (blockData R kvs).length < 2 ^ 32) :
    ∀ (j b : Nat) (i : BlockIter) (fuel : Nat),
      BwdOK R kvs (fullBlock R kvs) b j i → j + 2 ≤ fuel →
      collectBackward i fuel =
        ((kvs.take (j + 1)).map fun kv => (decodeIK kv.1, kv.2)).reverse := by
  intro j
  induction j with
  | zero =>
    intro b i fuel hok hfuel
    obtain ⟨f, rfl⟩ : ∃ f, fuel = f + 1 := ⟨fuel - 1, by omega⟩
    have h3n := blockData_length_ge R kvs
    have hvalid : i.valid := by
      constructor
      · rw [hok.hoff]; exact Int.natCast_nonneg _
      · rw [hok.hoff, hok.hrestarts, offAt_zero]
        have := hok.hjn
        omega
    rw [collectBackward, if_pos hvalid]
    obtain ⟨-, hnv⟩ := prev_spec_zero R kvs b i hok
    rw [collectBackward_invalid _ _ hnv]
    cases hkvs : kvs with
    | nil => exact absurd hok.hjn (by simp [hkvs])
    | cons kv rest =>
      rw [hok.hikey, hok.hval]
      simp [keyAt, valAt, hkvs]
  | succ j ih =>
    intro b i fuel hok hfuel
    obtain ⟨f, rfl⟩ : ∃ f, fuel = f + 1 := ⟨fuel - 1, by omega⟩
    have hvalid : i.valid := by
      constructor
      · rw [hok.hoff]; exact Int.natCast_nonneg _
      · rw [hok.hoff, hok.hrestarts, ← offAt_top R kvs]
        have := offAt_strict_mono R kvs (j + 1) kvs.length hok.hjn (le_refl _)
        omega
    rw [collectBackward, if_pos hvalid]
    obtain ⟨-, b', hok'⟩ := prev_spec_pos R hR kvs HB hsz b (j + 1) i hok (by omega)
    rw [ih b' i.prev.1 f hok' (by omega)]
    rw [hok.hikey, hok.hval]
    have hjn := hok.hjn
    have htake : kvs.take (j + 1 + 1) = kvs.take (j + 1) ++ [kvs.getD (j + 1) ([], [])] := by
      rw [List.getD_eq_getElem _ _ hjn]
      rw [List.take_succ, List.getElem?_eq_getElem hjn]
      rfl
    rw [htake]
    simp [List.map_append, List.reverse_append, keyAt, valAt]

/-! ## The finished block of a writer -/

theorem finish_addAll_nil (R : Nat) :
    ((mkBlockWriter R).addAll []).finish = [0, 0, 0, 0, 1, 0, 0, 0] := by
  have h : ((mkBlockWriter R).addAll []).finish =
      [] ++ (([0] : List Nat).map le32).flatten ++ le32 ([0] : List Nat).length := rfl
  rw [h]
  decide

theorem finish_addAll_nonempty (R : Nat) (es : List (InternalKey × List Nat)) (hne : es ≠ []) :
    ((mkBlockWriter R).addAll es).finish = fullBlock R (encKVs es) := by
  show (BlockWriter.addAll ⟨R, 0, [], [], [], []⟩ es).finish = _
  rw [BlockWriter.addAll_spec R es 0 [] [] [] []]
  unfold BlockWriter.finish fullBlock blockData
  have hlen : ¬ (0 + es.length = 0) := by
    intro h
    exact hne (List.eq_nil_of_length_eq_zero (by omega))
  rw [if_neg hlen]
  simp

theorem encKVs_decode (es : List (InternalKey × List Nat))
    (htr : ∀ e ∈ es, e.1.trailer < 2 ^ 64) :
    (encKVs es).map (fun kv => (decodeIK kv.1, kv.2)) = es := by
  induction es with
  | nil => rfl
  | cons e rest ih =>
    simp only [encKVs, List.map_cons, List.map_map] at ih ⊢
    rw [decodeIK_encodeIK e.1 (htr e (by simp))]
    rw [ih fun x hx => htr x (by simp [hx])]

theorem encKVs_length (es : List (InternalKey × List Nat)) : (encKVs es).length = es.length := by
  simp [encKVs]

/-- C1: Block round-trip — for every sequence of (key, value) entries added
via `blockWriter.add` in non-decreasing internal-key order, with any
`restart_interval ≥ 1`, iterating the buffer returned by `finish()` with a
`blockIter` forward from `First()` via `Next()` yields exactly the added
entries in the same order, and iterating backward from `Last()` via
`Prev()` yields exactly the reverse sequence. (Size side conditions: the
encoded block fits the 32-bit restart-offset format and trailers fit
64 bits.) -/
theorem C1_block_round_trip (R : Nat) (es : List (InternalKey × List Nat))
    (hR : 1 ≤ R)
    (hsorted : es.Chain' fun a b => internalCompare a.1 b.1 ≠ .gt)
    (htr : ∀ e ∈ es, e.1.trailer < 2 ^ 64)
    (hszkv : ∀ e ∈ es, e.1.userKey.length < 2 ^ 20 ∧ e.2.length < 2 ^ 20)
    (hsz : (((mkBlockWriter R).addAll es).finish).length < 2 ^ 32) :
    ∃ it : BlockIter,
      newBlockIter (((mkBlockWriter R).addAll es).finish) = .ok it ∧
      collectForward it.first ((((mkBlockWriter R).addAll es).finish).length + 1) = es ∧
      collectBackward it.last ((((mkBlockWriter R).addAll es).finish).length + 1) = es.reverse := by
  by_cases hne : es = []
  · subst hne
    rw [finish_addAll_nil]
    exact ⟨_, rfl, by decide, by decide⟩
  · have hespos : 0 < es.length := by
      cases es with
      | nil => exact absurd rfl hne
      | cons e rest => simp
    have hnpos : 0 < (encKVs es).length := by rw [encKVs_length]; exact hespos
    have hbig : (2 : Nat) ^ 20 + 8 < 128 ^ 10 := by norm_num
    have HB : ∀ kv ∈ encKVs es, kv.1.length < 128 ^ 10 ∧ kv.2.length < 128 ^ 10 := by
      intro kv hkv
      obtain ⟨e, he, rfl⟩ := List.mem_map.mp hkv
      obtain ⟨h1, h2⟩ := hszkv e he
      refine ⟨?_, ?_⟩
      · show (encodeIK e.1).length < 128 ^ 10
        rw [encodeIK_length]
        omega
      · show e.2.length < 128 ^ 10
        omega
    rw [finish_addAll_nonempty R es hne] at hsz ⊢
    obtain ⟨cnt, hRS, hub, hpos, hzero⟩ := restartOffs_eq_map R hR (encKVs es)
    obtain ⟨hcnt_pos, hlt⟩ := hpos hnpos
    have hRSlen : (restartOffs R 0 0 [] (encKVs es)).length = cnt := by rw [hRS]; simp
    have hDfull : (blockData R (encKVs es)).length ≤ (fullBlock R (encKVs es)).length := by
      rw [fullBlock]
      simp [List.length_append]
    have hszD : (blockData R (encKVs es)).length < 2 ^ 32 := by omega
    have h3n := blockData_length_ge R (encKVs es)
    have hRSne : restartOffs R 0 0 [] (encKVs es) ≠ [] := by
      intro h
      rw [h] at hRSlen
      simp at hRSlen
      omega
    have hcnt32 : (restartOffs R 0 0 [] (encKVs es)).length < 2 ^ 32 := by
      rw [hRSlen]
      have hc1 : cnt - 1 ≤ R * (cnt - 1) := Nat.le_mul_of_pos_left (cnt - 1) (by omega)
      omega
    have hinit := init_spec (blockData R (encKVs es)) (restartOffs R 0 0 [] (encKVs es)) 0
      hRSne hcnt32
    refine ⟨initIter R (encKVs es), ?_, ?_, ?_⟩
    · show BlockIter.init (fullBlock R (encKVs es)) 0 = _
      exact hinit
    · -- forward traversal
      have hfwd := collectForward_spec R (encKVs es) 0 [] []
        (((restartOffs R 0 0 [] (encKVs es)).map le32).flatten ++
          le32 (restartOffs R 0 0 [] (encKVs es)).length)
        (initIter R (encKVs es))
        ((fullBlock R (encKVs es)).length + 1)
        (by intro h; rw [h] at hnpos; simp at hnpos)
        (by omega)
        (by
          show fullBlock R (encKVs es) = _
          rw [fullBlock, blockData]
          simp [List.append_assoc])
        (by simp [initIter])
        (by
          show (((blockData R (encKVs es)).length : Nat) : Int) = _
          rw [blockData]
          simp)
        rfl
        (Or.inl (Nat.zero_mod R))
        HB
      have hfirst : (initIter R (encKVs es)).first =
          (initIter R (encKVs es)).loadEntry := rfl
      rw [hfirst, hfwd, encKVs_decode es htr]
    · -- backward traversal
      obtain ⟨b, hok⟩ := last_spec R hR (encKVs es) hnpos HB hszD
        (initIter R (encKVs es)) rfl rfl rfl rfl
      have hbwd := collectBackward_spec R hR (encKVs es) HB hszD ((encKVs es).length - 1) b _
        ((fullBlock R (encKVs es)).length + 1) hok (by omega)
      rw [hbwd]
      rw [show (encKVs es).length - 1 + 1 = (encKVs es).length from by omega]
      rw [List.take_of_length_le (le_refl _), encKVs_decode es htr]

theorem C1_block_round_trip_witness :
    ∃ it : BlockIter,
      newBlockIter (((mkBlockWriter 2).addAll
        [(⟨[97], 513⟩, [1, 2]), (⟨[97, 98], 300⟩, [7]), (⟨[98], 259⟩, [])]).finish) = .ok it ∧
      collectForward it.first ((((mkBlockWriter 2).addAll
        [(⟨[97], 513⟩, [1, 2]), (⟨[97, 98], 300⟩, [7]), (⟨[98], 259⟩, [])]).finish).length + 1) =
        [(⟨[97], 513⟩, [1, 2]), (⟨[97, 98], 300⟩, [7]), (⟨[98], 259⟩, [])] ∧
      collectBackward it.last ((((mkBlockWriter 2).addAll
        [(⟨[97], 513⟩, [1, 2]), (⟨[97, 98], 300⟩, [7]), (⟨[98], 259⟩, [])]).finish).length + 1) =
        [(⟨[97], 513⟩, [1, 2]), (⟨[97, 98], 300⟩, [7]), (⟨[98], 259⟩, [])].reverse :=
  C1_block_round_trip 2
    [(⟨[97], 513⟩, [1, 2]), (⟨[97, 98], 300⟩, [7]), (⟨[98], 259⟩, [])]
    (by decide) (by simp [List.chain'_cons, internalCompare, byteCompare]) (by decide) (by decide)
    (by decide)

/-! ## The internal-key ordering -/

theorem byteCompare_eq_iff : ∀ a b : List Nat, byteCompare a b = .eq ↔ a = b := by
  intro a
  induction a with
  | nil => intro b; cases b <;> simp [byteCompare]
  | cons x as ih =>
    intro b
    cases b with
    | nil => simp [byteCompare]
    | cons y bs =>
      simp only [byteCompare]
      by_cases hxy : x < y
      · simp [hxy]
        omega
      · by_cases hyx : y < x
        · simp [hxy, hyx]
          omega
        · have hxy' : x = y := by omega
          simp [hxy, hyx, hxy', ih bs]

theorem byteCompare_lt_gt : ∀ a b : List Nat, byteCompare a b = .lt ↔ byteCompare b a = .gt := by
  intro a
  induction a with
  | nil => intro b; cases b <;> simp [byteCompare]
  | cons x as ih =>
    intro b
    cases b with
    | nil => simp [byteCompare]
    | cons y bs =>
      simp only [byteCompare]
      by_cases hxy : x < y
      · have : ¬ y < x := by omega
        simp [hxy, this]
      · by_cases hyx : y < x
        · simp [hxy, hyx]
        · simp [hxy, hyx, ih bs]

theorem byteCompare_lt_trans : ∀ a b c : List Nat,
    byteCompare a b = .lt → byteCompare b c = .lt → byteCompare a c = .lt := by
  intro a
  induction a with
  | nil =>
    intro b c hab hbc
    cases c with
    | nil =>
      cases b with
      | nil => simp [byteCompare] at hab
      | cons y bs => simp [byteCompare] at hbc
    | cons z cs => simp [byteCompare]
  | cons x as ih =>
    intro b c hab hbc
    cases b with
    | nil => simp [byteCompare] at hab
    | cons y bs =>
      cases c with
      | nil => simp [byteCompare] at hbc
      | cons z cs =>
        simp only [byteCompare] at hab hbc ⊢
        by_cases hxy : x < y
        · by_cases hyz : y < z
          · simp [show x < z from by omega]
          · by_cases hzy : z < y
            · simp [hyz, hzy] at hbc
            · have : y = z := by omega
              subst this
              simp [hxy]
        · by_cases hyx : y < x
          · simp [hxy, hyx] at hab
          · have hxy' : x = y := by omega
            subst hxy'
            simp only [lt_irrefl, if_false] at hab
            by_cases hxz : x < z
            · simp [hxz]
            · by_cases hzx : z < x
              · simp [hxz, hzx] at hbc
              · have : x = z := by omega
                subst this
                simp only [lt_irrefl, if_false] at hbc ⊢
                exact ih bs cs hab hbc

theorem internalCompare_def (a b : InternalKey) :
    internalCompare a b =
      match byteCompare a.userKey b.userKey with
      | .eq => if b.trailer < a.trailer then .lt
               else if a.trailer < b.trailer then .gt else .eq
      | o => o := rfl

theorem internalCompare_eq_iff (a b : InternalKey) :
    internalCompare a b = .eq ↔ a = b := by
  rw [internalCompare_def]
  cases hbc : byteCompare a.userKey b.userKey with
  | eq =>
    have huk : a.userKey = b.userKey := (byteCompare_eq_iff _ _).mp hbc
    simp only []
    constructor
    · intro h
      by_cases h1 : b.trailer < a.trailer
      · rw [if_pos h1] at h; cases h
      · rw [if_neg h1] at h
        by_cases h2 : a.trailer < b.trailer
        · rw [if_pos h2] at h; cases h
        · have ht : a.trailer = b.trailer := by omega
          cases a
          cases b
          simp_all
    · intro h
      subst h
      simp
  | lt =>
    simp only []
    constructor
    · intro h; cases h
    · intro h
      subst h
      rw [(byteCompare_eq_iff a.userKey a.userKey).mpr rfl] at hbc
      cases hbc
  | gt =>
    simp only []
    constructor
    · intro h; cases h
    · intro h
      subst h
      rw [(byteCompare_eq_iff a.userKey a.userKey).mpr rfl] at hbc
      cases hbc

theorem internalCompare_lt_gt (a b : InternalKey) :
    internalCompare a b = .lt ↔ internalCompare b a = .gt := by
  rw [internalCompare_def, internalCompare_def]
  cases hab : byteCompare a.userKey b.userKey with
  | eq =>
    have hba : byteCompare b.userKey a.userKey = .eq := by
      rw [byteCompare_eq_iff] at hab ⊢
      exact hab.symm
    rw [hba]
    simp only []
    by_cases h1 : b.trailer < a.trailer
    · simp [h1, show ¬ a.trailer < b.trailer from by omega]
    · by_cases h2 : a.trailer < b.trailer
      · simp [h1, h2]
      · simp [h1, h2]
  | lt =>
    have hba : byteCompare b.userKey a.userKey = .gt := (byteCompare_lt_gt _ _).mp hab
    rw [hba]
    simp
  | gt =>
    have hba : byteCompare b.userKey a.userKey = .lt := by
      rw [byteCompare_lt_gt]
      exact hab
    rw [hba]
    simp

theorem internalCompare_lt_trans (a b c : InternalKey) :
    internalCompare a b = .lt → internalCompare b c = .lt → internalCompare a c = .lt := by
  rw [internalCompare_def, internalCompare_def, internalCompare_def]
  cases hab : byteCompare a.userKey b.userKey with
  | gt => intro h; cases h
  | lt =>
    intro _ hbc
    cases hbc' : byteCompare b.userKey c.userKey with
    | gt => rw [hbc'] at hbc; cases hbc
    | lt => rw [byteCompare_lt_trans _ _ _ hab hbc']
    | eq =>
      have huk : b.userKey = c.userKey := (byteCompare_eq_iff _ _).mp hbc'
      rw [← huk, hab]
  | eq =>
    intro hab' hbc
    have huk : a.userKey = b.userKey := (byteCompare_eq_iff _ _).mp hab
    simp only [] at hab'
    have htr : b.trailer < a.trailer := by
      by_contra hcon
      push_neg at hcon
      by_cases h2 : a.trailer < b.trailer
      · rw [if_neg (by omega), if_pos h2] at hab'
        cases hab'
      · rw [if_neg (by omega), if_neg h2] at hab'
        cases hab'
    cases hbc' : byteCompare b.userKey c.userKey with
    | gt => rw [hbc'] at hbc; cases hbc
    | lt =>
      rw [huk, hbc']
    | eq =>
      rw [hbc'] at hbc
      simp only [] at hbc
      have htr2 : c.trailer < b.trailer := by
        by_contra hcon
        push_neg at hcon
        by_cases h2 : b.trailer < c.trailer
        · rw [if_neg (by omega), if_pos h2] at hbc
          cases hbc
        · rw [if_neg (by omega), if_neg h2] at hbc
          cases hbc
      have hac : byteCompare a.userKey c.userKey = .eq := by
        rw [huk]
        exact hbc'
      rw [hac]
      simp only []
      rw [if_pos (by omega)]

theorem FwdOK.valid' (R : Nat) (kvs : List (List Nat × List Nat)) (blk : List Nat)
    (j : Nat) (i : BlockIter) (h : FwdOK R kvs blk j i) : i.valid := by
  constructor
  · rw [h.hoff]; exact Int.natCast_nonneg _
  · rw [h.hoff, h.hrestarts, ← offAt_top R kvs]
    have := offAt_strict_mono R kvs j kvs.length h.hjn (le_refl _)
    omega

/-- Loading the entry at a restart point. -/
theorem restartLoad_spec (R : Nat) (kvs : List (List Nat × List Nat))
    (HB : ∀ kv ∈ kvs, kv.1.length < 128 ^ 10 ∧ kv.2.length < 128 ^ 10)
    (b : Nat) (hmod : b % R = 0) (hbn : b < kvs.length) (i : BlockIter)
    (hdata : i.data = fullBlock R kvs)
    (hrestarts : i.restarts = ((blockData R kvs).length : Int))
    (hseq : i.globalSeqNum = 0) :
    FwdOK R kvs (fullBlock R kvs) b
      (({ i with offset := ((offAt R kvs b : Nat) : Int) } : BlockIter).loadEntry) := by
  have hkb : (keyAt kvs b).length < 128 ^ 10 := (HB _ (keyAt_mem kvs _ hbn)).1
  have hvb : (valAt kvs b).length < 128 ^ 10 := (HB _ (keyAt_mem kvs _ hbn)).2
  obtain ⟨pre, rest, hsplit, hprelen⟩ := blockData_decomp R kvs b hbn
  rw [sharedLen_restart R _ _ _ hmod] at hsplit
  have hload := loadEntry_spec
    ({ i with offset := ((offAt R kvs b : Nat) : Int) } : BlockIter)
    pre 0 (keyAt kvs b) (valAt kvs b)
    (rest ++ ((restartOffs R 0 0 [] kvs).map le32).flatten ++
      le32 (restartOffs R 0 0 [] kvs).length)
    (by
      simp only []
      rw [hdata]
      show fullBlock R kvs = _
      rw [fullBlock, hsplit]
      simp [List.append_assoc])
    (by simp only []; rw [hprelen])
    (by omega) (by simp) (by simp only []; exact hseq) (by omega) (by omega) (by omega)
  have hnext1 : pre.length + (encEntry 0 (keyAt kvs b) (valAt kvs b)).length =
      offAt R kvs (b + 1) := by
    rw [hprelen, offAt_succ R kvs _ hbn]
    congr 1
    rw [encEntries_getD R kvs 0 [] _ hbn]
    rw [show (0 : Nat) + b = b from by omega]
    rw [show sharedLen R b (keyAt kvs b)
      (if b = 0 then [] else keyAt kvs (b - 1)) = 0 from sharedLen_restart R _ _ _ hmod]
  rw [hnext1] at hload
  rw [hload]
  exact {
    hjn := hbn
    hdata := by simp only []; exact hdata
    hoff := by simp only []
    hnext := by simp only []
    hkey := by simp only []
    hval := by simp only []
    hikey := by simp only []
    hrestarts := by simp only []; exact hrestarts
    hseq := by simp only []; exact hseq }

/-- `Next` from a loaded position: advance to entry `j + 1`, or go invalid
at the end of the block. -/
theorem next_spec (R : Nat) (kvs : List (List Nat × List Nat))
    (HB : ∀ kv ∈ kvs, kv.1.length < 128 ^ 10 ∧ kv.2.length < 128 ^ 10)
    (j : Nat) (i : BlockIter)
    (h : FwdOK R kvs (fullBlock R kvs) j i) :
    (j + 1 < kvs.length →
      i.next.2 = true ∧ FwdOK R kvs (fullBlock R kvs) (j + 1) i.next.1) ∧
    (j + 1 = kvs.length → i.next.2 = false ∧ ¬ i.next.1.valid) := by
  have hTsplit : fullBlock R kvs = blockData R kvs ++
      (((restartOffs R 0 0 [] kvs).map le32).flatten ++
        le32 (restartOffs R 0 0 [] kvs).length) := by
    rw [fullBlock]
    simp [List.append_assoc]
  constructor
  · intro hlt
    have hvalid : ({ i with offset := i.nextOffset } : BlockIter).valid := by
      constructor
      · show (0 : Int) ≤ i.nextOffset
        rw [h.hnext]
        exact Int.natCast_nonneg _
      · show i.nextOffset < i.restarts
        rw [h.hnext, h.hrestarts, ← offAt_top R kvs]
        have := offAt_strict_mono R kvs (j + 1) kvs.length hlt (le_refl _)
        omega
    unfold BlockIter.next
    rw [if_pos hvalid]
    refine ⟨rfl, ?_⟩
    have hread := step_read_spec R kvs (fullBlock R kvs) _ hTsplit HB j hlt
      ({ i with offset := i.nextOffset } : BlockIter)
      (by simp only []; exact h.hdata)
      (by simp only []; exact h.hnext)
      (by simp only []; exact h.hkey)
    show FwdOK R kvs (fullBlock R kvs) (j + 1)
      (({ i with offset := i.nextOffset } : BlockIter).loadEntry)
    unfold BlockIter.loadEntry
    rw [hread]
    have hdec : ∀ x : BlockIter, x.globalSeqNum = 0 →
        x.decodeInternalKey = { x with ikey := decodeIK x.key } := by
      intro x hx
      unfold BlockIter.decodeInternalKey
      simp [hx]
    rw [hdec _ (by simp only []; exact h.hseq)]
    exact {
      hjn := hlt
      hdata := by simp only []; exact h.hdata
      hoff := by simp only []; exact h.hnext
      hnext := by simp only []
      hkey := by simp only []
      hval := by simp only []
      hikey := by simp only []
      hrestarts := by simp only []; exact h.hrestarts
      hseq := by simp only []; exact h.hseq }
  · intro heq
    have hnv : ¬ ({ i with offset := i.nextOffset } : BlockIter).valid := by
      intro hv
      have h2 : i.nextOffset < i.restarts := hv.2
      rw [h.hnext, h.hrestarts, heq, offAt_top R kvs] at h2
      omega
    unfold BlockIter.next
    rw [if_neg hnv]
    exact ⟨rfl, hnv⟩

theorem seekGEScan_invalid (i : BlockIter) (probe : InternalKey) (fuel : Nat)
    (h : ¬ i.valid) : BlockIter.seekGEScan i probe fuel = i := by
  cases fuel with
  | zero => rfl
  | succ f =>
    unfold BlockIter.seekGEScan
    rw [if_neg h]

theorem seekGEScan_spec (R : Nat) (kvs : List (List Nat × List Nat))
    (HB : ∀ kv ∈ kvs, kv.1.length < 128 ^ 10 ∧ kv.2.length < 128 ^ 10)
    (probe : InternalKey) :
    ∀ (fuel j : Nat) (i : BlockIter),
      FwdOK R kvs (fullBlock R kvs) j i →
      kvs.length - j ≤ fuel →
      (∃ t, j ≤ t ∧ t < kvs.length ∧
        internalCompare (decodeIK (keyAt kvs t)) probe ≠ .lt ∧
        (∀ m, j ≤ m → m < t → internalCompare (decodeIK (keyAt kvs m)) probe = .lt) ∧
        FwdOK R kvs (fullBlock R kvs) t (BlockIter.seekGEScan i probe fuel)) ∨
      ((∀ t, j ≤ t → t < kvs.length → internalCompare (decodeIK (keyAt kvs t)) probe = .lt) ∧
        ¬ (BlockIter.seekGEScan i probe fuel).valid) := by
  intro fuel
  induction fuel with
  | zero =>
    intro j i h hfuel
    have := h.hjn
    omega
  | succ fuel ih =>
    intro j i h hfuel
    have hvalid := FwdOK.valid' R kvs _ j i h
    unfold BlockIter.seekGEScan
    rw [if_pos hvalid]
    by_cases hge : internalCompare i.ikey probe ≠ .lt
    · rw [if_pos hge]
      left
      refine ⟨j, le_refl _, h.hjn, ?_, ?_, h⟩
      · rw [← h.hikey]
        exact hge
      · intro m hm1 hm2
        omega
    · rw [if_neg hge]
      have hlt_cmp : internalCompare (decodeIK (keyAt kvs j)) probe = .lt := by
        rw [← h.hikey]
        exact not_not.mp hge
      rcases Nat.lt_or_ge (j + 1) kvs.length with hlt | hge2
      · obtain ⟨-, hok2⟩ := (next_spec R kvs HB j i h).1 hlt
        rcases ih (j + 1) i.next.1 hok2 (by omega) with
          ⟨t, ht1, ht2, ht3, ht4, ht5⟩ | ⟨hall, hnv⟩
        · left
          refine ⟨t, by omega, ht2, ht3, ?_, ht5⟩
          intro m hm1 hm2
          rcases Nat.eq_or_lt_of_le hm1 with hmeq | hmlt
          · subst hmeq
            exact hlt_cmp
          · exact ht4 m (by omega) hm2
        · right
          refine ⟨?_, hnv⟩
          intro t ht1 ht2
          rcases Nat.eq_or_lt_of_le ht1 with hteq | htlt
          · subst hteq
            exact hlt_cmp
          · exact hall t (by omega) ht2
      · have heq : j + 1 = kvs.length := by
          have := h.hjn
          omega
        obtain ⟨-, hnv⟩ := (next_spec R kvs HB j i h).2 heq
        right
        rw [seekGEScan_invalid _ _ _ hnv]
        refine ⟨?_, hnv⟩
        intro t ht1 ht2
        have : t = j := by omega
        subst this
        exact hlt_cmp

theorem putUvarint_zero : putUvarint 0 = [0] := rfl

/-- The full key read by the binary search of `SeekGE` at a restart point. -/
theorem restart_probe_key (R : Nat) (kvs : List (List Nat × List Nat))
    (HB : ∀ kv ∈ kvs, kv.1.length < 128 ^ 10 ∧ kv.2.length < 128 ^ 10)
    (b : Nat) (hmod : b % R = 0) (hbn : b < kvs.length) (i : BlockIter)
    (hdata : i.data = fullBlock R kvs) :
    ((i.data.drop ((offAt R kvs b + 1) +
        (decodeUvarint (i.data.drop (offAt R kvs b + 1))).2 +
        (decodeUvarint (i.data.drop ((offAt R kvs b + 1) +
          (decodeUvarint (i.data.drop (offAt R kvs b + 1))).2))).2)).take
      (decodeUvarint (i.data.drop (offAt R kvs b + 1))).1) = keyAt kvs b := by
  have hkb : (keyAt kvs b).length < 128 ^ 10 := (HB _ (keyAt_mem kvs _ hbn)).1
  have hvb : (valAt kvs b).length < 128 ^ 10 := (HB _ (keyAt_mem kvs _ hbn)).2
  obtain ⟨pre, rest, hsplit, hprelen⟩ := blockData_decomp R kvs b hbn
  rw [sharedLen_restart R _ _ _ hmod] at hsplit
  have hE : encEntry 0 (keyAt kvs b) (valAt kvs b) =
      0 :: (putUvarint (keyAt kvs b).length ++ (putUvarint (valAt kvs b).length ++
        (keyAt kvs b ++ valAt kvs b))) := by
    rw [encEntry, putUvarint_zero]
    simp [List.append_assoc]
  have hdata1 : i.data = (pre ++ [0]) ++ (putUvarint (keyAt kvs b).length ++
      (putUvarint (valAt kvs b).length ++ (keyAt kvs b ++ (valAt kvs b ++
        (rest ++ (((restartOffs R 0 0 [] kvs).map le32).flatten ++
          le32 (restartOffs R 0 0 [] kvs).length)))))) := by
    rw [hdata]
    show fullBlock R kvs = _
    rw [fullBlock, hsplit, hE]
    simp [List.append_assoc]
  have hd0 : i.data.drop (offAt R kvs b + 1) =
      putUvarint (keyAt kvs b).length ++ (putUvarint (valAt kvs b).length ++
        (keyAt kvs b ++ (valAt kvs b ++ (rest ++
          (((restartOffs R 0 0 [] kvs).map le32).flatten ++
            le32 (restartOffs R 0 0 [] kvs).length))))) := by
    rw [hdata1]
    rw [show offAt R kvs b + 1 = (pre ++ [0]).length from by
      simp [List.length_append, hprelen]]
    exact List.drop_left _ _
  have he1 := decodeUvarint_putUvarint_append (keyAt kvs b).length
    (putUvarint (valAt kvs b).length ++ (keyAt kvs b ++ (valAt kvs b ++ (rest ++
      (((restartOffs R 0 0 [] kvs).map le32).flatten ++
        le32 (restartOffs R 0 0 [] kvs).length))))) (by omega)
  have hd1 : i.data.drop (offAt R kvs b + 1 + (putUvarint (keyAt kvs b).length).length) =
      putUvarint (valAt kvs b).length ++ (keyAt kvs b ++ (valAt kvs b ++ (rest ++
        (((restartOffs R 0 0 [] kvs).map le32).flatten ++
          le32 (restartOffs R 0 0 [] kvs).length)))) := by
    rw [hdata1]
    rw [show offAt R kvs b + 1 + (putUvarint (keyAt kvs b).length).length =
      ((pre ++ [0]) ++ putUvarint (keyAt kvs b).length).length from by
      simp [List.length_append, hprelen]
      omega]
    rw [show (pre ++ [0]) ++ (putUvarint (keyAt kvs b).length ++
        (putUvarint (valAt kvs b).length ++ (keyAt kvs b ++ (valAt kvs b ++ (rest ++
          (((restartOffs R 0 0 [] kvs).map le32).flatten ++
            le32 (restartOffs R 0 0 [] kvs).length)))))) =
      ((pre ++ [0]) ++ putUvarint (keyAt kvs b).length) ++
        (putUvarint (valAt kvs b).length ++ (keyAt kvs b ++ (valAt kvs b ++ (rest ++
          (((restartOffs R 0 0 [] kvs).map le32).flatten ++
            le32 (restartOffs R 0 0 [] kvs).length))))) from by
      simp [List.append_assoc]]
    exact List.drop_left _ _
  have he2 := decodeUvarint_putUvarint_append (valAt kvs b).length
    (keyAt kvs b ++ (valAt kvs b ++ (rest ++
      (((restartOffs R 0 0 [] kvs).map le32).flatten ++
        le32 (restartOffs R 0 0 [] kvs).length)))) (by omega)
  have hd2 : i.data.drop (offAt R kvs b + 1 + (putUvarint (keyAt kvs b).length).length +
      (putUvarint (valAt kvs b).length).length) =
      keyAt kvs b ++ (valAt kvs b ++ (rest ++
        (((restartOffs R 0 0 [] kvs).map le32).flatten ++
          le32 (restartOffs R 0 0 [] kvs).length))) := by
    rw [hdata1]
    rw [show offAt R kvs b + 1 + (putUvarint (keyAt kvs b).length).length +
        (putUvarint (valAt kvs b).length).length =
      (((pre ++ [0]) ++ putUvarint (keyAt kvs b).length) ++
        putUvarint (valAt kvs b).length).length from by
      simp [List.length_append, hprelen]
      omega]
    rw [show (pre ++ [0]) ++ (putUvarint (keyAt kvs b).length ++
        (putUvarint (valAt kvs b).length ++ (keyAt kvs b ++ (valAt kvs b ++ (rest ++
          (((restartOffs R 0 0 [] kvs).map le32).flatten ++
            le32 (restartOffs R 0 0 [] kvs).length)))))) =
      (((pre ++ [0]) ++ putUvarint (keyAt kvs b).length) ++
        putUvarint (valAt kvs b).length) ++
        (keyAt kvs b ++ (valAt kvs b ++ (rest ++
          (((restartOffs R 0 0 [] kvs).map le32).flatten ++
            le32 (restartOffs R 0 0 [] kvs).length)))) from by
      simp [List.append_assoc]]
    exact List.drop_left _ _
  simp only [hd0, he1, hd1, he2, hd2]
  exact List.take_left _ _

theorem seekGE_eq (i : BlockIter) (key : List Nat) :
    i.seekGE key =
      (let probe := makeSearchKey key
       let i0 : BlockIter := { i with offset := 0 }
       let index := sortSearch i0.numRestarts (seekGEPred i0 probe)
       let i1 : BlockIter := if 0 < index then
         { i0 with offset := ((i0.restartOffset (index - 1) : Nat) : Int) } else i0
       let i2 := i1.loadEntry
       i2.seekGEScan probe (i2.data.length + 1)) := rfl

/-- `SeekGE` on a strictly sorted block positions at the least entry at or
above the probe, or goes invalid when every entry is below the probe. -/
theorem seekGE_spec (R : Nat) (hR : 1 ≤ R) (kvs : List (List Nat × List Nat))
    (hnpos : 0 < kvs.length)
    (HB : ∀ kv ∈ kvs, kv.1.length < 128 ^ 10 ∧ kv.2.length < 128 ^ 10)
    (hszD : (blockData R kvs).length < 2 ^ 32)
    (hsorted : ∀ a b : Nat, a < b → b < kvs.length →
      internalCompare (decodeIK (keyAt kvs a)) (decodeIK (keyAt kvs b)) = .lt)
    (key : List Nat) :
    (∃ t, t < kvs.length ∧
      internalCompare (decodeIK (keyAt kvs t)) (makeSearchKey key) ≠ .lt ∧
      (∀ m, m < t → internalCompare (decodeIK (keyAt kvs m)) (makeSearchKey key) = .lt) ∧
      FwdOK R kvs (fullBlock R kvs) t ((initIter R kvs).seekGE key)) ∨
    ((∀ t, t < kvs.length → internalCompare (decodeIK (keyAt kvs t)) (makeSearchKey key) = .lt) ∧
      ¬ ((initIter R kvs).seekGE key).valid) := by
  obtain ⟨cnt, hRS, hub, hpos, hzero⟩ := restartOffs_eq_map R hR kvs
  obtain ⟨hcnt_pos, hlt⟩ := hpos hnpos
  have hRSlen : (restartOffs R 0 0 [] kvs).length = cnt := by rw [hRS]; simp
  have hvals : ∀ x ∈ restartOffs R 0 0 [] kvs, x < 2 ^ 32 :=
    restart_values_bounded R hR kvs hszD
  have hnum : (initIter R kvs).numRestarts = cnt := hRSlen
  have hro : ∀ t, t < cnt → (initIter R kvs).restartOffset t = offAt R kvs (R * t) := by
    intro t ht
    have hshape : (initIter R kvs).data = blockData R kvs ++
        ((restartOffs R 0 0 [] kvs).map le32).flatten ++
        le32 (restartOffs R 0 0 [] kvs).length := rfl
    rw [restartOffset_spec (initIter R kvs) (blockData R kvs) (restartOffs R 0 0 [] kvs)
      (le32 (restartOffs R 0 0 [] kvs).length) t hshape rfl (by rw [hRSlen]; exact ht) hvals]
    rw [hRS]
    rw [List.getD_eq_getElem _ _ (by simpa using ht), List.getElem_map, List.getElem_range]
  simp only [seekGE_eq]
  have h00 : ({ initIter R kvs with offset := 0 } : BlockIter) = initIter R kvs := rfl
  rw [h00]
  set F := seekGEPred (initIter R kvs) (makeSearchKey key) with hFdef
  have hFt : ∀ t, t < cnt →
      F t = decide (internalCompare (makeSearchKey key)
        (decodeIK (keyAt kvs (R * t))) = .lt) := by
    intro t ht
    have hRtn : R * t < kvs.length := by
      have h1 : R * t ≤ R * (cnt - 1) := Nat.mul_le_mul (le_refl R) (by omega)
      omega
    rw [hFdef]
    simp only [seekGEPred]
    rw [hro t ht]
    rw [restart_probe_key R kvs HB (R * t) (Nat.mul_mod_right R t) hRtn (initIter R kvs) rfl]
  have hmono : ∀ a b : Nat, a ≤ b → b < cnt → F a = true → F b = true := by
    intro a b hab hb hfa
    rw [hFt a (by omega)] at hfa
    rw [hFt b hb]
    simp only [decide_eq_true_eq] at hfa ⊢
    rcases Nat.eq_or_lt_of_le hab with heq | hlt'
    · subst heq; exact hfa
    · have hRb : R * b < kvs.length := by
        have h1 : R * b ≤ R * (cnt - 1) := Nat.mul_le_mul (le_refl R) (by omega)
        omega
      have hRa_lt : R * a < R * b := mul_lt_mul_of_pos_left hlt' (by omega)
      exact internalCompare_lt_trans _ _ _ hfa (hsorted (R * a) (R * b) hRa_lt hRb)
  have hmono' : ∀ a b : Nat, a ≤ b → b < (initIter R kvs).numRestarts →
      F a = true → F b = true := by
    rw [hnum]
    exact hmono
  obtain ⟨hbelow, habove, hle⟩ := sortSearch_spec F (initIter R kvs).numRestarts hmono'
  set idx := sortSearch (initIter R kvs).numRestarts F with hidxdef
  have hlecnt : idx ≤ cnt := hnum ▸ hle
  have hfb : (blockData R kvs).length ≤ (fullBlock R kvs).length := by
    rw [fullBlock]
    simp only [List.length_append]
    omega
  have h3n := blockData_length_ge R kvs
  rcases Nat.eq_zero_or_pos idx with hidx0 | hidxpos
  · rw [hidx0]
    rw [if_neg (lt_irrefl 0)]
    have hload0 : FwdOK R kvs (fullBlock R kvs) 0 ((initIter R kvs).loadEntry) :=
      restartLoad_spec R kvs HB 0 (Nat.zero_mod R) hnpos (initIter R kvs) rfl rfl rfl
    have hfuel0 : kvs.length - 0 ≤ ((initIter R kvs).loadEntry).data.length + 1 := by
      rw [hload0.hdata]
      omega
    rcases seekGEScan_spec R kvs HB (makeSearchKey key) _ 0 _ hload0 hfuel0 with
      ⟨t, hbt, htn, hge, hmid, hfwd⟩ | ⟨hall, hnv⟩
    · left
      exact ⟨t, htn, hge, fun m hm => hmid m (Nat.zero_le m) hm, hfwd⟩
    · right
      exact ⟨fun t htn => hall t (Nat.zero_le t) htn, hnv⟩
  · rw [if_pos hidxpos]
    have hq : idx - 1 < cnt := by omega
    have hbn : R * (idx - 1) < kvs.length := by
      have h1 : R * (idx - 1) ≤ R * (cnt - 1) := Nat.mul_le_mul (le_refl R) (by omega)
      omega
    have hfq : F (idx - 1) = false := hbelow (idx - 1) (by omega)
    have hnotlt : internalCompare (makeSearchKey key)
        (decodeIK (keyAt kvs (R * (idx - 1)))) ≠ .lt := by
      rw [hFt (idx - 1) hq] at hfq
      simpa only [decide_eq_false_iff_not] using hfq
    have hpre : ∀ m, m < R * (idx - 1) →
        internalCompare (decodeIK (keyAt kvs m)) (makeSearchKey key) = .lt := by
      intro m hm
      have hmlt : internalCompare (decodeIK (keyAt kvs m))
          (decodeIK (keyAt kvs (R * (idx - 1)))) = .lt := hsorted m _ hm hbn
      rcases ho : internalCompare (makeSearchKey key)
          (decodeIK (keyAt kvs (R * (idx - 1)))) with _ | _ | _
      · exact absurd ho hnotlt
      · have heq := (internalCompare_eq_iff _ _).mp ho
        rw [← heq] at hmlt
        exact hmlt
      · have hblt : internalCompare (decodeIK (keyAt kvs (R * (idx - 1))))
            (makeSearchKey key) = .lt := (internalCompare_lt_gt _ _).mpr ho
        exact internalCompare_lt_trans _ _ _ hmlt hblt
    rw [hro (idx - 1) hq]
    have hload := restartLoad_spec R kvs HB (R * (idx - 1))
      (Nat.mul_mod_right R _) hbn (initIter R kvs) rfl rfl rfl
    have hfuel : kvs.length - R * (idx - 1) ≤
        (({ initIter R kvs with
            offset := ((offAt R kvs (R * (idx - 1)) : Nat) : Int) } :
          BlockIter).loadEntry).data.length + 1 := by
      rw [hload.hdata]
      omega
    rcases seekGEScan_spec R kvs HB (makeSearchKey key) _ (R * (idx - 1)) _ hload hfuel with
      ⟨t, hbt, htn, hge, hmid, hfwd⟩ | ⟨hall, hnv⟩
    · left
      refine ⟨t, htn, hge, ?_, hfwd⟩
      intro m hm
      rcases Nat.lt_or_ge m (R * (idx - 1)) with hmb | hmb
      · exact hpre m hmb
      · exact hmid m hmb hm
    · right
      refine ⟨?_, hnv⟩
      intro t htn
      rcases Nat.lt_or_ge t (R * (idx - 1)) with htb | htb
      · exact hpre t htb
      · exact hall t htb htn

theorem loadEntry_offset (i : BlockIter) : i.loadEntry.offset = i.offset := rfl

theorem loadEntry_restarts (i : BlockIter) : i.loadEntry.restarts = i.restarts := rfl

theorem seekGEScan_valid (i : BlockIter) (probe : InternalKey) (fuel : Nat)
    (h : (BlockIter.seekGEScan i probe fuel).valid) : i.valid := by
  by_cases hiv : i.valid
  · exact hiv
  · rw [seekGEScan_invalid _ _ _ hiv] at h
    exact absurd h hiv

/-- `SeekGE` on a block whose data part is empty (restart table at offset
zero) leaves the iterator invalid. -/
theorem seekGE_res0_invalid (it : BlockIter) (key : List Nat)
    (hres : it.restarts = 0) : ¬ (it.seekGE key).valid := by
  simp only [seekGE_eq]
  intro hv
  obtain ⟨-, h2b⟩ := seekGEScan_valid _ _ _ hv
  rw [loadEntry_offset, loadEntry_restarts] at h2b
  rw [apply_ite BlockIter.offset, apply_ite BlockIter.restarts] at h2b
  simp only [ite_self] at h2b
  split at h2b
  · rw [show ({ it with offset := 0 } : BlockIter).restarts = it.restarts from rfl,
      hres] at h2b
    have := Int.natCast_nonneg
      (({ it with offset := 0 } : BlockIter).restartOffset
        (sortSearch ({ it with offset := 0 } : BlockIter).numRestarts
          (seekGEPred { it with offset := 0 } (makeSearchKey key)) - 1))
    omega
  · rw [show ({ it with offset := 0 } : BlockIter).restarts = it.restarts from rfl,
      hres] at h2b
    omega

theorem chain'_lt_getD (es : List (InternalKey × List Nat))
    (h : es.Chain' fun a b => internalCompare a.1 b.1 = .lt) :
    ∀ a b, a < b → b < es.length →
      internalCompare (es.getD a (⟨[], 0⟩, [])).1 (es.getD b (⟨[], 0⟩, [])).1 = .lt := by
  haveI : IsTrans (InternalKey × List Nat) (fun a b => internalCompare a.1 b.1 = .lt) :=
    ⟨fun a b c hab hbc => internalCompare_lt_trans _ _ _ hab hbc⟩
  have hp : es.Pairwise (fun a b => internalCompare a.1 b.1 = .lt) :=
    List.chain'_iff_pairwise.mp h
  intro a b hab hb
  rw [List.getD_eq_getElem _ _ (by omega), List.getD_eq_getElem _ _ hb]
  exact List.pairwise_iff_getElem.mp hp a b (by omega) hb hab

theorem encKVs_keyAt (es : List (InternalKey × List Nat)) (j : Nat) (hj : j < es.length) :
    keyAt (encKVs es) j = encodeIK (es.getD j (⟨[], 0⟩, [])).1 := by
  unfold keyAt encKVs
  rw [List.getD_eq_getElem _ _ (by simpa using hj), List.getElem_map,
    List.getD_eq_getElem _ _ hj]

theorem encKVs_valAt (es : List (InternalKey × List Nat)) (j : Nat) (hj : j < es.length) :
    valAt (encKVs es) j = (es.getD j (⟨[], 0⟩, [])).2 := by
  unfold valAt encKVs
  rw [List.getD_eq_getElem _ _ (by simpa using hj), List.getElem_map,
    List.getD_eq_getElem _ _ hj]

theorem getD_mem_of_lt (es : List (InternalKey × List Nat)) (j : Nat) (hj : j < es.length) :
    es.getD j (⟨[], 0⟩, []) ∈ es := by
  rw [List.getD_eq_getElem _ _ hj]
  exact List.getElem_mem hj

theorem decodeIK_encKVs_keyAt (es : List (InternalKey × List Nat))
    (htr : ∀ e ∈ es, e.1.trailer < 2 ^ 64) (j : Nat) (hj : j < es.length) :
    decodeIK (keyAt (encKVs es) j) = (es.getD j (⟨[], 0⟩, [])).1 := by
  rw [encKVs_keyAt es j hj]
  exact decodeIK_encodeIK _ (htr _ (getD_mem_of_lt es j hj))

/-- C2 (amended): for every block encoding entries in strictly increasing
internal-key order and every user key `k`, after `SeekGE k` the iterator is
valid iff some entry's internal key is at least the probe
`(k, MaxSeq, Max)`, and in that case it is positioned at the smallest such
entry (its ikey and value are exposed). The original claim assumed only
non-decreasing order, which the counterexample below refutes. -/
theorem C2_seekGE (R : Nat) (es : List (InternalKey × List Nat))
    (hR : 1 ≤ R)
    (hsorted : es.Chain' fun a b => internalCompare a.1 b.1 = .lt)
    (htr : ∀ e ∈ es, e.1.trailer < 2 ^ 64)
    (hszkv : ∀ e ∈ es, e.1.userKey.length < 2 ^ 20 ∧ e.2.length < 2 ^ 20)
    (hsz : (((mkBlockWriter R).addAll es).finish).length < 2 ^ 32)
    (key : List Nat) :
    ∃ it : BlockIter,
      newBlockIter (((mkBlockWriter R).addAll es).finish) = .ok it ∧
      ((it.seekGE key).valid ↔
        ∃ e ∈ es, internalCompare e.1 (makeSearchKey key) ≠ .lt) ∧
      ∀ j, j < es.length →
        internalCompare (es.getD j (⟨[], 0⟩, [])).1 (makeSearchKey key) ≠ .lt →
        (∀ m, m < j →
          internalCompare (es.getD m (⟨[], 0⟩, [])).1 (makeSearchKey key) = .lt) →
        (it.seekGE key).ikey = (es.getD j (⟨[], 0⟩, [])).1 ∧
        (it.seekGE key).val = (es.getD j (⟨[], 0⟩, [])).2 := by
  by_cases hne : es = []
  · subst hne
    rw [finish_addAll_nil]
    refine ⟨_, rfl, ?_, ?_⟩
    · constructor
      · intro hv
        exact absurd hv (seekGE_res0_invalid _ key (by decide))
      · rintro ⟨e, he, -⟩
        simp at he
    · intro j hj
      simp at hj
  · have hespos : 0 < es.length := List.length_pos.mpr hne
    have hnpos : 0 < (encKVs es).length := by rw [encKVs_length]; exact hespos
    have hbig : (2 : Nat) ^ 20 + 8 < 128 ^ 10 := by norm_num
    have HB : ∀ kv ∈ encKVs es, kv.1.length < 128 ^ 10 ∧ kv.2.length < 128 ^ 10 := by
      intro kv hkv
      obtain ⟨e, he, rfl⟩ := List.mem_map.mp hkv
      obtain ⟨h1, h2⟩ := hszkv e he
      refine ⟨?_, ?_⟩
      · show (encodeIK e.1).length < 128 ^ 10
        rw [encodeIK_length]
        omega
      · show e.2.length < 128 ^ 10
        omega
    rw [finish_addAll_nonempty R es hne] at hsz ⊢
    obtain ⟨cnt, hRS, hub, hpos, hzero⟩ := restartOffs_eq_map R hR (encKVs es)
    obtain ⟨hcnt_pos, hlt⟩ := hpos hnpos
    have hRSlen : (restartOffs R 0 0 [] (encKVs es)).length = cnt := by rw [hRS]; simp
    have hDfull : (blockData R (encKVs es)).length ≤ (fullBlock R (encKVs es)).length := by
      rw [fullBlock]
      simp [List.length_append]
    have hszD : (blockData R (encKVs es)).length < 2 ^ 32 := by omega
    have hRSne : restartOffs R 0 0 [] (encKVs es) ≠ [] := by
      intro h
      rw [h] at hRSlen
      simp at hRSlen
      omega
    have h3n := blockData_length_ge R (encKVs es)
    have hcnt32 : (restartOffs R 0 0 [] (encKVs es)).length < 2 ^ 32 := by
      rw [hRSlen]
      have hc1 : cnt - 1 ≤ R * (cnt - 1) := Nat.le_mul_of_pos_left (cnt - 1) (by omega)
      omega
    have hinit := init_spec (blockData R (encKVs es)) (restartOffs R 0 0 [] (encKVs es)) 0
      hRSne hcnt32
    have hsorted' : ∀ a b : Nat, a < b → b < (encKVs es).length →
        internalCompare (decodeIK (keyAt (encKVs es) a))
          (decodeIK (keyAt (encKVs es) b)) = .lt := by
      intro a b hab hb
      rw [encKVs_length] at hb
      rw [decodeIK_encKVs_keyAt es htr a (by omega), decodeIK_encKVs_keyAt es htr b hb]
      exact chain'_lt_getD es hsorted a b hab hb
    have hspec := seekGE_spec R hR (encKVs es) hnpos HB hszD hsorted' key
    refine ⟨initIter R (encKVs es), ?_, ?_, ?_⟩
    · show BlockIter.init (fullBlock R (encKVs es)) 0 = _
      exact hinit
    · constructor
      · intro hv
        rcases hspec with ⟨t, htn, hge, hmid, hfwd⟩ | ⟨hall, hnv⟩
        · have htn' : t < es.length := by rw [encKVs_length] at htn; exact htn
          refine ⟨es.getD t (⟨[], 0⟩, []), getD_mem_of_lt es t htn', ?_⟩
          rw [← decodeIK_encKVs_keyAt es htr t htn']
          exact hge
        · exact absurd hv hnv
      · rintro ⟨e, he, hge⟩
        rcases hspec with ⟨t, htn, hge', hmid, hfwd⟩ | ⟨hall, hnv⟩
        · exact FwdOK.valid' _ _ _ _ _ hfwd
        · exfalso
          obtain ⟨j, hjl, hej⟩ := List.getElem_of_mem he
          have h1 := hall j (by rw [encKVs_length]; exact hjl)
          rw [decodeIK_encKVs_keyAt es htr j hjl] at h1
          rw [List.getD_eq_getElem _ _ hjl, hej] at h1
          exact absurd h1 hge
    · intro j hj hgej hltm
      rcases hspec with ⟨t, htn, hge', hmid, hfwd⟩ | ⟨hall, hnv⟩
      · have htn' : t < es.length := by rw [encKVs_length] at htn; exact htn
        obtain rfl : t = j := by
          rcases Nat.lt_trichotomy t j with h1 | h1 | h1
          · have h2 := hltm t h1
            rw [← decodeIK_encKVs_keyAt es htr t htn'] at h2
            exact absurd h2 hge'
          · exact h1
          · have h2 := hmid j h1
            rw [decodeIK_encKVs_keyAt es htr j hj] at h2
            exact absurd h2 hgej
        refine ⟨?_, ?_⟩
        · rw [hfwd.hikey]
          exact decodeIK_encKVs_keyAt es htr t hj
        · rw [hfwd.hval]
          exact encKVs_valAt es t hj
      · exfalso
        have h1 := hall j (by rw [encKVs_length]; exact hj)
        rw [decodeIK_encKVs_keyAt es htr j hj] at h1
        exact absurd h1 hgej

/-- C2 counterexample: with merely non-decreasing order (two entries with
equal internal keys, restart interval 1), entry 0 already satisfies
`ikey ≥ probe`, yet `SeekGE` lands on entry 1 (value `[5]`, not `[4]`): the
binary search puts the iterator past the first qualifying entry, so the
original "smallest entry" claim fails. -/
theorem C2_counterexample :
    ∃ it : BlockIter,
      newBlockIter (((mkBlockWriter 1).addAll
        [(makeSearchKey [97], [4]), (makeSearchKey [97], [5])]).finish) = .ok it ∧
      List.Chain' (fun a b => internalCompare a.1 b.1 ≠ .gt)
        [(makeSearchKey [97], [4]), (makeSearchKey [97], [5])] ∧
      internalCompare (makeSearchKey [97]) (makeSearchKey [97]) ≠ .lt ∧
      (it.seekGE [97]).valid ∧
      (it.seekGE [97]).val = [5] := by
  refine ⟨_, rfl, ?_, ?_, ?_, ?_⟩
  · simp [List.chain'_cons, internalCompare, byteCompare]
  · decide
  · decide
  · decide

theorem C2_seekGE_witness :
    ∃ it : BlockIter,
      newBlockIter (((mkBlockWriter 1).addAll
        [(⟨[97], 513⟩, [1, 2]), (⟨[98], 259⟩, [7])]).finish) = .ok it ∧
      ((it.seekGE [98]).valid ↔
        ∃ e ∈ [((⟨[97], 513⟩ : InternalKey), [1, 2]), (⟨[98], 259⟩, [7])],
          internalCompare e.1 (makeSearchKey [98]) ≠ .lt) ∧
      ∀ j, j < ([((⟨[97], 513⟩ : InternalKey), [1, 2]), (⟨[98], 259⟩, [7])]).length →
        internalCompare ((([((⟨[97], 513⟩ : InternalKey), [1, 2]),
            (⟨[98], 259⟩, [7])]).getD j (⟨[], 0⟩, [])).1) (makeSearchKey [98]) ≠ .lt →
        (∀ m, m < j →
          internalCompare ((([((⟨[97], 513⟩ : InternalKey), [1, 2]),
            (⟨[98], 259⟩, [7])]).getD m (⟨[], 0⟩, [])).1) (makeSearchKey [98]) = .lt) →
        (it.seekGE [98]).ikey =
          (([((⟨[97], 513⟩ : InternalKey), [1, 2]), (⟨[98], 259⟩, [7])]).getD j (⟨[], 0⟩, [])).1 ∧
        (it.seekGE [98]).val =
          (([((⟨[97], 513⟩ : InternalKey), [1, 2]), (⟨[98], 259⟩, [7])]).getD j (⟨[], 0⟩, [])).2 :=
  C2_seekGE 1 [(⟨[97], 513⟩, [1, 2]), (⟨[98], 259⟩, [7])] (by decide)
    (by simp [List.chain'_cons, internalCompare, byteCompare]) (by decide) (by decide)
    (by decide) [98]

/-- `logAndApply` without a panicking edit returns an ordinary result. -/
theorem logAndApply_no_panic (vs : versionSet) (ve : versionEdit) (newV : version)
    (ops : manifestOps)
    (hno : ¬ (ve.logNumber ≠ 0 ∧
      (ve.logNumber < vs.logNumber ∨ vs.nextFileNumber ≤ ve.logNumber)))
    (hrefs : newV.refs = 0) :
    ∃ r, vs.logAndApply ve newV ops = .ok r := by
  simp only [versionSet.logAndApply]
  rw [if_neg hno]
  cases happly : ops.applyErr with
  | some e => exact ⟨_, rfl⟩
  | none =>
    cases hcr : (if vs.hasManifest then none else ops.createErr) with
    | some e => exact ⟨_, rfl⟩
    | none =>
      cases hnext : ops.nextErr with
      | some e => exact ⟨_, rfl⟩
      | none =>
        cases henc : ops.encodeErr with
        | some e => exact ⟨_, rfl⟩
        | none =>
          cases hfl : ops.flushErr with
          | some e => exact ⟨_, rfl⟩
          | none =>
            cases hsy : ops.syncErr with
            | some e => exact ⟨_, rfl⟩
            | none =>
              cases hcur : ops.setCurrentErr with
              | some e => exact ⟨_, rfl⟩
              | none =>
                have happ : ({ vs with hasManifest := true } : versionSet).append newV =
                    .ok { vs with
                      hasManifest := true
                      versions :=
                        (if ({ vs with hasManifest := true } :
                            versionSet).versions.isEmpty then
                          ({ vs with hasManifest := true } : versionSet).versions
                        else unrefBackList ({ vs with hasManifest := true} :
                          versionSet).versions) ++ [{ newV with refs := newV.refs + 1 }] } := by
                  unfold versionSet.append
                  rw [if_neg (by simp [hrefs])]
                rw [happ]
                exact ⟨_, rfl⟩

/-- C3: logAndApply ordering and failure atomicity — the record is
appended, the writer flushed and the manifest fsynced strictly before
CURRENT is rewritten, and the new version (and the log numbers) is
installed only after CURRENT; the performed events always form a prefix
of that order, a failing step returns its error (the first failing
step's) with no later event performed and the version list and log
numbers unchanged, and on success the new version is current. -/
theorem C3_logAndApply (vs : versionSet) (ve : versionEdit) (newV : version)
    (ops : manifestOps)
    (hpanic : ¬ (ve.logNumber ≠ 0 ∧
      (ve.logNumber < vs.logNumber ∨ vs.nextFileNumber ≤ ve.logNumber)))
    (hrefs : newV.refs = 0) :
    ∃ err tr vs',
      vs.logAndApply ve newV ops = .ok (err, tr, vs') ∧
      (∃ k, k ≤ 5 ∧ tr = logAndApplyTrace.take k) ∧
      (err = none ↔ tr = logAndApplyTrace) ∧
      (mEv.installVersion ∈ tr ↔ err = none) ∧
      (err ≠ none → vs'.versions = vs.versions ∧ vs'.logNumber = vs.logNumber ∧
        vs'.prevLogNumber = vs.prevLogNumber) ∧
      (err = none → vs'.currentVersion = some { newV with refs := newV.refs + 1 }) ∧
      err = firstError ops.applyErr (firstError
        (if vs.hasManifest then none else ops.createErr) (firstError ops.nextErr
          (firstError ops.encodeErr (firstError ops.flushErr
            (firstError ops.syncErr ops.setCurrentErr))))) := by
  simp only [versionSet.logAndApply]
  rw [if_neg hpanic]
  cases happly : ops.applyErr with
  | some e =>
    refine ⟨_, _, _, rfl, ⟨0, by omega, rfl⟩, by simp [logAndApplyTrace],
      by simp [logAndApplyTrace], fun _ => ⟨rfl, rfl, rfl⟩, ?_, by simp [firstError, happly]⟩
    intro h
    exact absurd h (by simp)
  | none =>
    cases hcr : (if vs.hasManifest then none else ops.createErr) with
    | some e =>
      refine ⟨_, _, _, rfl, ⟨0, by omega, rfl⟩, by simp [logAndApplyTrace],
        by simp [logAndApplyTrace], fun _ => ⟨rfl, rfl, rfl⟩, ?_, by simp [firstError, happly, hcr]⟩
      intro h
      exact absurd h (by simp)
    | none =>
      cases hnext : ops.nextErr with
      | some e =>
        refine ⟨_, _, _, rfl, ⟨0, by omega, rfl⟩, by simp [logAndApplyTrace],
          by simp [logAndApplyTrace], fun _ => ⟨rfl, rfl, rfl⟩, ?_,
          by simp [firstError, happly, hcr, hnext]⟩
        intro h
        exact absurd h (by simp)
      | none =>
        cases henc : ops.encodeErr with
        | some e =>
          refine ⟨_, _, _, rfl, ⟨0, by omega, rfl⟩, by simp [logAndApplyTrace],
            by simp [logAndApplyTrace], fun _ => ⟨rfl, rfl, rfl⟩, ?_,
            by simp [firstError, happly, hcr, hnext, henc]⟩
          intro h
          exact absurd h (by simp)
        | none =>
          cases hfl : ops.flushErr with
          | some e =>
            refine ⟨_, _, _, rfl, ⟨1, by omega, rfl⟩, by simp [logAndApplyTrace],
              by simp [logAndApplyTrace], fun _ => ⟨rfl, rfl, rfl⟩, ?_,
              by simp [firstError, happly, hcr, hnext, henc, hfl]⟩
            intro h
            exact absurd h (by simp)
          | none =>
            cases hsy : ops.syncErr with
            | some e =>
              refine ⟨_, _, _, rfl, ⟨2, by omega, rfl⟩, by simp [logAndApplyTrace],
                by simp [logAndApplyTrace], fun _ => ⟨rfl, rfl, rfl⟩, ?_,
                by simp [firstError, happly, hcr, hnext, henc, hfl, hsy]⟩
              intro h
              exact absurd h (by simp)
            | none =>
              cases hcur : ops.setCurrentErr with
              | some e =>
                refine ⟨_, _, _, rfl, ⟨3, by omega, rfl⟩, by simp [logAndApplyTrace],
                  by simp [logAndApplyTrace], fun _ => ⟨rfl, rfl, rfl⟩, ?_,
                  by simp [firstError, happly, hcr, hnext, henc, hfl, hsy, hcur]⟩
                intro h
                exact absurd h (by simp)
              | none =>
                have happ : ({ vs with hasManifest := true } : versionSet).append newV =
                    .ok { vs with
                      hasManifest := true
                      versions :=
                        (if ({ vs with hasManifest := true } :
                            versionSet).versions.isEmpty then
                          ({ vs with hasManifest := true } : versionSet).versions
                        else unrefBackList ({ vs with hasManifest := true} :
                          versionSet).versions) ++ [{ newV with refs := newV.refs + 1 }] } := by
                  unfold versionSet.append
                  rw [if_neg (by simp [hrefs])]
                rw [happ]
                refine ⟨_, _, _, rfl, ⟨5, by omega, rfl⟩, by simp [logAndApplyTrace],
                  by simp [logAndApplyTrace], fun h => absurd rfl h, ?_,
                  by simp [firstError, happly, hcr, hnext, henc, hfl, hsy, hcur]⟩
                intro _
                simp [versionSet.currentVersion, List.getLast?_concat]

/-- C4: logAndApply validates a nonzero edit logNumber against
`[vs.logNumber, vs.nextFileNumber)` and panics (modelled `.error`) when it
falls outside; with a zero logNumber (or an in-range one) no validation
aborts and the call runs to an ordinary result. -/
theorem C4_logNumber_validation (vs : versionSet) (ve : versionEdit) (newV : version)
    (ops : manifestOps) (hrefs : newV.refs = 0) :
    (ve.logNumber ≠ 0 → (ve.logNumber < vs.logNumber ∨ vs.nextFileNumber ≤ ve.logNumber) →
      vs.logAndApply ve newV ops = .error "pebble: inconsistent versionEdit logNumber") ∧
    (¬ (ve.logNumber ≠ 0 ∧ (ve.logNumber < vs.logNumber ∨ vs.nextFileNumber ≤ ve.logNumber)) →
      ∃ r, vs.logAndApply ve newV ops = .ok r) := by
  constructor
  · intro h1 h2
    unfold versionSet.logAndApply
    rw [if_pos ⟨h1, h2⟩]
  · intro hno
    exact logAndApply_no_panic vs ve newV ops hno hrefs

theorem C4_witness :
    ((5 : Nat) ≠ 0 → ((5 : Nat) < 3 ∨ (4 : Nat) ≤ 5) →
      versionSet.logAndApply { initialVS "c" with logNumber := 3, nextFileNumber := 4 }
        ⟨"c", 5, 0, 0, 0⟩ ⟨0, 0⟩ ⟨none, none, none, none, none, none, none⟩ =
        .error "pebble: inconsistent versionEdit logNumber") ∧
    (¬ ((5 : Nat) ≠ 0 ∧ ((5 : Nat) < 3 ∨ (4 : Nat) ≤ 5)) →
      ∃ r, versionSet.logAndApply { initialVS "c" with logNumber := 3, nextFileNumber := 4 }
        ⟨"c", 5, 0, 0, 0⟩ ⟨0, 0⟩ ⟨none, none, none, none, none, none, none⟩ = .ok r) := by
  have h := C4_logNumber_validation
    { initialVS "c" with logNumber := 3, nextFileNumber := 4 }
    ⟨"c", 5, 0, 0, 0⟩ ⟨0, 0⟩ ⟨none, none, none, none, none, none, none⟩ rfl
  constructor
  · intro h1 h2
    exact h.1 (by decide) (by decide)
  · intro hno
    exact absurd ⟨by decide, by decide⟩ hno

theorem C3_witness :
    ∃ err tr vs',
      versionSet.logAndApply (initialVS "c") ⟨"c", 0, 0, 0, 0⟩ ⟨7, 0⟩
        ⟨none, none, none, none, none, none, none⟩ = .ok (err, tr, vs') ∧
      (∃ k, k ≤ 5 ∧ tr = logAndApplyTrace.take k) ∧
      (err = none ↔ tr = logAndApplyTrace) ∧
      (mEv.installVersion ∈ tr ↔ err = none) ∧
      (err ≠ none → vs'.versions = (initialVS "c").versions ∧
        vs'.logNumber = (initialVS "c").logNumber ∧
        vs'.prevLogNumber = (initialVS "c").prevLogNumber) ∧
      (err = none → vs'.currentVersion =
        some { (⟨7, 0⟩ : version) with refs := (⟨7, 0⟩ : version).refs + 1 }) ∧
      err = firstError none (firstError
        (if (initialVS "c").hasManifest then none else none) (firstError none
          (firstError none (firstError none (firstError none none))))) :=
  C3_logAndApply (initialVS "c") ⟨"c", 0, 0, 0, 0⟩ ⟨7, 0⟩
    ⟨none, none, none, none, none, none, none⟩ (by decide) rfl

/-- C5: after the manifest replay, an accumulated `logNumber` of zero is a
fatal "incomplete manifest" corruption unless `nextFileNumber` still has
its initial value 2, which marks a freshly created DB and lets `load`
succeed. -/
theorem C5_load_check (cmpName : String) (edits : List versionEdit) (newV : version)
    (vs1 : versionSet)
    (hok : loadLoop cmpName (initialVS cmpName) edits = .ok vs1)
    (hlog : vs1.logNumber = 0)
    (hrefs : newV.refs = 0) :
    (vs1.nextFileNumber ≠ 2 →
      versionSet.load cmpName edits newV =
        .ok (some "pebble: incomplete manifest file", vs1)) ∧
    (vs1.nextFileNumber = 2 →
      ∃ vs', versionSet.load cmpName edits newV = .ok (none, vs') ∧
        vs'.currentVersion = some { newV with refs := newV.refs + 1 }) := by
  have happ : ∀ w : versionSet, w.append newV =
      .ok { w with versions := (if w.versions.isEmpty then w.versions
        else unrefBackList w.versions) ++ [{ newV with refs := newV.refs + 1 }] } := by
    intro w
    unfold versionSet.append
    rw [if_neg (by simp [hrefs])]
  simp only [versionSet.load, hok]
  rw [if_pos (Or.inl hlog)]
  constructor
  · intro h2
    rw [if_neg h2]
  · intro h2
    rw [if_pos h2]
    simp only [loadFinish, happ]
    refine ⟨_, rfl, ?_⟩
    simp [versionSet.currentVersion, List.getLast?_concat]

theorem C5_witness :
    (({ initialVS "c" with nextFileNumber := 7 } : versionSet).nextFileNumber ≠ 2 →
      versionSet.load "c" [⟨"", 0, 0, 7, 0⟩] ⟨1, 0⟩ =
        .ok (some "pebble: incomplete manifest file",
          { initialVS "c" with nextFileNumber := 7 })) ∧
    ∃ vs', versionSet.load "c" [] ⟨1, 0⟩ = .ok (none, vs') ∧
      vs'.currentVersion = some { (⟨1, 0⟩ : version) with refs := (⟨1, 0⟩ : version).refs + 1 } :=
  ⟨(C5_load_check "c" [⟨"", 0, 0, 7, 0⟩] ⟨1, 0⟩
      { initialVS "c" with nextFileNumber := 7 } (by rfl) rfl rfl).1,
   (C5_load_check "c" [] ⟨1, 0⟩ (initialVS "c") rfl rfl rfl).2 rfl⟩

/-- C6: `versionSet.append` panics (modelled `.error`) on a referenced
version; otherwise the previously current version (the old back of the
list) is unreffed — the resulting list is exactly the old list with its
back unreffed via `unrefBackList` (a no-op on an empty list) followed by
the new version — and the new version is installed as the last node
holding one reference (the list's), and `currentVersion` returns exactly
that node, whose refcount is nonzero. -/
theorem C6_append (vs : versionSet) (v : version) :
    (v.refs ≠ 0 → vs.append v = .error "pebble: version should be unreferenced") ∧
    (v.refs = 0 → ∃ vs', vs.append v = .ok vs' ∧
      vs'.versions = (if vs.versions.isEmpty then vs.versions
        else unrefBackList vs.versions) ++ [{ v with refs := 1 }] ∧
      vs'.versions.getLast? = some { v with refs := 1 } ∧
      vs'.currentVersion = some { v with refs := 1 } ∧
      ({ v with refs := 1 } : version).refs ≠ 0) := by
  constructor
  · intro h
    unfold versionSet.append
    rw [if_pos h]
  · intro h
    unfold versionSet.append
    rw [if_neg (by simp [h])]
    refine ⟨_, rfl, ?_, ?_, ?_, by simp⟩
    · simp [h]
    · simp [h, List.getLast?_concat]
    · simp [versionSet.currentVersion, h, List.getLast?_concat]

theorem C6_witness :
    ((⟨3, 0⟩ : version).refs ≠ 0 →
      versionSet.append { initialVS "c" with versions := [⟨1, 2⟩] } ⟨3, 0⟩ =
        .error "pebble: version should be unreferenced") ∧
    ((⟨3, 0⟩ : version).refs = 0 → ∃ vs',
      versionSet.append { initialVS "c" with versions := [⟨1, 2⟩] } ⟨3, 0⟩ = .ok vs' ∧
      vs'.versions = (if ({ initialVS "c" with versions := [⟨1, 2⟩] } :
          versionSet).versions.isEmpty then
        ({ initialVS "c" with versions := [⟨1, 2⟩] } : versionSet).versions
        else unrefBackList ({ initialVS "c" with versions := [⟨1, 2⟩] } :
          versionSet).versions) ++ [{ (⟨3, 0⟩ : version) with refs := 1 }] ∧
      vs'.versions.getLast? = some { (⟨3, 0⟩ : version) with refs := 1 } ∧
      vs'.currentVersion = some { (⟨3, 0⟩ : version) with refs := 1 } ∧
      ({ (⟨3, 0⟩ : version) with refs := 1 } : version).refs ≠ 0) :=
  C6_append { initialVS "c" with versions := [⟨1, 2⟩] } ⟨3, 0⟩

/-- C7: `nextFileNum` returns the current counter and bumps it, so
successive calls return strictly increasing numbers and the counter never
decreases; `markFileNumUsed n` establishes `n < nextFileNumber`, leaving
the counter unchanged when it already exceeds `n` (no-overflow side
conditions on the 64-bit counter). -/
theorem C7_fileNum (vs : versionSet) (n : Nat)
    (hov : vs.nextFileNumber + 1 < 2 ^ 64) (hn : n + 1 < 2 ^ 64) :
    vs.nextFileNum.1 = vs.nextFileNumber ∧
    vs.nextFileNum.2.nextFileNumber = vs.nextFileNumber + 1 ∧
    vs.nextFileNum.1 < vs.nextFileNum.2.nextFileNum.1 ∧
    vs.nextFileNumber ≤ (vs.markFileNumUsed n).nextFileNumber ∧
    n < (vs.markFileNumUsed n).nextFileNumber ∧
    (n < vs.nextFileNumber → vs.markFileNumUsed n = vs) := by
  unfold versionSet.nextFileNum versionSet.markFileNumUsed
  have hm : (vs.nextFileNumber + 1) % 2 ^ 64 = vs.nextFileNumber + 1 := Nat.mod_eq_of_lt hov
  have hm2 : (n + 1) % 2 ^ 64 = n + 1 := Nat.mod_eq_of_lt hn
  refine ⟨rfl, hm, ?_, ?_, ?_, ?_⟩
  · show vs.nextFileNumber < (vs.nextFileNumber + 1) % 2 ^ 64
    omega
  · by_cases hle : vs.nextFileNumber ≤ n
    · rw [if_pos hle]
      show vs.nextFileNumber ≤ (n + 1) % 2 ^ 64
      omega
    · rw [if_neg hle]
  · by_cases hle : vs.nextFileNumber ≤ n
    · rw [if_pos hle]
      show n < (n + 1) % 2 ^ 64
      omega
    · rw [if_neg hle]
      omega
  · intro hlt
    rw [if_neg (by omega)]

theorem C7_witness :
    (initialVS "c").nextFileNum.1 = (initialVS "c").nextFileNumber ∧
    (initialVS "c").nextFileNum.2.nextFileNumber = (initialVS "c").nextFileNumber + 1 ∧
    (initialVS "c").nextFileNum.1 < (initialVS "c").nextFileNum.2.nextFileNum.1 ∧
    (initialVS "c").nextFileNumber ≤ ((initialVS "c").markFileNumUsed 5).nextFileNumber ∧
    5 < ((initialVS "c").markFileNumUsed 5).nextFileNumber ∧
    (5 < (initialVS "c").nextFileNumber → (initialVS "c").markFileNumUsed 5 = initialVS "c") :=
  C7_fileNum (initialVS "c") 5 (by decide) (by decide)

theorem firstError_some (e : String) (e1 : Option String) :
    firstError (some e) e1 = some e := rfl

theorem l0Finish_err (st : l0State) (fileNum : Nat) (meta : fileMetadata)
    (err : Option String) (iterOpen twOpen : Bool) (ie te : Option String)
    (h : (l0Finish st fileNum meta err iterOpen twOpen ie te).2.2 ≠ none) :
    (l0Finish st fileNum meta err iterOpen twOpen ie te).1.pendingOutputs =
      st.pendingOutputs.erase fileNum ∧
    (l0Finish st fileNum meta err iterOpen twOpen ie te).1.files =
      st.files.erase fileNum ∧
    (l0Finish st fileNum meta err iterOpen twOpen ie te).2.1 = fileMetadata.zero := by
  simp only [l0Finish] at h ⊢
  by_cases he : (if twOpen then
      firstError (if iterOpen then firstError err ie else err) te
    else if iterOpen then firstError err ie else err) = none
  · exact absurd he h
  · simp [he]

theorem l0Finish_ok (st : l0State) (fileNum : Nat) (meta : fileMetadata)
    (err : Option String) (iterOpen twOpen : Bool) (ie te : Option String)
    (h : (l0Finish st fileNum meta err iterOpen twOpen ie te).2.2 = none) :
    (l0Finish st fileNum meta err iterOpen twOpen ie te).1 = st ∧
    (l0Finish st fileNum meta err iterOpen twOpen ie te).2.1 = meta := by
  simp only [l0Finish] at h ⊢
  by_cases he : (if twOpen then
      firstError (if iterOpen then firstError err ie else err) te
    else if iterOpen then firstError err ie else err) = none
  · simp [he]
  · exact absurd h (by simp [he])

theorem l0Finish_err_of_some (st : l0State) (fileNum : Nat) (meta : fileMetadata)
    (e : String) (iterOpen twOpen : Bool) (ie te : Option String) :
    (l0Finish st fileNum meta (some e) iterOpen twOpen ie te).2.2 ≠ none := by
  cases iterOpen <;> cases twOpen <;> simp [l0Finish, firstError]

/-- C8: writeLevel0Table error atomicity — on a non-nil error the
allocated file number is gone from `pendingOutputs` again, the table file
is gone from the filesystem, and the returned metadata is the zero value;
on success the file number stays in `pendingOutputs` and names the
returned table. -/
theorem C8_writeLevel0Table (d : l0State) (entries : List (List Nat × List Nat))
    (ops : l0Ops)
    (hfreshF : d.nextFileNumber ∉ d.files)
    (hfreshP : d.nextFileNumber ∉ d.pendingOutputs) :
    ((writeLevel0Table d entries ops).2.2 ≠ none →
      d.nextFileNumber ∉ (writeLevel0Table d entries ops).1.pendingOutputs ∧
      d.nextFileNumber ∉ (writeLevel0Table d entries ops).1.files ∧
      (writeLevel0Table d entries ops).2.1 = fileMetadata.zero) ∧
    ((writeLevel0Table d entries ops).2.2 = none →
      d.nextFileNumber ∈ (writeLevel0Table d entries ops).1.pendingOutputs ∧
      (writeLevel0Table d entries ops).2.1.fileNum = d.nextFileNumber) := by
  have key : ∃ st' meta' err' io two ie te,
      writeLevel0Table d entries ops =
        l0Finish st' d.nextFileNumber meta' err' io two ie te ∧
      st'.pendingOutputs = d.nextFileNumber :: d.pendingOutputs ∧
      (st'.files = d.files ∨ st'.files = d.nextFileNumber :: d.files) ∧
      (err' = none → meta'.fileNum = d.nextFileNumber) := by
    simp only [writeLevel0Table]
    by_cases hemp : entries.isEmpty
    · rw [if_pos hemp]
      exact ⟨_, _, _, _, _, _, _, rfl, rfl, Or.inl rfl, fun h => Option.noConfusion h⟩
    · rw [if_neg hemp]
      cases hcr : ops.createErr with
      | some e =>
        exact ⟨_, _, _, _, _, _, _, rfl, rfl, Or.inl rfl, fun h => Option.noConfusion h⟩
      | none =>
        cases hadd : addLoop ops 0 entries with
        | some e =>
          exact ⟨_, _, _, _, _, _, _, rfl, rfl, Or.inr rfl, fun h => Option.noConfusion h⟩
        | none =>
          cases hic : ops.iterCloseErr with
          | some e =>
            exact ⟨_, _, _, _, _, _, _, rfl, rfl, Or.inr rfl, fun h => Option.noConfusion h⟩
          | none =>
            cases htc : ops.twCloseErr with
            | some e =>
              exact ⟨_, _, _, _, _, _, _, rfl, rfl, Or.inr rfl, fun h => Option.noConfusion h⟩
            | none =>
              cases hst : ops.statErr with
              | some e =>
                exact ⟨_, _, _, _, _, _, _, rfl, rfl, Or.inr rfl,
                  fun h => Option.noConfusion h⟩
              | none =>
                by_cases hsz : ops.statSize < 0
                · rw [if_pos hsz]
                  exact ⟨_, _, _, _, _, _, _, rfl, rfl, Or.inr rfl,
                    fun h => Option.noConfusion h⟩
                · rw [if_neg hsz]
                  exact ⟨_, _, _, _, _, _, _, rfl, rfl, Or.inr rfl, fun _ => rfl⟩
  obtain ⟨st', meta', err', io, two, ie, te, heq, hP, hF, hM⟩ := key
  rw [heq]
  constructor
  · intro hne
    obtain ⟨h1, h2, h3⟩ := l0Finish_err st' _ meta' err' io two ie te hne
    refine ⟨?_, ?_, h3⟩
    · rw [h1, hP, List.erase_cons_head]
      exact hfreshP
    · rw [h2]
      rcases hF with hF | hF
      · rw [hF, List.erase_of_not_mem hfreshF]
        exact hfreshF
      · rw [hF, List.erase_cons_head]
        exact hfreshF
  · intro hnone
    obtain ⟨h1, h2⟩ := l0Finish_ok st' _ meta' err' io two ie te hnone
    have herr : err' = none := by
      cases herr' : err' with
      | none => rfl
      | some e =>
        rw [herr'] at hnone
        exact absurd hnone (l0Finish_err_of_some st' _ meta' e io two ie te)
    refine ⟨?_, ?_⟩
    · rw [h1, hP]
      exact List.mem_cons_self _ _
    · rw [h2]
      exact hM herr

theorem C8_witness :
    ((writeLevel0Table ⟨5, [], []⟩ [([1], [2])]
        ⟨none, fun _ => none, none, none, none, none, 3⟩).2.2 ≠ none →
      (5 : Nat) ∉ (writeLevel0Table ⟨5, [], []⟩ [([1], [2])]
        ⟨none, fun _ => none, none, none, none, none, 3⟩).1.pendingOutputs ∧
      (5 : Nat) ∉ (writeLevel0Table ⟨5, [], []⟩ [([1], [2])]
        ⟨none, fun _ => none, none, none, none, none, 3⟩).1.files ∧
      (writeLevel0Table ⟨5, [], []⟩ [([1], [2])]
        ⟨none, fun _ => none, none, none, none, none, 3⟩).2.1 = fileMetadata.zero) ∧
    ((writeLevel0Table ⟨5, [], []⟩ [([1], [2])]
        ⟨none, fun _ => none, none, none, none, none, 3⟩).2.2 = none →
      (5 : Nat) ∈ (writeLevel0Table ⟨5, [], []⟩ [([1], [2])]
        ⟨none, fun _ => none, none, none, none, none, 3⟩).1.pendingOutputs ∧
      (writeLevel0Table ⟨5, [], []⟩ [([1], [2])]
        ⟨none, fun _ => none, none, none, none, none, 3⟩).2.1.fileNum = 5) :=
  C8_writeLevel0Table ⟨5, [], []⟩ [([1], [2])]
    ⟨none, fun _ => none, none, none, none, none, 3⟩ (by decide) (by decide)

/-- C10: a memtable iterator that is invalid after `First()` (an empty
memtable) makes writeLevel0Table return the "pebble: memtable empty"
error with zero metadata, and no table file is created. -/
theorem C10_empty_memtable (d : l0State) (ops : l0Ops)
    (hfreshF : d.nextFileNumber ∉ d.files) :
    (writeLevel0Table d [] ops).2.2 = some "pebble: memtable empty" ∧
    (writeLevel0Table d [] ops).2.1 = fileMetadata.zero ∧
    (writeLevel0Table d [] ops).1.files = d.files := by
  have heq : writeLevel0Table d [] ops =
      l0Finish
        { { d with nextFileNumber := (d.nextFileNumber + 1) % 2 ^ 64 } with
            pendingOutputs := d.nextFileNumber ::
              ({ d with nextFileNumber := (d.nextFileNumber + 1) % 2 ^ 64 } :
                l0State).pendingOutputs }
        d.nextFileNumber fileMetadata.zero (some "pebble: memtable empty") true false
        ops.iterCloseErr ops.twCloseErr := rfl
  rw [heq]
  simp [l0Finish, firstError, List.erase_of_not_mem hfreshF]

theorem C10_witness :
    (writeLevel0Table ⟨5, [], [9]⟩ []
      ⟨none, fun _ => none, none, none, none, none, 3⟩).2.2 =
        some "pebble: memtable empty" ∧
    (writeLevel0Table ⟨5, [], [9]⟩ []
      ⟨none, fun _ => none, none, none, none, none, 3⟩).2.1 = fileMetadata.zero ∧
    (writeLevel0Table ⟨5, [], [9]⟩ []
      ⟨none, fun _ => none, none, none, none, none, 3⟩).1.files = [9] :=
  C10_empty_memtable ⟨5, [], [9]⟩ ⟨none, fun _ => none, none, none, none, none, 3⟩
    (by decide)

/-- C9 (amended): `Close` on an already-closed DB returns nil immediately
(the code documents "It is valid to call Close multiple times"; there is
no `Closed` error), while the first `Close` marks the DB closed and
returns the first error of the underlying closes. The original claim that
a second `Close` (or any later API call) returns a `Closed` error is
refuted by the counterexample below. -/
theorem C9_close (d : dbState) (ops : closeOps) :
    (d.closed = true → dbClose d ops = (d, none)) ∧
    (d.closed = false → (dbClose d ops).1.closed = true ∧
      (dbClose d ops).2 =
        firstError (firstError ops.tableCacheErr ops.logErr) ops.fileLockErr) := by
  constructor
  · intro h
    unfold dbClose
    rw [if_pos h]
  · intro h
    unfold dbClose
    rw [if_neg (by simp [h])]
    exact ⟨rfl, rfl⟩

/-- C9 counterexample: after a first `Close` has returned, a second
`Close` returns nil — not an error, in particular not a `Closed` error
(no such error value exists in the code). -/
theorem C9_counterexample :
    (dbClose (dbClose ⟨false⟩ ⟨none, none, none⟩).1 ⟨none, none, none⟩).2 = none ∧
    ∀ e : String,
      (dbClose (dbClose ⟨false⟩ ⟨none, none, none⟩).1 ⟨none, none, none⟩).2 ≠ some e := by
  refine ⟨rfl, ?_⟩
  intro e h
  exact Option.noConfusion h

theorem C9_witness :
    ((⟨true⟩ : dbState).closed = true →
      dbClose ⟨true⟩ ⟨some "x", none, none⟩ = (⟨true⟩, none)) ∧
    ((⟨true⟩ : dbState).closed = false →
      (dbClose ⟨true⟩ ⟨some "x", none, none⟩).1.closed = true ∧
      (dbClose ⟨true⟩ ⟨some "x", none, none⟩).2 =
        firstError (firstError (some "x") none) none) :=
  C9_close ⟨true⟩ ⟨some "x", none, none⟩
